import Mathlib

/-!
# goskiplist: a verification development

A shallow embedding of `skiplist.go`.  Go pointers `*Elem` are addresses into an
explicit heap (a list of cells, `none` is `nil`); every operation threads the heap.
A run-time panic of the Go program (nil dereference, index out of range) and a loop
that does not finish within its fuel are reported as a `Fault`, separately from the
ordinary `ErrNotFound` return value.

The operations compare keys through the class `Key`, which holds the Go comparisons
`>=`, `==` and `<` of the key type; it is instantiated for linear orders (Go integers and
strings) and for `float64` keys, whose `NaN` makes every comparison false.  The value
type `V` stands for the Go pointer type `*V`, whose `nil` is `default`.
-/

namespace GoSkipList

/-! ## Data model -/

/-- Abnormal terminations: the two Go panics the code can raise, and fuel exhaustion
of a loop of the model (a loop that would not return). -/
inductive Fault where
  | nilDeref
  | indexOutOfRange
  | outOfFuel
  deriving DecidableEq

/-- The error values of the package (`ErrNotFound` is the only one). -/
inductive GoError where
  | ErrNotFound
  deriving DecidableEq

/-- `Elem[K, V]`: the forward links `next` (level 0, 1, 2, ...), the key and the value. -/
structure Elem (K V : Type) where
  next : List (Option Nat)
  k : K
  v : V

/-- The heap: cell `a` is the `Elem` stored at address `a`. -/
abbrev Heap (K V : Type) := List (Elem K V)

/-- `SkipList[K, V]` without its lock; `head` is the address of the sentinel and
`length` is the `int32` counter. `level` is a Go `int` that `NewSkipList` keeps
within `0..64`. -/
structure SkipList (K V : Type) where
  stepSize : Int
  level : Nat
  length : Int
  head : Nat
  heap : Heap K V

def DefaultSkipStepSize : Int := 4

def DefaultSkipLevel : Int := 16

def MaxSkipLevel : Int := 64

/-- Two's complement wrap-around of a mathematical integer into `int32`. -/
def wrap32 (x : Int) : Int := (x + 2147483648) % 4294967296 - 2147483648

/-- `atomic.AddInt32(&x, d)`. -/
def addInt32 (x d : Int) : Int := wrap32 (x + d)

variable {K V : Type}

/-- The comparisons that the code makes on keys of a type of the constraint `Key`:
`ge a b` is the Go expression `a >= b`, `eq a b` is `a == b` and `lt a b` is `a < b`. -/
class Key (K : Type) where
  ge : K → K → Bool
  eq : K → K → Bool
  lt : K → K → Bool

/-- Key types on which the Go comparisons are those of a linear order: the integer types
and strings. -/
instance Key.ofLinearOrder [LinearOrder K] : Key K where
  ge a b := decide (b ≤ a)
  eq a b := decide (a = b)
  lt a b := decide (a < b)

/-- The `float64` keys as far as the comparisons see them: `NaN`, or a number, of which
the integer-valued ones are represented. -/
inductive Float64Key where
  | nan
  | num (x : Int)
  deriving DecidableEq

/-- The zero value of `float64` is `0.0`. -/
instance : Inhabited Float64Key := ⟨.num 0⟩

/-- The comparisons of `float64`: every comparison with `NaN` is false. -/
instance : Key Float64Key where
  ge a b :=
    match a, b with
    | .num x, .num y => decide (y ≤ x)
    | _, _ => false
  eq a b :=
    match a, b with
    | .num x, .num y => decide (x = y)
    | _, _ => false
  lt a b :=
    match a, b with
    | .num x, .num y => decide (x < y)
    | _, _ => false

/-! ## Heap accesses -/

/-- `a.next[i]` for a non-nil pointer `a`. -/
def nextAt (h : Heap K V) (a i : Nat) : Except Fault (Option Nat) :=
  match h[a]? with
  | none => .error .nilDeref
  | some e =>
    match e.next[i]? with
    | none => .error .indexOutOfRange
    | some p => .ok p

/-- `a.k`. -/
def keyAt (h : Heap K V) (a : Nat) : Except Fault K :=
  match h[a]? with
  | none => .error .nilDeref
  | some e => .ok e.k

/-- `a.v`. -/
def valAt (h : Heap K V) (a : Nat) : Except Fault V :=
  match h[a]? with
  | none => .error .nilDeref
  | some e => .ok e.v

/-- `len(a.next)`. -/
def lenAt (h : Heap K V) (a : Nat) : Except Fault Nat :=
  match h[a]? with
  | none => .error .nilDeref
  | some e => .ok e.next.length

/-- `a.next[i] = p`. -/
def setNext (h : Heap K V) (a i : Nat) (p : Option Nat) : Except Fault (Heap K V) :=
  match h[a]? with
  | none => .error .nilDeref
  | some e =>
    if i < e.next.length then .ok (h.set a { e with next := e.next.set i p })
    else .error .indexOutOfRange

/-- `a.v = v`. -/
def setVal (h : Heap K V) (a : Nat) (v : V) : Except Fault (Heap K V) :=
  match h[a]? with
  | none => .error .nilDeref
  | some e => .ok (h.set a { e with v := v })

/-! ## The operations -/

/-- `NewSkipList(stepSize, level)`: the sentinel is the only cell, at address 0. -/
def NewSkipList [Inhabited K] [Inhabited V] (stepSize level : Int) : SkipList K V :=
  let stepSize := if stepSize < 2 then DefaultSkipStepSize else stepSize
  let level := if level < 0 ∨ level > MaxSkipLevel then DefaultSkipLevel else level
  { stepSize := stepSize
    level := level.toNat
    length := 0
    head := 0
    heap := [{ next := List.replicate (level.toNat + 1) none, k := default, v := default }] }

def StepSize (s : SkipList K V) : Int := s.stepSize

def Level (s : SkipList K V) : Int := s.level

def Length (s : SkipList K V) : Int := s.length

/-- The loop of `randomLevel`; `rnd l` is the outcome of the call of
`rand.Intn(s.stepSize)` made when the counter is `l`. -/
def randomLevelLoop (level : Nat) (rnd : Nat → Int) : Nat → Nat → Nat
  | 0, l => l
  | fuel + 1, l => if l < level ∧ rnd l = 0 then randomLevelLoop level rnd fuel (l + 1) else l

def randomLevel (s : SkipList K V) (rnd : Nat → Int) : Nat :=
  randomLevelLoop s.level rnd s.level 0

/-- Outcome of the inner loop of `Find` at one level. -/
inductive FindStep (V : Type) where
  | found (v : V)
  | stop (el : Nat)

/-- Inner loop of `Find` at level `i`, from the cursor `el`. -/
def findScan [Key K] (h : Heap K V) (k : K) (i : Nat) :
    Nat → Nat → Except Fault (FindStep V)
  | 0, _ => .error .outOfFuel
  | fuel + 1, el =>
    match nextAt h el i with
    | .error f => .error f
    | .ok none => .ok (.stop el)
    | .ok (some n) =>
      match keyAt h n with
      | .error f => .error f
      | .ok kn =>
        if Key.ge k kn then
          if Key.eq k kn then
            match valAt h n with
            | .error f => .error f
            | .ok v => .ok (.found v)
          else findScan h k i fuel n
        else .ok (.stop el)

/-- Outer loop of `Find`: `n` levels remain, the current level is `n - 1`. -/
def findLevels [Key K] (h : Heap K V) (k : K) (fuel : Nat) :
    Nat → Nat → Except Fault (Option V)
  | 0, _ => .ok none
  | n + 1, el =>
    match findScan h k n fuel el with
    | .error f => .error f
    | .ok (.found v) => .ok (some v)
    | .ok (.stop el') => findLevels h k fuel n el'

/-- `Find(k)`: `some v` is `(v, nil)`, `none` is `(nil, ErrNotFound)`. -/
def Find [Key K] (s : SkipList K V) (k : K) : Except Fault (Option V) :=
  findLevels s.heap k s.heap.length (s.level + 1) s.head

/-- `FindMin()`. -/
def FindMin (s : SkipList K V) : Except Fault (Option V) :=
  match nextAt s.heap s.head 0 with
  | .error f => .error f
  | .ok none => .ok none
  | .ok (some n) =>
    match valAt s.heap n with
    | .error f => .error f
    | .ok v => .ok (some v)

/-- Inner loop of `FindMax` at level `i`. -/
def maxScan (h : Heap K V) (i : Nat) : Nat → Nat → Except Fault Nat
  | 0, _ => .error .outOfFuel
  | fuel + 1, el =>
    match nextAt h el i with
    | .error f => .error f
    | .ok none => .ok el
    | .ok (some n) => maxScan h i fuel n

/-- Outer loop of `FindMax`. -/
def maxLevels (h : Heap K V) (fuel : Nat) : Nat → Nat → Except Fault Nat
  | 0, el => .ok el
  | n + 1, el =>
    match maxScan h n fuel el with
    | .error f => .error f
    | .ok el' => maxLevels h fuel n el'

/-- `FindMax()`. -/
def FindMax (s : SkipList K V) : Except Fault (Option V) :=
  match maxLevels s.heap s.heap.length (s.level + 1) s.head with
  | .error f => .error f
  | .ok el =>
    if el = s.head then .ok none
    else
      match valAt s.heap el with
      | .error f => .error f
      | .ok v => .ok (some v)

/-- Outcome of the inner loop of `Put` at one level: the key was there and the heap
with the value replaced is returned, or the loop stopped at a cursor. -/
inductive PutStep (K V : Type) where
  | replaced (h : Heap K V)
  | stop (el : Nat)

/-- Inner loop of `Put` at level `i`. -/
def putScan [Key K] (h : Heap K V) (k : K) (v : V) (i : Nat) :
    Nat → Nat → Except Fault (PutStep K V)
  | 0, _ => .error .outOfFuel
  | fuel + 1, el =>
    match nextAt h el i with
    | .error f => .error f
    | .ok none => .ok (.stop el)
    | .ok (some n) =>
      match keyAt h n with
      | .error f => .error f
      | .ok kn =>
        if Key.ge k kn then
          if Key.eq k kn then
            match setVal h n v with
            | .error f => .error f
            | .ok h' => .ok (.replaced h')
          else putScan h k v i fuel n
        else .ok (.stop el)

/-- Outcome of the search loop of `Put`. -/
inductive PutSearch (K V : Type) where
  | replaced (h : Heap K V)
  | pres (ps : List (Option Nat))

/-- Outer search loop of `Put`; `pres[i] = el` is done for the levels `i ≤ lv`. -/
def putLevels [Key K] (h : Heap K V) (k : K) (v : V) (lv fuel : Nat) :
    Nat → Nat → List (Option Nat) → Except Fault (PutSearch K V)
  | 0, _, pres => .ok (.pres pres)
  | n + 1, el, pres =>
    match putScan h k v n fuel el with
    | .error f => .error f
    | .ok (.replaced h') => .ok (.replaced h')
    | .ok (.stop el') =>
      if n > lv then putLevels h k v lv fuel n el' pres
      else if n < pres.length then putLevels h k v lv fuel n el' (pres.set n (some el'))
      else .error .indexOutOfRange

/-- The linking loop of `Put`: `e.next[i] = pres[i].next[i]; pres[i].next[i] = &e`
for `i = n - 1, ..., 0`. -/
def putLink (pres : List (Option Nat)) (e : Nat) : Nat → Heap K V → Except Fault (Heap K V)
  | 0, h => .ok h
  | n + 1, h =>
    match pres[n]? with
    | none => .error .indexOutOfRange
    | some none => .error .nilDeref
    | some (some p) =>
      match nextAt h p n with
      | .error f => .error f
      | .ok q =>
        match setNext h e n q with
        | .error f => .error f
        | .ok h1 =>
          match setNext h1 p n (some e) with
          | .error f => .error f
          | .ok h2 => putLink pres e n h2

/-- `Put(k, v)`. The element `e` escapes only on the insertion path, where its cell
is appended to the heap before it is linked. The returned error is `nil` (`none`)
on both return statements. -/
def Put [Key K] (s : SkipList K V) (k : K) (v : V) (rnd : Nat → Int) :
    Except Fault (Option GoError × SkipList K V) :=
  let lv := randomLevel s rnd
  match putLevels s.heap k v lv s.heap.length (s.level + 1) s.head
      (List.replicate (lv + 1) none) with
  | .error f => .error f
  | .ok (.replaced h') => .ok (none, { s with heap := h' })
  | .ok (.pres pres) =>
    match putLink pres s.heap.length (lv + 1)
        (s.heap ++ [{ next := List.replicate (lv + 1) none, k := k, v := v }]) with
    | .error f => .error f
    | .ok h2 => .ok (none, { s with heap := h2, length := addInt32 s.length 1 })

/-- Inner loop of `Pop` at level `i`: the heap, the cursor and the value captured at
this level, if the key was met. -/
def popScan [Key K] (h : Heap K V) (k : K) (i : Nat) :
    Nat → Nat → Except Fault (Heap K V × Nat × Option V)
  | 0, _ => .error .outOfFuel
  | fuel + 1, el =>
    match nextAt h el i with
    | .error f => .error f
    | .ok none => .ok (h, el, none)
    | .ok (some n) =>
      match keyAt h n with
      | .error f => .error f
      | .ok kn =>
        if Key.ge k kn then
          if Key.eq k kn then
            match valAt h n with
            | .error f => .error f
            | .ok v =>
              match nextAt h n i with
              | .error f => .error f
              | .ok nn =>
                match setNext h el i nn with
                | .error f => .error f
                | .ok h' => .ok (h', el, some v)
          else popScan h k i fuel n
        else .ok (h, el, none)

/-- Outer loop of `Pop`; `acc` is the pair `has, v`. -/
def popLevels [Key K] (k : K) (fuel : Nat) :
    Nat → Heap K V → Nat → Option V → Except Fault (Heap K V × Option V)
  | 0, h, _, acc => .ok (h, acc)
  | n + 1, h, el, acc =>
    match popScan h k n fuel el with
    | .error f => .error f
    | .ok (h', el', r) =>
      popLevels k fuel n h' el' (match r with
        | some v => some v
        | none => acc)

/-- `Pop(k)`. -/
def Pop [Key K] (s : SkipList K V) (k : K) :
    Except Fault (Option V × SkipList K V) :=
  match popLevels k s.heap.length (s.level + 1) s.heap s.head none with
  | .error f => .error f
  | .ok (h', some v) => .ok (some v, { s with heap := h', length := addInt32 s.length (-1) })
  | .ok (h', none) => .ok (none, { s with heap := h' })

/-- The loop of `PopMin`: `s.head.next[i] = el.next[i]` for `i = n - 1, ..., 0`. -/
def popMinLoop (hd el : Nat) : Nat → Heap K V → Except Fault (Heap K V)
  | 0, h => .ok h
  | n + 1, h =>
    match nextAt h el n with
    | .error f => .error f
    | .ok p =>
      match setNext h hd n p with
      | .error f => .error f
      | .ok h' => popMinLoop hd el n h'

/-- `PopMin()`. -/
def PopMin (s : SkipList K V) : Except Fault (Option V × SkipList K V) :=
  match nextAt s.heap s.head 0 with
  | .error f => .error f
  | .ok none => .ok (none, s)
  | .ok (some el) =>
    match lenAt s.heap el with
    | .error f => .error f
    | .ok n =>
      match popMinLoop s.head el n s.heap with
      | .error f => .error f
      | .ok h' =>
        match valAt h' el with
        | .error f => .error f
        | .ok v => .ok (some v, { s with heap := h', length := addInt32 s.length (-1) })

/-- First inner loop of `PopMax` at level `i`: run to the end of the level,
remembering the cell left last in `pre`. -/
def popMaxScan (h : Heap K V) (i : Nat) : Nat → Nat → Option Nat → Except Fault (Nat × Option Nat)
  | 0, _, _ => .error .outOfFuel
  | fuel + 1, el, pre =>
    match nextAt h el i with
    | .error f => .error f
    | .ok none => .ok (el, pre)
    | .ok (some n) => popMaxScan h i fuel n (some el)

/-- Second inner loop of `PopMax` at level `i`: move `pre` forward while the key
after it is smaller than the key of `el`. -/
def popMaxPre [Key K] (h : Heap K V) (i el : Nat) : Nat → Option Nat → Except Fault (Option Nat)
  | _, none => .ok none
  | 0, some _ => .error .outOfFuel
  | fuel + 1, some p =>
    match nextAt h p i with
    | .error f => .error f
    | .ok none => .error .nilDeref
    | .ok (some q) =>
      match keyAt h q with
      | .error f => .error f
      | .ok kq =>
        match keyAt h el with
        | .error f => .error f
        | .ok ke => if Key.lt kq ke then popMaxPre h i el fuel (some q) else .ok (some p)

/-- Outer search loop of `PopMax`. -/
def popMaxLevels [Key K] (h : Heap K V) (fuel : Nat) :
    Nat → Nat → Option Nat → List (Option Nat) → Except Fault (Nat × List (Option Nat))
  | 0, el, _, pres => .ok (el, pres)
  | n + 1, el, pre, pres =>
    match popMaxScan h n fuel el pre with
    | .error f => .error f
    | .ok (el', pre') =>
      match popMaxPre h n el' fuel pre' with
      | .error f => .error f
      | .ok pre'' =>
        if n < pres.length then popMaxLevels h fuel n el' pre'' (pres.set n pre'')
        else .error .indexOutOfRange

/-- The unlinking loop of `PopMax`: `pres[i].next[i] = nil` for `i = n - 1, ..., 0`. -/
def popMaxUnlink (pres : List (Option Nat)) : Nat → Heap K V → Except Fault (Heap K V)
  | 0, h => .ok h
  | n + 1, h =>
    match pres[n]? with
    | none => .error .indexOutOfRange
    | some none => .error .nilDeref
    | some (some p) =>
      match setNext h p n none with
      | .error f => .error f
      | .ok h' => popMaxUnlink pres n h'

/-- `PopMax()`. -/
def PopMax [Key K] (s : SkipList K V) : Except Fault (Option V × SkipList K V) :=
  match popMaxLevels s.heap s.heap.length (s.level + 1) s.head none
      (List.replicate (s.level + 1) none) with
  | .error f => .error f
  | .ok (el, pres) =>
    if el = s.head then .ok (none, s)
    else
      match lenAt s.heap el with
      | .error f => .error f
      | .ok n =>
        match popMaxUnlink pres n s.heap with
        | .error f => .error f
        | .ok h' =>
          match valAt h' el with
          | .error f => .error f
          | .ok v => .ok (some v, { s with heap := h', length := addInt32 s.length (-1) })

/-! ## Observations used in the statements -/

/-- Key stored at address `a` (the zero value when `a` is not allocated). -/
def keyOf [Inhabited K] (h : Heap K V) (a : Nat) : K :=
  match h[a]? with
  | some e => e.k
  | none => default

/-- Value stored at address `a`. -/
def valOf [Inhabited V] (h : Heap K V) (a : Nat) : V :=
  match h[a]? with
  | some e => e.v
  | none => default

/-- Number of forward links of the cell at `a`, `0` when `a` is not allocated. -/
def lenOf (h : Heap K V) (a : Nat) : Nat :=
  match h[a]? with
  | some e => e.next.length
  | none => 0

/-- Follow the level `i` links from `a`, collecting the cells met after `a`. -/
def walk (h : Heap K V) (i : Nat) : Nat → Nat → List Nat
  | 0, _ => []
  | fuel + 1, a =>
    match nextAt h a i with
    | .ok (some b) => b :: walk h i fuel b
    | _ => []

/-- The level `i` chain of the list: the cells reached from the head along level `i`,
the head itself excluded. -/
def chainOf (s : SkipList K V) (i : Nat) : List Nat :=
  walk s.heap i s.heap.length s.head

/-- The links of level `i` lead from `a` through exactly the cells `l`, and the last
of them (or `a` if there is none) has `t` as its level `i` link. -/
def Chain (h : Heap K V) (i : Nat) : Nat → List Nat → Option Nat → Prop
  | a, [], t => nextAt h a i = .ok t
  | a, b :: l, t => nextAt h a i = .ok (some b) ∧ Chain h i b l t

/-- The lists obtained from `NewSkipList` by the mutating public operations. -/
inductive Reachable [Key K] [Inhabited K] [Inhabited V] : SkipList K V → Prop where
  | new (stepSize level : Int) : Reachable (NewSkipList stepSize level)
  | put {s s' : SkipList K V} {r : Option GoError} (k : K) (v : V) (rnd : Nat → Int) :
      Reachable s → Put s k v rnd = .ok (r, s') → Reachable s'
  | pop {s s' : SkipList K V} {r : Option V} (k : K) :
      Reachable s → Pop s k = .ok (r, s') → Reachable s'
  | popMin {s s' : SkipList K V} {r : Option V} :
      Reachable s → PopMin s = .ok (r, s') → Reachable s'
  | popMax {s s' : SkipList K V} {r : Option V} :
      Reachable s → PopMax s = .ok (r, s') → Reachable s'

/-- Linear lookup of `k` in the level 0 chain. -/
def lookup0 [DecidableEq K] [Inhabited K] [Inhabited V] (s : SkipList K V) (k : K) : Option V :=
  ((chainOf s 0).find? (fun a => decide (keyOf s.heap a = k))).map (valOf s.heap)

/-! ## Specification vocabulary -/

/-- Last element of `a :: l`. -/
def lastOr : Nat → List Nat → Nat
  | a, [] => a
  | _, b :: l => lastOr b l

/-- Where a scan for `k` that starts at `el` and sees the cells `l` stops when it
meets no cell with key `k`: the last cell of the initial run of keys below `k`. -/
def scanPos [LinearOrder K] (key : Nat → K) (k : K) : Nat → List Nat → Nat
  | el, [] => el
  | el, b :: l => if key b < k then scanPos key k b l else el

/-- The cell with key `k` that a scan for `k` over the cells `l` meets, if any. -/
def scanHit [LinearOrder K] (key : Nat → K) (k : K) : List Nat → Option Nat
  | [] => none
  | b :: l => if key b < k then scanHit key k l else if key b = k then some b else none

/-- The cells of `l` that have a level `i` link, `len` giving the number of links. -/
def onLevel (len : Nat → Nat) (i : Nat) (l : List Nat) : List Nat :=
  l.filter (fun a => decide (i < len a))

/-- The level `i` link of the cell at `a` (`none` when there is no such link). -/
def nextOf (h : Heap K V) (a i : Nat) : Option Nat :=
  match nextAt h a i with
  | .ok p => p
  | .error _ => none

/-- The heap after `a.next[i] = p`, when the assignment does not panic. -/
def writeNext (h : Heap K V) (a i : Nat) (p : Option Nat) : Heap K V :=
  match setNext h a i p with
  | .ok h' => h'
  | .error _ => h

/-- The heap after `a.v = v`, when the assignment does not panic. -/
def writeVal (h : Heap K V) (a : Nat) (v : V) : Heap K V :=
  match setVal h a v with
  | .ok h' => h'
  | .error _ => h

/-- The heap `h'` has the same cells as `h` up to the contents of forward links. -/
structure SameCells [Inhabited K] [Inhabited V] (h h' : Heap K V) : Prop where
  size : h'.length = h.length
  len : lenOf h' = lenOf h
  key : keyOf h' = keyOf h
  val : valOf h' = valOf h

/-- The keys of the cells `l` increase strictly. -/
def Sorted [LinearOrder K] (key : Nat → K) (l : List Nat) : Prop :=
  l.Pairwise (fun a b => key a < key b)

/-- The representation invariant: `L` lists the addresses of the stored entries in
level 0 order. -/
structure Abs [LinearOrder K] [Inhabited K] [Inhabited V] (s : SkipList K V) (L : List Nat) :
    Prop where
  headLen : lenOf s.heap s.head = s.level + 1
  headNot : s.head ∉ L
  lens : ∀ a ∈ L, 1 ≤ lenOf s.heap a ∧ lenOf s.heap a ≤ s.level + 1
  sorted : Sorted (keyOf s.heap) L
  chains : ∀ i, i ≤ s.level → Chain s.heap i s.head (onLevel (lenOf s.heap) i L) none
  size : L.length + 1 ≤ s.heap.length
  len : s.length = wrap32 L.length

/-- The cell at which a scan for `k` stands when it leaves level `j`: the last cell
of the level `j` chain with a key below `k`, or the head `hd`. -/
def predAt [LinearOrder K] (key : Nat → K) (len : Nat → Nat) (hd : Nat) (k : K) (j : Nat)
    (L : List Nat) : Nat :=
  lastOr hd ((onLevel len j L).filter (fun b => decide (key b < k)))

/-- Loop invariant of `Pop` when `n` levels remain: the heap `h` has the cells of the
initial heap of `s`, the levels below `n` are untouched and the levels from `n` up no
longer contain the key `k`. -/
structure PopInv [LinearOrder K] [Inhabited K] [Inhabited V] (s : SkipList K V) (L : List Nat)
    (k : K) (n : Nat) (h : Heap K V) : Prop where
  same : SameCells s.heap h
  low : ∀ j, j < n → ∀ b, nextAt h b j = nextAt s.heap b j
  high : ∀ j, n ≤ j → j ≤ s.level →
    Chain h j s.head
      ((onLevel (lenOf s.heap) j L).filter (fun b => decide (keyOf s.heap b ≠ k))) none

/-- The cursor `pre` left by the first inner loop of `PopMax` after it ran from `el`
over the cells `l`. -/
def prevOr : Option Nat → Nat → List Nat → Option Nat
  | pre, _, [] => pre
  | _, el, b :: l => prevOr (some el) b l

/-- The cell before the last one of `hd :: c`, if `c` is not empty. -/
def beforeLast : Nat → List Nat → Option Nat
  | _, [] => none
  | hd, [_] => some hd
  | _, b :: c :: l => beforeLast b (c :: l)

/-- The last cell of the level `j` chain, or the head `hd` when that chain is empty. -/
def maxAt (len : Nat → Nat) (hd : Nat) (j : Nat) (L : List Nat) : Nat :=
  lastOr hd (onLevel len j L)

/-- Number of leading trials of the sequence `l` that came out 0. -/
def leadingZeros : List Int → Nat
  | [] => 0
  | x :: l => if x = 0 then leadingZeros l + 1 else 0

/-! ## Sample lists -/

/-- An empty list with levels 0..3. -/
def sampleEmpty : SkipList Int String := NewSkipList 4 3

/-- Trial outcomes that make `randomLevel` return 1. -/
def sampleRnd : Nat → Int := fun n => if n < 1 then 0 else 1

/-- The state component of the result of a mutating operation, `s` on a fault. -/
def stateOr {α : Type} (s : SkipList K V) (r : Except Fault (α × SkipList K V)) : SkipList K V :=
  match r with
  | .ok (_, s') => s'
  | .error _ => s

/-- The sample list after `Put(7, "seven")` with height 1. -/
def sampleOne : SkipList Int String := stateOr sampleEmpty (Put sampleEmpty 7 "seven" sampleRnd)

/-- The sample list after a further `Put(3, "three")` with height 0. -/
def sampleTwo : SkipList Int String :=
  stateOr sampleOne (Put sampleOne 3 "three" (fun _ => 1))

/-! ## Sequences of calls -/

/-- A call of a public operation. -/
inductive Op (K V : Type) where
  | put (k : K) (v : V) (rnd : Nat → Int)
  | find (k : K)
  | findMin
  | findMax
  | pop (k : K)
  | popMin
  | popMax

/-- What a caller can count along a sequence of calls: the distinct keys passed to `Put`,
the number of `Put` calls made while `Find` of their key returned `ErrNotFound`, and the
number of removals (`Pop`, `PopMin`, `PopMax`) that succeeded. -/
structure Tally (K : Type) where
  putKeys : List K
  fresh : Nat
  removed : Nat

/-- The tally after a removal that returned `r`. -/
def Tally.afterRemoval {α : Type} (t : Tally K) (r : Option α) : Tally K :=
  { t with removed := if r.isSome then t.removed + 1 else t.removed }

/-- The tally after `Put(k, _)`, where `present` is what `Find(k)` returned just before
the call. -/
def Tally.afterPut {α : Type} [DecidableEq K] (t : Tally K) (k : K) (present : Option α) :
    Tally K :=
  { putKeys := if k ∈ t.putKeys then t.putKeys else k :: t.putKeys
    fresh := if present.isNone then t.fresh + 1 else t.fresh
    removed := t.removed }

/-- One call on the list, with the tally kept up to date. -/
def stepOp [Key K] [DecidableEq K] (st : SkipList K V × Tally K) :
    Op K V → Except Fault (SkipList K V × Tally K)
  | .put k v rnd =>
    match Find st.1 k with
    | .error f => .error f
    | .ok present =>
      match Put st.1 k v rnd with
      | .error f => .error f
      | .ok (_, s') =>
        .ok (s', st.2.afterPut k present)
  | .find k =>
    match Find st.1 k with
    | .error f => .error f
    | .ok _ => .ok st
  | .findMin =>
    match FindMin st.1 with
    | .error f => .error f
    | .ok _ => .ok st
  | .findMax =>
    match FindMax st.1 with
    | .error f => .error f
    | .ok _ => .ok st
  | .pop k =>
    match Pop st.1 k with
    | .error f => .error f
    | .ok (r, s') => .ok (s', st.2.afterRemoval r)
  | .popMin =>
    match PopMin st.1 with
    | .error f => .error f
    | .ok (r, s') => .ok (s', st.2.afterRemoval r)
  | .popMax =>
    match PopMax st.1 with
    | .error f => .error f
    | .ok (r, s') => .ok (s', st.2.afterRemoval r)

/-- A finite sequence of calls, run from the left. -/
def runOps [Key K] [DecidableEq K] :
    List (Op K V) → SkipList K V × Tally K → Except Fault (SkipList K V × Tally K)
  | [], st => .ok st
  | op :: ops, st =>
    match stepOp st op with
    | .error f => .error f
    | .ok st' => runOps ops st'

/-- The empty tally. -/
def Tally.zero : Tally K := { putKeys := [], fresh := 0, removed := 0 }

/-- Predecessor search of the specification at level `i`: starting from `el`, advance
while the next cell exists and its key is below `kmax`. -/
def specPred [Key K] (h : Heap K V) (i : Nat) (kmax : K) : Nat → Nat → Except Fault Nat
  | 0, _ => .error .outOfFuel
  | fuel + 1, el =>
    match nextAt h el i with
    | .error f => .error f
    | .ok none => .ok el
    | .ok (some n) =>
      match keyAt h n with
      | .error f => .error f
      | .ok kn => if Key.lt kn kmax then specPred h i kmax fuel n else .ok el

/-- Level loop of the specification, for the levels `n - 1, ..., 0`: search the
predecessor from the head `hd`, independently at each level, and clear its link only
where that link is the maximum cell `m`. -/
def specUnlink [Key K] (hd m : Nat) (kmax : K) (fuel : Nat) :
    Nat → Heap K V → Except Fault (Heap K V)
  | 0, h => .ok h
  | n + 1, h =>
    match specPred h n kmax fuel hd with
    | .error f => .error f
    | .ok p =>
      match nextAt h p n with
      | .error f => .error f
      | .ok q =>
        if q = some m then
          match setNext h p n none with
          | .error f => .error f
          | .ok h' => specUnlink hd m kmax fuel n h'
        else specUnlink hd m kmax fuel n h

/-- Removal of the maximum as the specification recommends it: locate the maximum cell
with the traversal of `FindMax`, take its key `kmax`, unlink it level by level with
independent predecessor searches, decrement the length and return its value. -/
def specPopMax [Key K] (s : SkipList K V) : Except Fault (Option V × SkipList K V) :=
  match maxLevels s.heap s.heap.length (s.level + 1) s.head with
  | .error f => .error f
  | .ok m =>
    if m = s.head then .ok (none, s)
    else
      match keyAt s.heap m with
      | .error f => .error f
      | .ok kmax =>
        match specUnlink s.head m kmax s.heap.length (s.level + 1) s.heap with
        | .error f => .error f
        | .ok h' =>
          match valAt h' m with
          | .error f => .error f
          | .ok v => .ok (some v, { s with heap := h', length := addInt32 s.length (-1) })

/-! ## Sample calls with `float64` keys -/

/-- Trial outcomes that make `randomLevel` return 0. -/
def heightZero : Nat → Int := fun _ => 1

/-- A fresh list with `float64` keys and levels 0..3, with the empty tally. -/
def floatFresh : SkipList Float64Key String × Tally Float64Key := (NewSkipList 4 3, Tally.zero)

/-- The calls `Put(1.0)`, `Put(NaN)`, both of height 0: level 0 becomes `[NaN, 1.0]`. -/
def floatOneNan : List (Op Float64Key String) :=
  [.put (.num 1) "one" heightZero, .put .nan "nan" heightZero]

/-- The calls `Put(NaN)`, `Put(NaN)`, both of height 0. -/
def floatNanNan : List (Op Float64Key String) :=
  [.put .nan "a" heightZero, .put .nan "b" heightZero]

/-- The calls `Put(1.0)` of height 1 and `Put(NaN)` of height 0. -/
def floatTallNan : List (Op Float64Key String) :=
  [.put (.num 1) "one" sampleRnd, .put .nan "nan" heightZero]

/-- The calls of `floatTallNan` followed by `Pop(1.0)`. -/
def floatTallNanPop : List (Op Float64Key String) :=
  [.put (.num 1) "one" sampleRnd, .put .nan "nan" heightZero, .pop (.num 1)]

/-- The calls `Put(1.0)`, `Put(NaN)`, `Put(2.0)`, all of height 0: level 0 becomes
`[2.0, NaN, 1.0]`. -/
def floatThree : List (Op Float64Key String) :=
  [.put (.num 1) "one" heightZero, .put .nan "nan" heightZero, .put (.num 2) "two" heightZero]

/-- The calls `Put(5.0)` of height 1 and `Put(NaN)` of height 0. -/
def floatFiveNan : List (Op Float64Key String) :=
  [.put (.num 5) "five" sampleRnd, .put .nan "nan" heightZero]

/-- The calls of `floatFiveNan` followed by `PopMax()`. -/
def floatFiveNanPopMax : List (Op Float64Key String) :=
  [.put (.num 5) "five" sampleRnd, .put .nan "nan" heightZero, .popMax]

/-- The call `Put(1.0)` of height 0. -/
def floatOne : List (Op Float64Key String) := [.put (.num 1) "one" heightZero]

/-! ## Heap access lemmas -/

set_option linter.unusedSectionVars false

section Theory

variable [LinearOrder K] [Inhabited K] [Inhabited V]

theorem key_ge_eq (a b : K) : Key.ge a b = decide (b ≤ a) := rfl

theorem key_eq_eq (a b : K) : Key.eq a b = decide (a = b) := rfl

theorem key_lt_eq (a b : K) : Key.lt a b = decide (a < b) := rfl

theorem nextAt_lt {h : Heap K V} {a i : Nat} {p : Option Nat}
    (hn : nextAt h a i = .ok p) : i < lenOf h a := by
  unfold nextAt at hn
  unfold lenOf
  cases ha : h[a]? with
  | none => simp [ha] at hn
  | some e =>
    simp only [ha] at hn ⊢
    cases hi : e.next[i]? with
    | none => simp [hi] at hn
    | some q => exact (List.getElem?_eq_some.mp hi).1

theorem nextAt_of_lt {h : Heap K V} {a i : Nat} (hlt : i < lenOf h a) :
    ∃ p, nextAt h a i = .ok p := by
  unfold lenOf at hlt
  unfold nextAt
  cases ha : h[a]? with
  | none => simp [ha] at hlt
  | some e =>
    simp only [ha] at hlt ⊢
    have : e.next[i]? = some e.next[i] := List.getElem?_eq_getElem hlt
    exact ⟨e.next[i], by rw [this]⟩

theorem keyAt_of_pos {h : Heap K V} {a : Nat} (hpos : 0 < lenOf h a) :
    keyAt h a = .ok (keyOf h a) := by
  unfold lenOf at hpos
  unfold keyAt keyOf
  cases ha : h[a]? with
  | none => simp [ha] at hpos
  | some e => rfl

theorem valAt_of_pos {h : Heap K V} {a : Nat} (hpos : 0 < lenOf h a) :
    valAt h a = .ok (valOf h a) := by
  unfold lenOf at hpos
  unfold valAt valOf
  cases ha : h[a]? with
  | none => simp [ha] at hpos
  | some e => rfl

theorem lenAt_of_pos {h : Heap K V} {a : Nat} (hpos : 0 < lenOf h a) :
    lenAt h a = .ok (lenOf h a) := by
  unfold lenOf at hpos
  unfold lenAt lenOf
  cases ha : h[a]? with
  | none => simp [ha] at hpos
  | some e => rfl

theorem lenOf_lt_size {h : Heap K V} {a : Nat} (hpos : 0 < lenOf h a) : a < h.length := by
  unfold lenOf at hpos
  cases ha : h[a]? with
  | none => simp [ha] at hpos
  | some e => exact (List.getElem?_eq_some.mp ha).1

theorem SameCells.refl (h : Heap K V) : SameCells h h :=
  ⟨rfl, rfl, rfl, rfl⟩

theorem SameCells.trans {h1 h2 h3 : Heap K V} (h12 : SameCells h1 h2) (h23 : SameCells h2 h3) :
    SameCells h1 h3 :=
  ⟨by rw [h23.size, h12.size], by rw [h23.len, h12.len],
    by rw [h23.key, h12.key], by rw [h23.val, h12.val]⟩

theorem setNext_ok {h : Heap K V} {a i : Nat} (p : Option Nat) (hlt : i < lenOf h a) :
    ∃ h', setNext h a i p = .ok h' := by
  unfold lenOf at hlt
  unfold setNext
  cases ha : h[a]? with
  | none => simp [ha] at hlt
  | some e =>
    simp only [ha] at hlt ⊢
    exact ⟨_, by rw [if_pos hlt]⟩

theorem setNext_same {h h' : Heap K V} {a i : Nat} {p : Option Nat}
    (hs : setNext h a i p = .ok h') : SameCells h h' := by
  unfold setNext at hs
  cases ha : h[a]? with
  | none => simp [ha] at hs
  | some e =>
    simp only [ha] at hs
    split at hs
    · injection hs with hs
      subst hs
      have hal : a < h.length := (List.getElem?_eq_some.mp ha).1
      refine ⟨by simp, funext fun b => ?_, funext fun b => ?_, funext fun b => ?_⟩
      · unfold lenOf
        by_cases hb : a = b
        · subst hb; simp [List.getElem?_set_self hal, ha]
        · rw [List.getElem?_set_ne hb]
      · unfold keyOf
        by_cases hb : a = b
        · subst hb; simp [List.getElem?_set_self hal, ha]
        · rw [List.getElem?_set_ne hb]
      · unfold valOf
        by_cases hb : a = b
        · subst hb; simp [List.getElem?_set_self hal, ha]
        · rw [List.getElem?_set_ne hb]
    · simp at hs

theorem setNext_nextAt {h h' : Heap K V} {a i : Nat} {p : Option Nat}
    (hs : setNext h a i p = .ok h') (b j : Nat) :
    nextAt h' b j = if b = a ∧ j = i then .ok p else nextAt h b j := by
  unfold setNext at hs
  cases ha : h[a]? with
  | none => simp [ha] at hs
  | some e =>
    simp only [ha] at hs
    split at hs
    · rename_i hlt
      injection hs with hs
      subst hs
      have hal : a < h.length := (List.getElem?_eq_some.mp ha).1
      unfold nextAt
      by_cases hb : a = b
      · subst hb
        rw [List.getElem?_set_self hal, ha]
        simp only [true_and]
        by_cases hj : i = j
        · subst hj
          rw [List.getElem?_set_self hlt]
          simp
        · rw [List.getElem?_set_ne hj]
          simp [Ne.symm hj]
      · rw [List.getElem?_set_ne hb]
        simp [Ne.symm hb]
    · simp at hs

/-! ## Chains -/

theorem lastOr_mem : ∀ (l : List Nat) (a : Nat), lastOr a l ∈ a :: l
  | [], a => by simp [lastOr]
  | b :: l, a => by
    have := lastOr_mem l b
    simp only [lastOr]
    exact List.mem_cons_of_mem _ this

theorem lastOr_append_cons : ∀ (l1 : List Nat) (a b : Nat) (l2 : List Nat),
    lastOr a (l1 ++ b :: l2) = lastOr b l2
  | [], a, b, l2 => by simp [lastOr]
  | c :: l1, a, b, l2 => by
    simp only [List.cons_append, lastOr]
    exact lastOr_append_cons l1 c b l2

theorem lastOr_append : ∀ (l1 : List Nat) (a : Nat) (l2 : List Nat),
    lastOr a (l1 ++ l2) = lastOr (lastOr a l1) l2
  | [], a, l2 => by simp [lastOr]
  | c :: l1, a, l2 => by
    simp only [List.cons_append, lastOr]
    exact lastOr_append l1 c l2

theorem chain_frame {h h' : Heap K V} {i : Nat} {t : Option Nat} :
    ∀ {l : List Nat} {a : Nat}, (∀ x ∈ a :: l, nextAt h' x i = nextAt h x i) →
      Chain h i a l t → Chain h' i a l t
  | [], a, hf, hc => by
    simp only [Chain] at hc ⊢
    rw [hf a (by simp), hc]
  | b :: l, a, hf, hc => by
    simp only [Chain] at hc ⊢
    refine ⟨by rw [hf a (by simp), hc.1], ?_⟩
    exact chain_frame (fun x hx => hf x (List.mem_cons_of_mem _ hx)) hc.2

theorem chain_append_cons {h : Heap K V} {i : Nat} {t : Option Nat} {b : Nat} {l2 : List Nat} :
    ∀ {l1 : List Nat} {a : Nat},
      Chain h i a (l1 ++ b :: l2) t ↔ Chain h i a l1 (some b) ∧ Chain h i b l2 t
  | [], a => by simp [Chain]
  | c :: l1, a => by
    show (nextAt h a i = .ok (some c) ∧ Chain h i c (l1 ++ b :: l2) t) ↔
      (nextAt h a i = .ok (some c) ∧ Chain h i c l1 (some b)) ∧ Chain h i b l2 t
    rw [chain_append_cons]
    exact and_assoc.symm

theorem chain_lastOr {h : Heap K V} {i : Nat} {t : Option Nat} {l2 : List Nat} :
    ∀ {l1 : List Nat} {a : Nat}, Chain h i a (l1 ++ l2) t → Chain h i (lastOr a l1) l2 t
  | [], a, hc => by simpa [lastOr] using hc
  | c :: l1, a, hc => by
    simp only [List.cons_append, Chain] at hc
    simp only [lastOr]
    exact chain_lastOr hc.2

theorem chain_lt {h : Heap K V} {i : Nat} {t : Option Nat} :
    ∀ {l : List Nat} {a : Nat}, Chain h i a l t → ∀ x ∈ a :: l, i < lenOf h x
  | [], a, hc, x, hx => by
    simp only [Chain] at hc
    simp only [List.mem_singleton] at hx
    subst hx
    exact nextAt_lt hc
  | b :: l, a, hc, x, hx => by
    simp only [Chain] at hc
    rcases List.mem_cons.mp hx with hxa | hxl
    · subst hxa
      exact nextAt_lt hc.1
    · exact chain_lt hc.2 x hxl

theorem chain_det {h : Heap K V} {i : Nat} {a : Nat} :
    ∀ {l l' : List Nat}, Chain h i a l none → Chain h i a l' none → l = l' := by
  intro l
  induction l generalizing a with
  | nil =>
    intro l' h1 h2
    cases l' with
    | nil => rfl
    | cons b l' =>
      simp only [Chain] at h1 h2
      rw [h1] at h2
      simp at h2
  | cons c l ih =>
    intro l' h1 h2
    cases l' with
    | nil =>
      simp only [Chain] at h1 h2
      rw [h2] at h1
      simp at h1
    | cons b l' =>
      simp only [Chain] at h1 h2
      have hcb : c = b := by
        have := h1.1.symm.trans h2.1
        simpa using this
      subst hcb
      rw [ih h1.2 h2.2]

theorem chain_retarget {h h' : Heap K V} {i : Nat} {t : Option Nat} {a d : Nat} {l : List Nat}
    (hc : Chain h i d l t) (ha : nextAt h' a i = nextAt h d i)
    (hf : ∀ x ∈ l, nextAt h' x i = nextAt h x i) : Chain h' i a l t := by
  cases l with
  | nil =>
    simp only [Chain] at hc ⊢
    rw [ha, hc]
  | cons b l =>
    simp only [Chain] at hc ⊢
    exact ⟨by rw [ha, hc.1], chain_frame hf hc.2⟩

theorem chain_delete {h h' : Heap K V} {i : Nat} {t : Option Nat} {d : Nat} {l2 : List Nat} :
    ∀ {l1 : List Nat} {a : Nat}, Chain h i a (l1 ++ d :: l2) t →
      (a :: (l1 ++ d :: l2)).Nodup →
      nextAt h' (lastOr a l1) i = nextAt h d i →
      (∀ x, x ≠ lastOr a l1 → nextAt h' x i = nextAt h x i) →
      Chain h' i a (l1 ++ l2) t
  | [], a, hc, hnd, hp, hf => by
    simp only [List.nil_append, Chain, lastOr] at hc hp hf ⊢
    refine chain_retarget hc.2 hp (fun x hx => hf x ?_)
    rintro rfl
    simp only [List.nil_append, List.nodup_cons, List.mem_cons] at hnd
    exact hnd.1 (Or.inr hx)
  | c :: l1, a, hc, hnd, hp, hf => by
    simp only [List.cons_append, Chain, lastOr] at hc hp hf ⊢
    have hnd' : (c :: (l1 ++ d :: l2)).Nodup := (List.nodup_cons.mp hnd).2
    have hne : a ≠ lastOr c l1 := by
      intro he
      have hm : lastOr c l1 ∈ c :: l1 := lastOr_mem l1 c
      have : a ∈ c :: (l1 ++ d :: l2) := by
        rw [he]
        rcases List.mem_cons.mp hm with h1 | h1
        · rw [h1]; simp
        · exact List.mem_cons_of_mem _ (List.mem_append_left _ h1)
      exact (List.nodup_cons.mp hnd).1 this
    exact ⟨by rw [hf a hne, hc.1], chain_delete hc.2 hnd' hp hf⟩

theorem chain_insert {h h' : Heap K V} {i : Nat} {t : Option Nat} {e : Nat} {l2 : List Nat} :
    ∀ {l1 : List Nat} {a : Nat}, Chain h i a (l1 ++ l2) t →
      (a :: (l1 ++ l2)).Nodup → e ∉ a :: (l1 ++ l2) →
      nextAt h' (lastOr a l1) i = .ok (some e) →
      nextAt h' e i = nextAt h (lastOr a l1) i →
      (∀ x, x ≠ lastOr a l1 → x ≠ e → nextAt h' x i = nextAt h x i) →
      Chain h' i a (l1 ++ e :: l2) t
  | [], a, hc, hnd, he, hp, hq, hf => by
    simp only [List.nil_append, Chain, lastOr] at hc hp hq hf he ⊢
    refine ⟨hp, chain_retarget hc hq (fun x hx => hf x ?_ ?_)⟩
    · rintro rfl
      exact (List.nodup_cons.mp hnd).1 (by simpa using hx)
    · rintro rfl
      exact he (List.mem_cons_of_mem _ hx)
  | c :: l1, a, hc, hnd, he, hp, hq, hf => by
    simp only [List.cons_append, Chain, lastOr] at hc hp hq hf ⊢
    have hnd' : (c :: (l1 ++ l2)).Nodup := (List.nodup_cons.mp hnd).2
    have hne : a ≠ lastOr c l1 := by
      intro heq
      have hm : lastOr c l1 ∈ c :: l1 := lastOr_mem l1 c
      have : a ∈ c :: (l1 ++ l2) := by
        rw [heq]
        rcases List.mem_cons.mp hm with h1 | h1
        · rw [h1]; simp
        · exact List.mem_cons_of_mem _ (List.mem_append_left _ h1)
      exact (List.nodup_cons.mp hnd).1 this
    have hae : a ≠ e := by
      rintro rfl
      exact he (by simp)
    have he' : e ∉ c :: (l1 ++ l2) := fun hm => he (List.mem_cons_of_mem _ hm)
    exact ⟨by rw [hf a hne hae, hc.1], chain_insert hc.2 hnd' he' hp hq hf⟩

theorem walk_chain {h : Heap K V} {i : Nat} :
    ∀ {l : List Nat} {a fuel : Nat}, Chain h i a l none → l.length ≤ fuel →
      walk h i fuel a = l
  | [], a, fuel, hc, _ => by
    simp only [Chain] at hc
    cases fuel with
    | zero => rfl
    | succ f => simp [walk, hc]
  | b :: l, a, fuel, hc, hl => by
    simp only [Chain] at hc
    cases fuel with
    | zero => simp at hl
    | succ f =>
      have hl' : l.length ≤ f := by simpa using hl
      simp [walk, hc.1, walk_chain hc.2 hl']

theorem nextAt_eq_nextOf {h : Heap K V} {a i : Nat} (hlt : i < lenOf h a) :
    nextAt h a i = .ok (nextOf h a i) := by
  obtain ⟨p, hp⟩ := nextAt_of_lt hlt
  simp [nextOf, hp]

theorem setNext_eq_write {h : Heap K V} {a i : Nat} (p : Option Nat) (hlt : i < lenOf h a) :
    setNext h a i p = .ok (writeNext h a i p) := by
  obtain ⟨h', hs⟩ := setNext_ok p hlt
  simp [writeNext, hs]

theorem writeNext_same {h : Heap K V} {a i : Nat} (p : Option Nat) (hlt : i < lenOf h a) :
    SameCells h (writeNext h a i p) :=
  setNext_same (setNext_eq_write p hlt)

theorem writeNext_nextAt {h : Heap K V} {a i : Nat} (p : Option Nat) (hlt : i < lenOf h a)
    (b j : Nat) :
    nextAt (writeNext h a i p) b j = if b = a ∧ j = i then .ok p else nextAt h b j :=
  setNext_nextAt (setNext_eq_write p hlt) b j

theorem setVal_eq_write {h : Heap K V} {a : Nat} (v : V) (hpos : 0 < lenOf h a) :
    setVal h a v = .ok (writeVal h a v) := by
  unfold lenOf at hpos
  unfold writeVal setVal
  cases ha : h[a]? with
  | none => simp [ha] at hpos
  | some e => rfl

theorem writeVal_spec {h : Heap K V} {a : Nat} (v : V) (hpos : 0 < lenOf h a) :
    (writeVal h a v).length = h.length ∧ lenOf (writeVal h a v) = lenOf h ∧
      keyOf (writeVal h a v) = keyOf h ∧
      (∀ b, valOf (writeVal h a v) b = if b = a then v else valOf h b) ∧
      (∀ b j, nextAt (writeVal h a v) b j = nextAt h b j) ∧
      (writeVal h a v).map Elem.next = h.map Elem.next := by
  unfold lenOf at hpos
  cases ha : h[a]? with
  | none => simp [ha] at hpos
  | some e =>
    have hal : a < h.length := (List.getElem?_eq_some.mp ha).1
    have hw : writeVal h a v = h.set a { e with v := v } := by
      simp [writeVal, setVal, ha]
    rw [hw]
    refine ⟨by simp, funext fun b => ?_, funext fun b => ?_, fun b => ?_, fun b j => ?_, ?_⟩
    · unfold lenOf
      by_cases hb : a = b
      · subst hb; simp [List.getElem?_set_self hal, ha]
      · rw [List.getElem?_set_ne hb]
    · unfold keyOf
      by_cases hb : a = b
      · subst hb; simp [List.getElem?_set_self hal, ha]
      · rw [List.getElem?_set_ne hb]
    · unfold valOf
      by_cases hb : a = b
      · subst hb; simp [List.getElem?_set_self hal]
      · rw [List.getElem?_set_ne hb]; simp [Ne.symm hb]
    · unfold nextAt
      by_cases hb : a = b
      · subst hb; simp [List.getElem?_set_self hal, ha]
      · rw [List.getElem?_set_ne hb]
    · apply List.ext_getElem?
      intro n
      simp only [List.getElem?_map]
      by_cases hb : a = n
      · subst hb; simp [List.getElem?_set_self hal, ha]
      · rw [List.getElem?_set_ne hb]

/-! ## Sorted lists of cells and the position reached by a scan -/

theorem filter_lt_nil {key : Nat → K} {k : K} {l : List Nat} (hl : ∀ b ∈ l, ¬ key b < k) :
    l.filter (fun b => decide (key b < k)) = [] := by
  rw [List.filter_eq_nil_iff]
  intro b hb
  simpa using hl b hb

theorem find_eq_none_of_ne {key : Nat → K} {k : K} {l : List Nat} (hl : ∀ b ∈ l, key b ≠ k) :
    l.find? (fun b => decide (key b = k)) = none := by
  rw [List.find?_eq_none]
  intro b hb
  simpa using hl b hb

theorem filter_ne_self {key : Nat → K} {k : K} {l : List Nat} (hl : ∀ b ∈ l, key b ≠ k) :
    l.filter (fun b => decide (key b ≠ k)) = l := by
  rw [List.filter_eq_self]
  intro b hb
  simpa using hl b hb

theorem scanPos_eq {key : Nat → K} {k : K} :
    ∀ (l : List Nat) (el : Nat), Sorted key l →
      scanPos key k el l = lastOr el (l.filter (fun b => decide (key b < k)))
  | [], el, _ => rfl
  | x :: l, el, hs => by
    have hs' := List.pairwise_cons.mp hs
    by_cases hx : key x < k
    · simp only [scanPos, hx, if_true, decide_True, List.filter_cons_of_pos, lastOr]
      exact scanPos_eq l x hs'.2
    · have hnil : l.filter (fun b => decide (key b < k)) = [] :=
        filter_lt_nil (fun b hb hbk => hx (lt_trans (hs'.1 b hb) hbk))
      simp [scanPos, hx, hnil, lastOr]

theorem scanHit_eq {key : Nat → K} {k : K} :
    ∀ (l : List Nat), Sorted key l →
      scanHit key k l = l.find? (fun b => decide (key b = k))
  | [], _ => rfl
  | x :: l, hs => by
    have hs' := List.pairwise_cons.mp hs
    by_cases hx : key x < k
    · simp only [scanHit, hx, if_true, List.find?_cons, decide_eq_false (ne_of_lt hx)]
      exact scanHit_eq l hs'.2
    · by_cases he : key x = k
      · simp [scanHit, hx, he]
      · have hnone : l.find? (fun b => decide (key b = k)) = none :=
          find_eq_none_of_ne (fun b hb hbk => hx (by
            have h1 := hs'.1 b hb
            rw [hbk] at h1
            exact absurd h1 (fun h2 => hx h2)))
        simp [scanHit, hx, he, hnone]

theorem sorted_split {key : Nat → K} (k : K) :
    ∀ (l : List Nat), Sorted key l →
      l = l.filter (fun b => decide (key b < k)) ++ l.filter (fun b => decide (k ≤ key b))
  | [], _ => rfl
  | x :: l, hs => by
    have hs' := List.pairwise_cons.mp hs
    by_cases hx : key x < k
    · have hx' : ¬ k ≤ key x := not_le.mpr hx
      simp only [List.filter_cons, hx, hx', decide_True, decide_False, if_true, List.cons_append]
      simp only [Bool.false_eq_true, if_false]
      rw [← sorted_split k l hs'.2]
    · have hx' : k ≤ key x := not_lt.mp hx
      have hnil : l.filter (fun b => decide (key b < k)) = [] :=
        filter_lt_nil (fun b hb hbk => hx (lt_trans (hs'.1 b hb) hbk))
      have hall : l.filter (fun b => decide (k ≤ key b)) = l := by
        rw [List.filter_eq_self]
        intro b hb
        simpa using le_of_lt (lt_of_le_of_lt hx' (hs'.1 b hb))
      simp [List.filter_cons, hx, hx', hnil, hall]

theorem sorted_nodup {key : Nat → K} {l : List Nat} (hs : Sorted key l) : l.Nodup :=
  List.Pairwise.imp (fun {a b} (hab : key a < key b) => fun he => by
    rw [he] at hab
    exact lt_irrefl _ hab) hs

theorem sorted_filter {key : Nat → K} {l : List Nat} (p : Nat → Bool) (hs : Sorted key l) :
    Sorted key (l.filter p) :=
  List.Pairwise.filter p hs

theorem sorted_find {key : Nat → K} {k : K} :
    ∀ {l : List Nat} {d : Nat}, Sorted key l → d ∈ l → key d = k →
      l.find? (fun b => decide (key b = k)) = some d
  | x :: l, d, hs, hd, hk => by
    have hs' := List.pairwise_cons.mp hs
    rcases List.mem_cons.mp hd with hdx | hdl
    · subst hdx
      simp [hk]
    · have hx : key x ≠ k := by
        have := hs'.1 d hdl
        rw [hk] at this
        exact ne_of_lt this
      simp only [List.find?_cons, decide_eq_false hx]
      exact sorted_find hs'.2 hdl hk

theorem find_filter {key : Nat → K} {k : K} (p : Nat → Bool) :
    ∀ {l : List Nat}, Sorted key l →
      (l.filter p).find? (fun b => decide (key b = k)) =
        (l.find? (fun b => decide (key b = k))).filter p
  | [], _ => rfl
  | x :: l, hs => by
    have hs' := List.pairwise_cons.mp hs
    by_cases he : key x = k
    · have hnone : (l.filter p).find? (fun b => decide (key b = k)) = none :=
        find_eq_none_of_ne (fun b hb hbk => by
          have h1 := hs'.1 b (List.mem_of_mem_filter hb)
          rw [he, hbk] at h1
          exact lt_irrefl _ h1)
      cases hp : p x
      · simp [List.filter_cons, hp, he, hnone, Option.filter]
      · simp [List.filter_cons, hp, he, Option.filter]
    · cases hp : p x
      · simp only [List.filter_cons, hp, List.find?_cons, decide_eq_false he]
        simpa using find_filter p hs'.2
      · simp only [List.filter_cons, hp, List.find?_cons, decide_eq_false he, if_true]
        simpa using find_filter p hs'.2

theorem sorted_hit_split {key : Nat → K} {k : K} :
    ∀ {l : List Nat} {d : Nat}, Sorted key l →
      l.find? (fun b => decide (key b = k)) = some d →
      ∃ l2, l = l.filter (fun b => decide (key b < k)) ++ d :: l2 ∧
        l.filter (fun b => decide (key b ≠ k)) = l.filter (fun b => decide (key b < k)) ++ l2
  | [], d, _, hf => by simp at hf
  | x :: l, d, hs, hf => by
    have hs' := List.pairwise_cons.mp hs
    by_cases he : key x = k
    · have hxd : x = d := by simpa [List.find?_cons, he] using hf
      subst hxd
      have hgt : ∀ b ∈ l, k < key b := fun b hb => by
        have := hs'.1 b hb
        rwa [he] at this
      have hnil : l.filter (fun b => decide (key b < k)) = [] :=
        filter_lt_nil (fun b hb hbk => lt_asymm (hgt b hb) hbk)
      have hall : l.filter (fun b => decide (key b ≠ k)) = l :=
        filter_ne_self (fun b hb => ne_of_gt (hgt b hb))
      refine ⟨l, ?_, ?_⟩
      · simp [List.filter_cons, he, hnil]
      · simp only [List.filter_cons, he, hnil]
        simpa using hall
    · have hf' : l.find? (fun b => decide (key b = k)) = some d := by
        simpa [List.find?_cons, he] using hf
      have hdl : d ∈ l := List.mem_of_find?_eq_some hf'
      have hdk : key d = k := by simpa using List.find?_some hf'
      have hx : key x < k := by
        have := hs'.1 d hdl
        rwa [hdk] at this
      obtain ⟨l2, h1, h2⟩ := sorted_hit_split hs'.2 hf'
      refine ⟨l2, ?_, ?_⟩
      · simp only [List.filter_cons, hx, decide_True, if_true, List.cons_append]
        rw [← h1]
      · simp only [List.filter_cons, hx, decide_True, if_true, List.cons_append]
        have : decide (key x ≠ k) = true := by simpa using he
        simp only [this, if_true]
        rw [h2]

theorem chain_level_step {h : Heap K V} {key : Nat → K} {k : K} {i hd el : Nat} {C : List Nat}
    (hs : Sorted key C) (hc : Chain h i hd C none)
    (hel : el = hd ∨ (el ∈ C ∧ key el < k)) :
    ∃ R, Chain h i el R none ∧ R.length ≤ C.length ∧
      scanPos key k el R = lastOr hd (C.filter (fun b => decide (key b < k))) ∧
      scanHit key k R = C.find? (fun b => decide (key b = k)) := by
  rcases hel with rfl | ⟨hmem, hlt⟩
  · exact ⟨C, hc, le_refl _, scanPos_eq C el hs, scanHit_eq C hs⟩
  · obtain ⟨b, a, rfl⟩ := List.append_of_mem hmem
    have hsp := List.pairwise_append.mp hs
    have hsa : Sorted key a := (List.pairwise_cons.mp hsp.2.1).2
    have hb : ∀ x ∈ b, key x < key el := fun x hx => hsp.2.2 x hx el (by simp)
    refine ⟨a, (chain_append_cons.mp hc).2, by simp; omega, ?_, ?_⟩
    · rw [scanPos_eq a el hsa, List.filter_append, List.filter_cons_of_pos (by simpa using hlt),
        lastOr_append_cons]
    · rw [scanHit_eq a hsa, List.find?_append,
        find_eq_none_of_ne (fun x hx => ne_of_lt (lt_trans (hb x hx) hlt)),
        List.find?_cons, decide_eq_false (ne_of_lt hlt)]
      rfl

theorem onLevel_sub (len : Nat → Nat) (i : Nat) (L : List Nat) : ∀ x ∈ onLevel len i L, x ∈ L :=
  fun _ hx => List.mem_of_mem_filter hx

theorem mem_onLevel {len : Nat → Nat} {i : Nat} {L : List Nat} {x : Nat} :
    x ∈ onLevel len i L ↔ x ∈ L ∧ i < len x := by
  simp [onLevel, List.mem_filter]

theorem predAt_cases (key : Nat → K) (len : Nat → Nat) (hd : Nat) (k : K) (j : Nat)
    (L : List Nat) :
    predAt key len hd k j L = hd ∨
      (predAt key len hd k j L ∈ L ∧ j < len (predAt key len hd k j L) ∧
        key (predAt key len hd k j L) < k) := by
  unfold predAt
  rcases List.mem_cons.mp (lastOr_mem ((onLevel len j L).filter (fun b => decide (key b < k))) hd)
    with h1 | h1
  · exact Or.inl h1
  · right
    have h2 := List.mem_filter.mp h1
    have h3 := mem_onLevel.mp h2.1
    exact ⟨h3.1, h3.2, by simpa using h2.2⟩

theorem sorted_level_step {h : Heap K V} {key : Nat → K} {len : Nat → Nat} {k : K}
    {i hd fuel : Nat} {L : List Nat}
    (hs : Sorted key L) (hc : Chain h i hd (onLevel len i L) none) (hsz : L.length < fuel) :
    ∃ R, Chain h i (predAt key len hd k (i + 1) L) R none ∧ R.length < fuel ∧
      scanPos key k (predAt key len hd k (i + 1) L) R = predAt key len hd k i L ∧
      scanHit key k R =
        (L.find? (fun b => decide (key b = k))).filter (fun a => decide (i < len a)) := by
  have hel : predAt key len hd k (i + 1) L = hd ∨
      (predAt key len hd k (i + 1) L ∈ onLevel len i L ∧
        key (predAt key len hd k (i + 1) L) < k) := by
    rcases predAt_cases key len hd k (i + 1) L with h1 | ⟨h1, h2, h3⟩
    · exact Or.inl h1
    · exact Or.inr ⟨mem_onLevel.mpr ⟨h1, by omega⟩, h3⟩
  obtain ⟨R, hR, hlen, hpos, hhit⟩ := chain_level_step (k := k) (sorted_filter _ hs) hc hel
  refine ⟨R, hR, ?_, hpos, ?_⟩
  · have : (onLevel len i L).length ≤ L.length := List.length_filter_le _ _
    exact lt_of_le_of_lt (le_trans hlen this) hsz
  · rw [hhit]
    exact find_filter _ hs

theorem predAt_top {key : Nat → K} {len : Nat → Nat} {hd : Nat} {k : K} {j : Nat}
    {L : List Nat} (hl : ∀ a ∈ L, len a ≤ j) : predAt key len hd k j L = hd := by
  have : onLevel len j L = [] := by
    unfold onLevel
    rw [List.filter_eq_nil_iff]
    intro a ha
    have := hl a ha
    simp
    omega
  simp [predAt, this, lastOr]

/-! ## Find -/

theorem findScan_spec {h : Heap K V} {k : K} {i : Nat} :
    ∀ (R : List Nat) (el fuel : Nat), Chain h i el R none → R.length < fuel →
      findScan h k i fuel el = .ok (match scanHit (keyOf h) k R with
        | some b => .found (valOf h b)
        | none => .stop (scanPos (keyOf h) k el R))
  | [], el, fuel, hc, hf => by
    obtain ⟨f, rfl⟩ : ∃ f, fuel = f + 1 := ⟨fuel - 1, by omega⟩
    simp only [Chain] at hc
    simp [findScan, hc, scanHit, scanPos]
  | b :: R, el, fuel, hc, hf => by
    obtain ⟨f, rfl⟩ : ∃ f, fuel = f + 1 := ⟨fuel - 1, by omega⟩
    have hf' : R.length < f := by simpa using hf
    simp only [Chain] at hc
    have hb : 0 < lenOf h b := lt_of_le_of_lt (Nat.zero_le _) (chain_lt hc.2 b (by simp))
    by_cases hlt : keyOf h b < k
    · have hle : keyOf h b ≤ k := le_of_lt hlt
      have hne : ¬ k = keyOf h b := fun he => ne_of_lt hlt he.symm
      simp only [findScan, key_ge_eq, key_eq_eq, key_lt_eq, decide_eq_true_eq, hc.1, keyAt_of_pos hb, hle, hne, if_true, if_false, scanHit, scanPos,
        hlt]
      exact findScan_spec R b f hc.2 hf'
    · by_cases he : keyOf h b = k
      · simp [findScan, key_ge_eq, key_eq_eq, key_lt_eq, hc.1, keyAt_of_pos hb, valAt_of_pos hb, he, scanHit]
      · have hle : ¬ keyOf h b ≤ k := fun hle => hlt (lt_of_le_of_ne hle he)
        simp [findScan, key_ge_eq, key_eq_eq, key_lt_eq, hc.1, keyAt_of_pos hb, hle, scanHit, scanPos, hlt, he]

theorem findLevels_spec {s : SkipList K V} {L : List Nat} (habs : Abs s L) (k : K) :
    ∀ n, n ≤ s.level + 1 →
      findLevels s.heap k s.heap.length n
          (predAt (keyOf s.heap) (lenOf s.heap) s.head k n L) =
        .ok (if n = 0 then none
          else (L.find? (fun b => decide (keyOf s.heap b = k))).map (valOf s.heap))
  | 0, _ => by simp [findLevels]
  | n + 1, hn => by
    have hi : n ≤ s.level := by omega
    obtain ⟨R, hR, hlen, hpos, hhit⟩ :=
      sorted_level_step (k := k) habs.sorted (habs.chains n hi)
        (show L.length < s.heap.length from habs.size)
    have ih := findLevels_spec habs k n (by omega)
    simp only [findLevels, findScan_spec R _ _ hR hlen, hhit, hpos]
    cases ht : L.find? (fun b => decide (keyOf s.heap b = k)) with
    | none =>
      rw [ht] at ih
      simp only [Option.filter]
      rw [ih]
      simp
    | some d =>
      rw [ht] at ih
      by_cases hd : n < lenOf s.heap d
      · simp [Option.filter, hd]
      · have hdL : d ∈ L := List.mem_of_find?_eq_some ht
        have hn0 : n ≠ 0 := by
          have := (habs.lens d hdL).1
          omega
        simp only [Option.filter, hd, decide_False, Bool.false_eq_true, if_false]
        rw [ih]
        simp [hn0]

theorem abs_predAt_top {s : SkipList K V} {L : List Nat} (habs : Abs s L) (k : K) :
    predAt (keyOf s.heap) (lenOf s.heap) s.head k (s.level + 1) L = s.head :=
  predAt_top (fun a ha => (habs.lens a ha).2)

theorem find_spec {s : SkipList K V} {L : List Nat} (habs : Abs s L) (k : K) :
    Find s k = .ok ((L.find? (fun b => decide (keyOf s.heap b = k))).map (valOf s.heap)) := by
  have := findLevels_spec habs k (s.level + 1) (le_refl _)
  rw [abs_predAt_top habs k] at this
  simpa [Find] using this

/-! ## NewSkipList and randomLevel -/

theorem wrap32_add (a b : Int) : wrap32 (wrap32 a + b) = wrap32 (a + b) := by
  unfold wrap32
  omega

theorem wrap32_small {a : Int} (h0 : -2147483648 ≤ a) (h1 : a < 2147483648) : wrap32 a = a := by
  unfold wrap32
  omega

theorem randomLevelLoop_le (level : Nat) (rnd : Nat → Int) :
    ∀ (fuel l : Nat), l ≤ level → randomLevelLoop level rnd fuel l ≤ level
  | 0, l, hl => by simpa [randomLevelLoop] using hl
  | fuel + 1, l, hl => by
    unfold randomLevelLoop
    split
    · rename_i hc
      exact randomLevelLoop_le level rnd fuel (l + 1) hc.1
    · exact hl

theorem randomLevel_le (s : SkipList K V) (rnd : Nat → Int) : randomLevel s rnd ≤ s.level :=
  randomLevelLoop_le s.level rnd s.level 0 (Nat.zero_le _)

theorem new_abs (stepSize level : Int) :
    Abs (NewSkipList stepSize level : SkipList K V) [] := by
  refine ⟨?_, by simp, by simp, List.Pairwise.nil, ?_, ?_, ?_⟩
  · simp [NewSkipList, lenOf]
  · intro i hi
    simp only [onLevel, List.filter_nil, Chain]
    simp only [NewSkipList] at hi ⊢
    simp only [nextAt, List.getElem?_cons_zero]
    rw [List.getElem?_replicate_of_lt (by omega)]
  · simp [NewSkipList]
  · simp [NewSkipList, wrap32]

/-! ## Put -/

theorem putScan_spec {h : Heap K V} {k : K} {v : V} {i : Nat} :
    ∀ (R : List Nat) (el fuel : Nat), Chain h i el R none → R.length < fuel →
      putScan h k v i fuel el = .ok (match scanHit (keyOf h) k R with
        | some b => .replaced (writeVal h b v)
        | none => .stop (scanPos (keyOf h) k el R))
  | [], el, fuel, hc, hf => by
    obtain ⟨f, rfl⟩ : ∃ f, fuel = f + 1 := ⟨fuel - 1, by omega⟩
    simp only [Chain] at hc
    simp [putScan, hc, scanHit, scanPos]
  | b :: R, el, fuel, hc, hf => by
    obtain ⟨f, rfl⟩ : ∃ f, fuel = f + 1 := ⟨fuel - 1, by omega⟩
    have hf' : R.length < f := by simpa using hf
    simp only [Chain] at hc
    have hb : 0 < lenOf h b := lt_of_le_of_lt (Nat.zero_le _) (chain_lt hc.2 b (by simp))
    by_cases hlt : keyOf h b < k
    · have hle : keyOf h b ≤ k := le_of_lt hlt
      have hne : ¬ k = keyOf h b := fun he => ne_of_lt hlt he.symm
      simp only [putScan, key_ge_eq, key_eq_eq, key_lt_eq, decide_eq_true_eq, hc.1, keyAt_of_pos hb, hle, hne, if_true, if_false, scanHit, scanPos,
        hlt]
      exact putScan_spec R b f hc.2 hf'
    · by_cases he : keyOf h b = k
      · simp [putScan, key_ge_eq, key_eq_eq, key_lt_eq, hc.1, keyAt_of_pos hb, setVal_eq_write v hb, he, scanHit]
      · have hle : ¬ keyOf h b ≤ k := fun hle => hlt (lt_of_le_of_ne hle he)
        simp [putScan, key_ge_eq, key_eq_eq, key_lt_eq, hc.1, keyAt_of_pos hb, hle, scanHit, scanPos, hlt, he]

theorem putLevels_hit {s : SkipList K V} {L : List Nat} (habs : Abs s L) (k : K) (v : V)
    (lv : Nat) {d : Nat} (ht : L.find? (fun b => decide (keyOf s.heap b = k)) = some d) :
    ∀ (n : Nat) (pres : List (Option Nat)), 1 ≤ n → n ≤ s.level + 1 → pres.length = lv + 1 →
      putLevels s.heap k v lv s.heap.length n
          (predAt (keyOf s.heap) (lenOf s.heap) s.head k n L) pres =
        .ok (.replaced (writeVal s.heap d v))
  | 0, _, h1, _, _ => by omega
  | n + 1, pres, _, hn, hp => by
    have hi : n ≤ s.level := by omega
    obtain ⟨R, hR, hlen, hpos, hhit⟩ :=
      sorted_level_step (k := k) habs.sorted (habs.chains n hi)
        (show L.length < s.heap.length from habs.size)
    simp only [putLevels, putScan_spec R _ _ hR hlen, hhit, hpos, ht]
    by_cases hd : n < lenOf s.heap d
    · simp [Option.filter, hd]
    · have hdL : d ∈ L := List.mem_of_find?_eq_some ht
      have hn0 : 1 ≤ n := by
        have := (habs.lens d hdL).1
        omega
      simp only [Option.filter, hd, decide_False, Bool.false_eq_true, if_false]
      by_cases hlv : n > lv
      · simp only [hlv, if_true]
        exact putLevels_hit habs k v lv ht n pres hn0 (by omega) hp
      · have hnl : n < pres.length := by omega
        simp only [hlv, hnl, if_true, if_false]
        exact putLevels_hit habs k v lv ht n _ hn0 (by omega) (by simpa using hp)

theorem putLevels_miss {s : SkipList K V} {L : List Nat} (habs : Abs s L) (k : K) (v : V)
    (lv : Nat) (ht : L.find? (fun b => decide (keyOf s.heap b = k)) = none) :
    ∀ (n : Nat) (pres : List (Option Nat)), n ≤ s.level + 1 → pres.length = lv + 1 →
      ∃ pres', putLevels s.heap k v lv s.heap.length n
          (predAt (keyOf s.heap) (lenOf s.heap) s.head k n L) pres = .ok (.pres pres') ∧
        pres'.length = lv + 1 ∧
        (∀ j, j < n → j ≤ lv →
          pres'[j]? = some (some (predAt (keyOf s.heap) (lenOf s.heap) s.head k j L))) ∧
        (∀ j, n ≤ j → pres'[j]? = pres[j]?)
  | 0, pres, _, hp => ⟨pres, by simp [putLevels], hp, by intro j hj; omega, fun _ _ => rfl⟩
  | n + 1, pres, hn, hp => by
    have hi : n ≤ s.level := by omega
    obtain ⟨R, hR, hlen, hpos, hhit⟩ :=
      sorted_level_step (k := k) habs.sorted (habs.chains n hi)
        (show L.length < s.heap.length from habs.size)
    simp only [putLevels, putScan_spec R _ _ hR hlen, hhit, hpos, ht, Option.filter]
    by_cases hlv : n > lv
    · simp only [hlv, if_true]
      obtain ⟨pres', h1, h2, h3, h4⟩ := putLevels_miss habs k v lv ht n pres (by omega) hp
      refine ⟨pres', h1, h2, ?_, fun j hj => h4 j (by omega)⟩
      intro j hj hjl
      exact h3 j (by omega) hjl
    · have hnl : n < pres.length := by omega
      simp only [hlv, hnl, if_true, if_false]
      obtain ⟨pres', h1, h2, h3, h4⟩ :=
        putLevels_miss habs k v lv ht n (pres.set n (some
          (predAt (keyOf s.heap) (lenOf s.heap) s.head k n L))) (by omega) (by simpa using hp)
      refine ⟨pres', h1, h2, ?_, ?_⟩
      · intro j hj hjl
        by_cases hjn : j = n
        · subst hjn
          rw [h4 j (le_refl _), List.getElem?_set_self hnl]
        · exact h3 j (by omega) hjl
      · intro j hj
        rw [h4 j (by omega), List.getElem?_set_ne (by omega)]

theorem alloc_old (h : Heap K V) (e : Elem K V) {a : Nat} (ha : a ≠ h.length) :
    lenOf (h ++ [e]) a = lenOf h a ∧ keyOf (h ++ [e]) a = keyOf h a ∧
      valOf (h ++ [e]) a = valOf h a ∧ ∀ j, nextAt (h ++ [e]) a j = nextAt h a j := by
  have hget : (h ++ [e])[a]? = h[a]? := by
    rcases Nat.lt_or_gt_of_ne ha with hlt | hgt
    · exact List.getElem?_append_left hlt
    · rw [List.getElem?_eq_none (by simp; omega), List.getElem?_eq_none (by omega)]
  refine ⟨?_, ?_, ?_, fun j => ?_⟩
  · simp only [lenOf, hget]
  · simp only [keyOf, hget]
  · simp only [valOf, hget]
  · simp only [nextAt, hget]

theorem alloc_new (h : Heap K V) (e : Elem K V) :
    lenOf (h ++ [e]) h.length = e.next.length ∧ keyOf (h ++ [e]) h.length = e.k ∧
      valOf (h ++ [e]) h.length = e.v ∧
      ∀ j, j < e.next.length → nextAt (h ++ [e]) h.length j = .ok (e.next[j]?.getD none) := by
  have hget : (h ++ [e])[h.length]? = some e := List.getElem?_concat_length h e
  refine ⟨?_, ?_, ?_, fun j hj => ?_⟩
  · simp only [lenOf, hget]
  · simp only [keyOf, hget]
  · simp only [valOf, hget]
  · simp only [nextAt, hget]
    rw [List.getElem?_eq_getElem hj]
    rfl

theorem putLink_spec (pres : List (Option Nat)) (e : Nat) (P : Nat → Nat) :
    ∀ (n : Nat) (h : Heap K V), (∀ j, j < n → pres[j]? = some (some (P j))) →
      (∀ j, j < n → j < lenOf h (P j)) → n ≤ lenOf h e → (∀ j, j < n → P j ≠ e) →
      ∃ h2, putLink pres e n h = .ok h2 ∧ SameCells h h2 ∧
        ∀ b j, nextAt h2 b j =
          if j < n then
            (if b = P j then .ok (some e) else if b = e then nextAt h (P j) j else nextAt h b j)
          else nextAt h b j
  | 0, h, _, _, _, _ => ⟨h, rfl, SameCells.refl h, fun b j => by simp⟩
  | n + 1, h, hp, hl, he, hne => by
    have hp0 := hp n (by omega)
    have hlp : n < lenOf h (P n) := hl n (by omega)
    have hle : n < lenOf h e := by omega
    have hs1 := writeNext_same (nextOf h (P n) n) hle
    have hlp1 : n < lenOf (writeNext h e n (nextOf h (P n) n)) (P n) := by
      rw [hs1.len]; exact hlp
    have hs2 := writeNext_same (some e) hlp1
    have hs12 := SameCells.trans hs1 hs2
    obtain ⟨h2, hr, hsame, hnx⟩ := putLink_spec pres e P n
      (writeNext (writeNext h e n (nextOf h (P n) n)) (P n) n (some e))
      (fun j hj => hp j (by omega))
      (fun j hj => by rw [hs12.len]; exact hl j (by omega))
      (by rw [hs12.len]; omega)
      (fun j hj => hne j (by omega))
    refine ⟨h2, ?_, SameCells.trans hs12 hsame, ?_⟩
    · simp only [putLink, hp0, nextAt_eq_nextOf hlp, setNext_eq_write _ hle,
        setNext_eq_write _ hlp1]
      exact hr
    · intro b j
      rw [hnx b j]
      have hw : ∀ x y, nextAt (writeNext (writeNext h e n (nextOf h (P n) n)) (P n) n (some e))
          x y = if x = P n ∧ y = n then .ok (some e)
            else if x = e ∧ y = n then .ok (nextOf h (P n) n) else nextAt h x y := by
        intro x y
        rw [writeNext_nextAt _ hlp1, writeNext_nextAt _ hle]
      have hPe : P n ≠ e := hne n (by omega)
      by_cases hjn : j < n
      · have hj1 : j < n + 1 := by omega
        have hjne : j ≠ n := by omega
        simp only [hjn, hj1, if_true, hw, hjne, and_false, if_false]
      · by_cases hjeq : j = n
        · subst hjeq
          simp only [hjn, if_false, hw, and_true, Nat.lt_succ_self, if_true]
          by_cases hb : b = P j
          · simp [hb]
          · by_cases hbe : b = e
            · simp [hb, hbe, nextAt_eq_nextOf hlp, hPe.symm]
            · simp [hb, hbe]
        · have hj1 : ¬ j < n + 1 := by omega
          simp only [hjn, hj1, if_false, hw, hjeq, and_false]

theorem sorted_congr {key key' : Nat → K} {l : List Nat} (hs : Sorted key l)
    (hk : ∀ a ∈ l, key' a = key a) : Sorted key' l := by
  unfold Sorted at hs ⊢
  refine List.Pairwise.imp_of_mem ?_ hs
  intro a b ha hb hab
  rw [hk a ha, hk b hb]
  exact hab

theorem onLevel_congr {len len' : Nat → Nat} (i : Nat) {l : List Nat}
    (hl : ∀ a ∈ l, len' a = len a) : onLevel len' i l = onLevel len i l := by
  unfold onLevel
  apply List.filter_congr
  intro a ha
  rw [hl a ha]

theorem onLevel_filter (len : Nat → Nat) (i : Nat) (p : Nat → Bool) (l : List Nat) :
    (onLevel len i l).filter p = onLevel len i (l.filter p) := by
  unfold onLevel
  rw [List.filter_filter, List.filter_filter]
  apply List.filter_congr
  intro a _
  exact Bool.and_comm _ _

theorem onLevel_append (len : Nat → Nat) (i : Nat) (l1 l2 : List Nat) :
    onLevel len i (l1 ++ l2) = onLevel len i l1 ++ onLevel len i l2 := by
  simp [onLevel]

theorem onLevel_zero {len : Nat → Nat} {l : List Nat} (hl : ∀ a ∈ l, 1 ≤ len a) :
    onLevel len 0 l = l := by
  unfold onLevel
  rw [List.filter_eq_self]
  intro a ha
  have := hl a ha
  simp
  omega

theorem find_none_ne {key : Nat → K} {k : K} {l : List Nat}
    (ht : l.find? (fun b => decide (key b = k)) = none) : ∀ b ∈ l, key b ≠ k := by
  intro b hb
  have := List.find?_eq_none.mp ht b hb
  simpa using this

theorem abs_valid {s : SkipList K V} {L : List Nat} (habs : Abs s L) :
    s.head < s.heap.length ∧ ∀ a ∈ L, a < s.heap.length :=
  ⟨lenOf_lt_size (by rw [habs.headLen]; omega),
    fun a ha => lenOf_lt_size (lt_of_lt_of_le Nat.zero_lt_one (habs.lens a ha).1)⟩

theorem abs_nodup {s : SkipList K V} {L : List Nat} (habs : Abs s L) (i : Nat) :
    (s.head :: onLevel (lenOf s.heap) i L).Nodup :=
  List.nodup_cons.mpr ⟨fun hm => habs.headNot (onLevel_sub _ _ _ _ hm),
    sorted_nodup (sorted_filter _ habs.sorted)⟩

theorem put_hit {s : SkipList K V} {L : List Nat} (habs : Abs s L) (k : K) (v : V)
    (rnd : Nat → Int) {d : Nat}
    (ht : L.find? (fun b => decide (keyOf s.heap b = k)) = some d) :
    Put s k v rnd = .ok (none, { s with heap := writeVal s.heap d v }) ∧
      Abs { s with heap := writeVal s.heap d v } L := by
  have hdL : d ∈ L := List.mem_of_find?_eq_some ht
  have hdpos : 0 < lenOf s.heap d := lt_of_lt_of_le Nat.zero_lt_one (habs.lens d hdL).1
  obtain ⟨hsz, hlen, hkey, _, hnx, _⟩ := writeVal_spec v hdpos
  constructor
  · have := putLevels_hit habs k v (randomLevel s rnd) ht (s.level + 1)
      (List.replicate (randomLevel s rnd + 1) none) (by omega) (le_refl _) (by simp)
    rw [abs_predAt_top habs k] at this
    simp only [Put, this]
  · refine ⟨?_, habs.headNot, ?_, ?_, ?_, ?_, habs.len⟩
    · show lenOf (writeVal s.heap d v) s.head = s.level + 1
      rw [hlen]; exact habs.headLen
    · intro a ha
      show 1 ≤ lenOf (writeVal s.heap d v) a ∧ lenOf (writeVal s.heap d v) a ≤ s.level + 1
      rw [hlen]; exact habs.lens a ha
    · show Sorted (keyOf (writeVal s.heap d v)) L
      rw [hkey]; exact habs.sorted
    · intro i hi
      show Chain (writeVal s.heap d v) i s.head (onLevel (lenOf (writeVal s.heap d v)) i L) none
      rw [hlen]
      exact chain_frame (fun x _ => hnx x i) (habs.chains i hi)
    · show L.length + 1 ≤ (writeVal s.heap d v).length
      rw [hsz]; exact habs.size

theorem put_miss {s : SkipList K V} {L : List Nat} (habs : Abs s L) (k : K) (v : V)
    (rnd : Nat → Int) (ht : L.find? (fun b => decide (keyOf s.heap b = k)) = none) :
    ∃ s', Put s k v rnd = .ok (none, s') ∧
      Abs s' (L.filter (fun b => decide (keyOf s.heap b < k)) ++
        s.heap.length :: L.filter (fun b => decide (k ≤ keyOf s.heap b))) ∧
      s'.length = addInt32 s.length 1 ∧ s'.level = s.level ∧ s'.head = s.head ∧
      s'.stepSize = s.stepSize ∧
      keyOf s'.heap s.heap.length = k ∧ valOf s'.heap s.heap.length = v ∧
      lenOf s'.heap s.heap.length = randomLevel s rnd + 1 ∧
      (∀ a, a ≠ s.heap.length → keyOf s'.heap a = keyOf s.heap a ∧
        valOf s'.heap a = valOf s.heap a ∧ lenOf s'.heap a = lenOf s.heap a) := by
  obtain ⟨lv, hlvdef⟩ : ∃ lv, lv = randomLevel s rnd := ⟨_, rfl⟩
  have hlv : lv ≤ s.level := hlvdef ▸ randomLevel_le s rnd
  rw [← hlvdef]
  obtain ⟨pres', hpl, _, hpres, _⟩ := putLevels_miss habs k v lv ht (s.level + 1)
    (List.replicate (lv + 1) none) (le_refl _) (by simp)
  rw [abs_predAt_top habs k] at hpl
  obtain ⟨hhv, hLv⟩ := abs_valid habs
  have hhe : s.head ≠ s.heap.length := by omega
  have hLe : ∀ a ∈ L, a ≠ s.heap.length := fun a ha => by have := hLv a ha; omega
  have hold := fun a (ha : a ≠ s.heap.length) =>
    alloc_old s.heap ({ next := List.replicate (lv + 1) none, k := k, v := v } : Elem K V) ha
  obtain ⟨hnl, hnk, hnv, hnn⟩ :=
    alloc_new s.heap ({ next := List.replicate (lv + 1) none, k := k, v := v } : Elem K V)
  simp only [List.length_replicate] at hnl hnn
  have hP : ∀ j, j ≤ lv →
      predAt (keyOf s.heap) (lenOf s.heap) s.head k j L ≠ s.heap.length ∧
        j < lenOf s.heap (predAt (keyOf s.heap) (lenOf s.heap) s.head k j L) := by
    intro j hj
    rcases predAt_cases (keyOf s.heap) (lenOf s.heap) s.head k j L with h1 | ⟨h1, h2, _⟩
    · rw [h1, habs.headLen]
      exact ⟨hhe, by omega⟩
    · exact ⟨hLe _ h1, h2⟩
  obtain ⟨h2, hlink, hsame, hnx⟩ := putLink_spec pres' s.heap.length
    (fun j => predAt (keyOf s.heap) (lenOf s.heap) s.head k j L) (lv + 1)
    (s.heap ++ [({ next := List.replicate (lv + 1) none, k := k, v := v } : Elem K V)])
    (fun j hj => hpres j (by omega) (by omega))
    (fun j hj => by rw [(hold _ (hP j (by omega)).1).1]; exact (hP j (by omega)).2)
    (by rw [hnl])
    (fun j hj => (hP j (by omega)).1)
  have hkey2 : ∀ a, a ≠ s.heap.length → keyOf h2 a = keyOf s.heap a := fun a ha => by
    rw [hsame.key]; exact (hold a ha).2.1
  have hlen2 : ∀ a, a ≠ s.heap.length → lenOf h2 a = lenOf s.heap a := fun a ha => by
    rw [hsame.len]; exact (hold a ha).1
  have hval2 : ∀ a, a ≠ s.heap.length → valOf h2 a = valOf s.heap a := fun a ha => by
    rw [hsame.val]; exact (hold a ha).2.2.1
  have hkeyE : keyOf h2 s.heap.length = k := by rw [hsame.key]; exact hnk
  have hlenE : lenOf h2 s.heap.length = lv + 1 := by rw [hsame.len]; exact hnl
  have hvalE : valOf h2 s.heap.length = v := by rw [hsame.val]; exact hnv
  have hne := find_none_ne ht
  have hsplit := sorted_split k L habs.sorted
  have hloL : ∀ a ∈ L.filter (fun b => decide (keyOf s.heap b < k)), a ∈ L :=
    fun a ha => List.mem_of_mem_filter ha
  have hhiL : ∀ a ∈ L.filter (fun b => decide (k ≤ keyOf s.heap b)), a ∈ L :=
    fun a ha => List.mem_of_mem_filter ha
  refine ⟨{ s with heap := h2, length := addInt32 s.length 1 }, ?_, ?_, rfl, rfl, rfl, rfl,
    hkeyE, hvalE, hlenE, fun a ha => ⟨hkey2 a ha, hval2 a ha, hlen2 a ha⟩⟩
  · simp only [Put, ← hlvdef, hpl, hlink]
  · refine ⟨?_, ?_, ?_, ?_, ?_, ?_, ?_⟩
    · show lenOf h2 s.head = s.level + 1
      rw [hlen2 _ hhe]; exact habs.headLen
    · show s.head ∉ _
      intro hm
      rcases List.mem_append.mp hm with h1 | h1
      · exact habs.headNot (hloL _ h1)
      · rcases List.mem_cons.mp h1 with h1 | h1
        · exact hhe h1
        · exact habs.headNot (hhiL _ h1)
    · intro a ha
      show 1 ≤ lenOf h2 a ∧ lenOf h2 a ≤ s.level + 1
      rcases List.mem_append.mp ha with h1 | h1
      · rw [hlen2 a (hLe a (hloL a h1))]; exact habs.lens a (hloL a h1)
      · rcases List.mem_cons.mp h1 with h1 | h1
        · rw [h1, hlenE]; omega
        · rw [hlen2 a (hLe a (hhiL a h1))]; exact habs.lens a (hhiL a h1)
    · show Sorted (keyOf h2) _
      apply List.pairwise_append.mpr
      refine ⟨?_, ?_, ?_⟩
      · exact sorted_congr (sorted_filter _ habs.sorted) (fun a ha => hkey2 a (hLe a (hloL a ha)))
      · apply List.pairwise_cons.mpr
        refine ⟨?_, sorted_congr (sorted_filter _ habs.sorted)
          (fun a ha => hkey2 a (hLe a (hhiL a ha)))⟩
        intro b hb
        rw [hkeyE, hkey2 b (hLe b (hhiL b hb))]
        have h1 : k ≤ keyOf s.heap b := by simpa using (List.mem_filter.mp hb).2
        exact lt_of_le_of_ne h1 (Ne.symm (hne b (hhiL b hb)))
      · intro a ha b hb
        have h1 : keyOf s.heap a < k := by simpa using (List.mem_filter.mp ha).2
        rw [hkey2 a (hLe a (hloL a ha))]
        rcases List.mem_cons.mp hb with h2 | h2
        · rw [h2, hkeyE]; exact h1
        · rw [hkey2 b (hLe b (hhiL b h2))]
          have h3 : k ≤ keyOf s.heap b := by simpa using (List.mem_filter.mp h2).2
          exact lt_of_lt_of_le h1 h3
    · intro i hi
      show Chain h2 i s.head (onLevel (lenOf h2) i _) none
      have hc0 := habs.chains i hi
      have hnd := abs_nodup habs i
      have hsp := sorted_split k (onLevel (lenOf s.heap) i L) (sorted_filter _ habs.sorted)
      have heC : s.heap.length ∉ s.head :: onLevel (lenOf s.heap) i L := by
        intro hm
        rcases List.mem_cons.mp hm with h1 | h1
        · exact hhe h1.symm
        · exact hLe _ (onLevel_sub _ _ _ _ h1) rfl
      have hc1 : Chain (s.heap ++ [({ next := List.replicate (lv + 1) none, k := k, v := v } :
          Elem K V)]) i s.head (onLevel (lenOf s.heap) i L) none := by
        refine chain_frame (fun x hx => (hold x ?_).2.2.2 i) hc0
        rintro rfl
        exact heC hx
      have hlo : onLevel (lenOf h2) i (L.filter (fun b => decide (keyOf s.heap b < k))) =
          (onLevel (lenOf s.heap) i L).filter (fun b => decide (keyOf s.heap b < k)) := by
        rw [onLevel_filter]
        exact onLevel_congr i (fun a ha => hlen2 a (hLe a (hloL a ha)))
      have hhi : onLevel (lenOf h2) i (L.filter (fun b => decide (k ≤ keyOf s.heap b))) =
          (onLevel (lenOf s.heap) i L).filter (fun b => decide (k ≤ keyOf s.heap b)) := by
        rw [onLevel_filter]
        exact onLevel_congr i (fun a ha => hlen2 a (hLe a (hhiL a ha)))
      rw [onLevel_append, hlo]
      by_cases hil : i < lv + 1
      · have hE : onLevel (lenOf h2) i
            (s.heap.length :: L.filter (fun b => decide (k ≤ keyOf s.heap b))) =
            s.heap.length :: (onLevel (lenOf s.heap) i L).filter
              (fun b => decide (k ≤ keyOf s.heap b)) := by
          rw [← hhi]
          simp [onLevel, List.filter_cons, hlenE, hil]
        rw [hE]
        rw [hsp] at hc1 hnd heC
        have hPi := hP i (by omega)
        refine chain_insert hc1 hnd heC ?_ ?_ ?_
        · rw [hnx]
          simp [hil, predAt]
        · rw [hnx]
          have : s.heap.length ≠ predAt (keyOf s.heap) (lenOf s.heap) s.head k i L :=
            Ne.symm hPi.1
          simp only [hil, if_true, this, if_false]
          rfl
        · intro x hx1 hx2
          rw [hnx]
          have hx1' : x ≠ predAt (keyOf s.heap) (lenOf s.heap) s.head k i L := hx1
          simp only [hil, if_true, hx1', hx2, if_false]
      · have hE : onLevel (lenOf h2) i
            (s.heap.length :: L.filter (fun b => decide (k ≤ keyOf s.heap b))) =
            (onLevel (lenOf s.heap) i L).filter (fun b => decide (k ≤ keyOf s.heap b)) := by
          rw [← hhi]
          simp [onLevel, List.filter_cons, hlenE, hil]
        rw [hE, ← hsp]
        refine chain_frame (fun x _ => ?_) hc1
        rw [hnx]
        simp only [hil, if_false]
    · show _ + 1 ≤ h2.length
      rw [hsame.size]
      have h1 := congrArg List.length hsplit
      simp only [List.length_append, List.length_cons, List.length_singleton] at h1 ⊢
      have := habs.size
      omega
    · show addInt32 s.length 1 = wrap32 _
      have h1 := congrArg List.length hsplit
      simp only [List.length_append, List.length_cons] at h1 ⊢
      rw [habs.len, addInt32, wrap32_add]
      congr 1
      rw [h1]
      push_cast
      ring

theorem sorted_onLevel {key : Nat → K} (len : Nat → Nat) (i : Nat) {l : List Nat}
    (hs : Sorted key l) : Sorted key (onLevel len i l) :=
  sorted_filter _ hs

theorem find_onLevel {key : Nat → K} {k : K} (len : Nat → Nat) (i : Nat) {l : List Nat}
    (hs : Sorted key l) :
    (onLevel len i l).find? (fun b => decide (key b = k)) =
      (l.find? (fun b => decide (key b = k))).filter (fun a => decide (i < len a)) :=
  find_filter _ hs

/-! ## Pop -/

theorem popScan_spec {h : Heap K V} {k : K} {i : Nat} :
    ∀ (R : List Nat) (el fuel : Nat), Chain h i el R none → R.length < fuel →
      popScan h k i fuel el = .ok (match scanHit (keyOf h) k R with
        | some d => (writeNext h (scanPos (keyOf h) k el R) i (nextOf h d i),
            scanPos (keyOf h) k el R, some (valOf h d))
        | none => (h, scanPos (keyOf h) k el R, none))
  | [], el, fuel, hc, hf => by
    obtain ⟨f, rfl⟩ : ∃ f, fuel = f + 1 := ⟨fuel - 1, by omega⟩
    simp only [Chain] at hc
    simp [popScan, hc, scanHit, scanPos]
  | b :: R, el, fuel, hc, hf => by
    obtain ⟨f, rfl⟩ : ∃ f, fuel = f + 1 := ⟨fuel - 1, by omega⟩
    have hf' : R.length < f := by simpa using hf
    simp only [Chain] at hc
    have hbi : i < lenOf h b := chain_lt hc.2 b (by simp)
    have hb : 0 < lenOf h b := lt_of_le_of_lt (Nat.zero_le _) hbi
    have hel : i < lenOf h el := nextAt_lt hc.1
    by_cases hlt : keyOf h b < k
    · have hle : keyOf h b ≤ k := le_of_lt hlt
      have hne : ¬ k = keyOf h b := fun he => ne_of_lt hlt he.symm
      simp only [popScan, key_ge_eq, key_eq_eq, key_lt_eq, decide_eq_true_eq, hc.1, keyAt_of_pos hb, hle, hne, if_true, if_false, scanHit, scanPos,
        hlt]
      exact popScan_spec R b f hc.2 hf'
    · by_cases he : keyOf h b = k
      · simp [popScan, key_ge_eq, key_eq_eq, key_lt_eq, hc.1, keyAt_of_pos hb, valAt_of_pos hb, nextAt_eq_nextOf hbi,
          setNext_eq_write _ hel, he, scanHit, scanPos]
      · have hle : ¬ keyOf h b ≤ k := fun hle => hlt (lt_of_le_of_ne hle he)
        simp [popScan, key_ge_eq, key_eq_eq, key_lt_eq, hc.1, keyAt_of_pos hb, hle, scanHit, scanPos, hlt, he]

theorem popLevels_spec {s : SkipList K V} {L : List Nat} (habs : Abs s L) (k : K) :
    ∀ (n : Nat) (h : Heap K V) (acc : Option V), n ≤ s.level + 1 → PopInv s L k n h →
      ∃ h', popLevels k s.heap.length n h
          (predAt (keyOf s.heap) (lenOf s.heap) s.head k n L) acc =
          .ok (h', match L.find? (fun b => decide (keyOf s.heap b = k)) with
            | some d => if n = 0 then acc else some (valOf s.heap d)
            | none => acc) ∧
        PopInv s L k 0 h' ∧
        (L.find? (fun b => decide (keyOf s.heap b = k)) = none → h' = h)
  | 0, h, acc, _, hinv => by
    refine ⟨h, ?_, hinv, fun _ => rfl⟩
    simp only [popLevels]
    cases L.find? (fun b => decide (keyOf s.heap b = k)) <;> simp
  | n + 1, h, acc, hn, hinv => by
    have hi : n ≤ s.level := by omega
    have hc : Chain h n s.head (onLevel (lenOf s.heap) n L) none :=
      chain_frame (fun x _ => hinv.low n (by omega) x) (habs.chains n hi)
    obtain ⟨R, hR, hlen, hpos, hhit⟩ :=
      sorted_level_step (k := k) habs.sorted hc
        (show L.length < s.heap.length from habs.size)
    have hscan := popScan_spec (k := k) R _ _ hR hlen
    rw [hinv.same.key, hinv.same.val, hpos, hhit] at hscan
    simp only [popLevels, hscan]
    cases ht : L.find? (fun b => decide (keyOf s.heap b = k)) with
    | none =>
      simp only [Option.filter]
      have hne := find_none_ne ht
      have hinv' : PopInv s L k n h := by
        refine ⟨hinv.same, fun j hj => hinv.low j (by omega), fun j hj hjl => ?_⟩
        by_cases hjn : j = n
        · subst hjn
          rw [filter_ne_self (fun b hb => hne b (onLevel_sub _ _ _ b hb))]
          exact hc
        · exact hinv.high j (by omega) hjl
      obtain ⟨h', hr, hinv0, hsame⟩ := popLevels_spec habs k n h acc (by omega) hinv'
      rw [ht] at hr hsame
      exact ⟨h', hr, hinv0, fun _ => hsame rfl⟩
    | some d =>
      have hdL : d ∈ L := List.mem_of_find?_eq_some ht
      by_cases hd : n < lenOf s.heap d
      · simp only [Option.filter, hd, decide_True, if_true]
        have hhit' : (onLevel (lenOf s.heap) n L).find?
            (fun b => decide (keyOf s.heap b = k)) = some d := by
          rw [find_onLevel _ _ habs.sorted, ht]
          simp [Option.filter, hd]
        obtain ⟨l2, hsplit, hfilt⟩ := sorted_hit_split (sorted_onLevel _ _ habs.sorted) hhit'
        have hpl : n < lenOf h (predAt (keyOf s.heap) (lenOf s.heap) s.head k n L) := by
          rw [hinv.same.len]
          rcases predAt_cases (keyOf s.heap) (lenOf s.heap) s.head k n L with h1 | ⟨_, h2, _⟩
          · rw [h1, habs.headLen]; omega
          · exact h2
        have hdl : n < lenOf h d := by rw [hinv.same.len]; exact hd
        have hinv' : PopInv s L k n
            (writeNext h (predAt (keyOf s.heap) (lenOf s.heap) s.head k n L) n
              (nextOf h d n)) := by
          refine ⟨SameCells.trans hinv.same (writeNext_same _ hpl), fun j hj b => ?_,
            fun j hj hjl => ?_⟩
          · rw [writeNext_nextAt _ hpl]
            have : j ≠ n := by omega
            simp only [this, and_false, if_false]
            exact hinv.low j (by omega) b
          · by_cases hjn : j = n
            · subst hjn
              rw [hfilt]
              have hnd := abs_nodup habs j
              rw [hsplit] at hc hnd
              refine chain_delete hc hnd ?_ ?_
              · rw [writeNext_nextAt _ hpl, nextAt_eq_nextOf hdl]
                simp [predAt]
              · intro x hx
                rw [writeNext_nextAt _ hpl]
                have hx' : x ≠ predAt (keyOf s.heap) (lenOf s.heap) s.head k j L := hx
                simp only [hx', false_and, if_false]
            · refine chain_frame (fun x _ => ?_) (hinv.high j (by omega) hjl)
              rw [writeNext_nextAt _ hpl]
              simp only [hjn, and_false, if_false]
        obtain ⟨h', hr, hinv0, _⟩ := popLevels_spec habs k n _ (some (valOf s.heap d))
          (by omega) hinv'
        rw [ht] at hr
        refine ⟨h', ?_, hinv0, fun hcontra => by simp at hcontra⟩
        rw [hr]
        simp
      · simp only [Option.filter, hd, decide_False, Bool.false_eq_true, if_false]
        have hn0 : n ≠ 0 := by
          have := (habs.lens d hdL).1
          omega
        have hinv' : PopInv s L k n h := by
          refine ⟨hinv.same, fun j hj => hinv.low j (by omega), fun j hj hjl => ?_⟩
          by_cases hjn : j = n
          · subst hjn
            have hnone : (onLevel (lenOf s.heap) j L).find?
                (fun b => decide (keyOf s.heap b = k)) = none := by
              rw [find_onLevel _ _ habs.sorted, ht]
              simp [Option.filter, hd]
            rw [filter_ne_self (find_none_ne hnone)]
            exact hc
          · exact hinv.high j (by omega) hjl
        obtain ⟨h', hr, hinv0, _⟩ := popLevels_spec habs k n h acc (by omega) hinv'
        rw [ht] at hr
        refine ⟨h', ?_, hinv0, fun hcontra => by simp at hcontra⟩
        rw [hr]
        simp [hn0]

theorem pop_miss {s : SkipList K V} {L : List Nat} (habs : Abs s L) (k : K)
    (ht : L.find? (fun b => decide (keyOf s.heap b = k)) = none) :
    Pop s k = .ok (none, s) := by
  have hinv : PopInv s L k (s.level + 1) s.heap :=
    ⟨SameCells.refl _, fun _ _ _ => rfl, fun j h1 h2 => by omega⟩
  obtain ⟨h', hr, _, hsame⟩ := popLevels_spec habs k (s.level + 1) s.heap none (le_refl _) hinv
  rw [abs_predAt_top habs k, ht] at hr
  have hh := hsame ht
  subst hh
  simp only [Pop, hr]

theorem pop_hit {s : SkipList K V} {L : List Nat} (habs : Abs s L) (k : K) {d : Nat}
    (ht : L.find? (fun b => decide (keyOf s.heap b = k)) = some d) :
    ∃ s', Pop s k = .ok (some (valOf s.heap d), s') ∧
      Abs s' (L.filter (fun b => decide (keyOf s.heap b ≠ k))) ∧
      (L.filter (fun b => decide (keyOf s.heap b ≠ k))).length + 1 = L.length ∧
      s'.length = addInt32 s.length (-1) ∧ s'.level = s.level ∧ s'.head = s.head ∧
      s'.stepSize = s.stepSize ∧ SameCells s.heap s'.heap := by
  have hinv : PopInv s L k (s.level + 1) s.heap :=
    ⟨SameCells.refl _, fun _ _ _ => rfl, fun j h1 h2 => by omega⟩
  obtain ⟨h', hr, hinv0, _⟩ := popLevels_spec habs k (s.level + 1) s.heap none (le_refl _) hinv
  rw [abs_predAt_top habs k, ht] at hr
  simp only [Nat.add_one_ne_zero, if_false] at hr
  obtain ⟨l2, hsplit, hfilt⟩ := sorted_hit_split habs.sorted ht
  have hlen : (L.filter (fun b => decide (keyOf s.heap b ≠ k))).length + 1 = L.length := by
    have h1 := congrArg List.length hsplit
    rw [hfilt]
    simp only [List.length_append, List.length_cons] at h1 ⊢
    omega
  have hsub : ∀ a ∈ L.filter (fun b => decide (keyOf s.heap b ≠ k)), a ∈ L :=
    fun a ha => List.mem_of_mem_filter ha
  refine ⟨{ s with heap := h', length := addInt32 s.length (-1) }, ?_, ?_, hlen, rfl, rfl, rfl,
    rfl, hinv0.same⟩
  · simp only [Pop, hr]
  · refine ⟨?_, fun hm => habs.headNot (hsub _ hm), ?_, ?_, ?_, ?_, ?_⟩
    · show lenOf h' s.head = s.level + 1
      rw [hinv0.same.len]; exact habs.headLen
    · intro a ha
      show 1 ≤ lenOf h' a ∧ lenOf h' a ≤ s.level + 1
      rw [hinv0.same.len]; exact habs.lens a (hsub a ha)
    · show Sorted (keyOf h') _
      rw [hinv0.same.key]; exact sorted_filter _ habs.sorted
    · intro i hi
      show Chain h' i s.head (onLevel (lenOf h') i _) none
      rw [hinv0.same.len, ← onLevel_filter]
      exact hinv0.high i (Nat.zero_le _) hi
    · show _ + 1 ≤ h'.length
      rw [hinv0.same.size]
      have := habs.size
      omega
    · show addInt32 s.length (-1) = wrap32 _
      rw [habs.len, addInt32, wrap32_add]
      congr 1
      omega

/-! ## FindMin and PopMin -/

theorem abs_chain0 {s : SkipList K V} {L : List Nat} (habs : Abs s L) :
    Chain s.heap 0 s.head L none := by
  have := habs.chains 0 (Nat.zero_le _)
  rwa [onLevel_zero (fun a ha => (habs.lens a ha).1)] at this

theorem findMin_spec {s : SkipList K V} {L : List Nat} (habs : Abs s L) :
    FindMin s = .ok (L.head?.map (valOf s.heap)) := by
  have hc := abs_chain0 habs
  cases L with
  | nil =>
    simp only [Chain] at hc
    simp [FindMin, hc]
  | cons m rest =>
    simp only [Chain] at hc
    have hm : 0 < lenOf s.heap m := lt_of_lt_of_le Nat.zero_lt_one (habs.lens m (by simp)).1
    simp [FindMin, hc.1, valAt_of_pos hm]

theorem popMinLoop_spec (hd el : Nat) (hne : hd ≠ el) :
    ∀ (n : Nat) (h : Heap K V), n ≤ lenOf h el → n ≤ lenOf h hd →
      ∃ h', popMinLoop hd el n h = .ok h' ∧ SameCells h h' ∧
        ∀ b j, nextAt h' b j = if b = hd ∧ j < n then nextAt h el j else nextAt h b j
  | 0, h, _, _ => ⟨h, rfl, SameCells.refl h, fun b j => by simp⟩
  | n + 1, h, hel, hhd => by
    have hel' : n < lenOf h el := by omega
    have hhd' : n < lenOf h hd := by omega
    have hs1 := writeNext_same (nextOf h el n) hhd'
    obtain ⟨h', hr, hsame, hnx⟩ := popMinLoop_spec hd el hne n (writeNext h hd n (nextOf h el n))
      (by rw [hs1.len]; omega) (by rw [hs1.len]; omega)
    refine ⟨h', ?_, SameCells.trans hs1 hsame, ?_⟩
    · simp only [popMinLoop, nextAt_eq_nextOf hel', setNext_eq_write _ hhd']
      exact hr
    · intro b j
      rw [hnx b j, writeNext_nextAt _ hhd', writeNext_nextAt _ hhd']
      by_cases hb : b = hd
      · subst hb
        by_cases hjn : j < n
        · have : j < n + 1 := by omega
          simp [hjn, this, Ne.symm hne]
        · by_cases hje : j = n
          · subst hje
            simp [nextAt_eq_nextOf hel']
          · have : ¬ j < n + 1 := by omega
            simp [hjn, this, hje]
      · simp [hb]

theorem popMin_empty {s : SkipList K V} (habs : Abs s []) : PopMin s = .ok (none, s) := by
  have hc := abs_chain0 habs
  simp only [Chain] at hc
  simp [PopMin, hc]

theorem popMin_cons {s : SkipList K V} {m : Nat} {rest : List Nat} (habs : Abs s (m :: rest)) :
    ∃ s', PopMin s = .ok (some (valOf s.heap m), s') ∧ Abs s' rest ∧
      s'.length = addInt32 s.length (-1) ∧ s'.level = s.level ∧ s'.head = s.head ∧
      s'.stepSize = s.stepSize ∧ SameCells s.heap s'.heap ∧
      ∀ b j, nextAt s'.heap b j =
        if b = s.head ∧ j < lenOf s.heap m then nextAt s.heap m j else nextAt s.heap b j := by
  have hc := abs_chain0 habs
  simp only [Chain] at hc
  have hml := habs.lens m (by simp)
  have hm : 0 < lenOf s.heap m := lt_of_lt_of_le Nat.zero_lt_one hml.1
  have hne : s.head ≠ m := fun he => habs.headNot (by rw [he]; simp)
  obtain ⟨h', hr, hsame, hnx⟩ := popMinLoop_spec s.head m hne (lenOf s.heap m) s.heap (le_refl _)
    (by rw [habs.headLen]; exact hml.2)
  have hsub : ∀ a ∈ rest, a ∈ m :: rest := fun a ha => List.mem_cons_of_mem _ ha
  have hm' : 0 < lenOf h' m := by rw [hsame.len]; exact hm
  refine ⟨{ s with heap := h', length := addInt32 s.length (-1) }, ?_, ?_, rfl, rfl, rfl, rfl,
    hsame, hnx⟩
  · simp only [PopMin, hc.1, lenAt_of_pos hm, hr, valAt_of_pos hm', hsame.val]
  · refine ⟨?_, fun hmem => habs.headNot (hsub _ hmem), ?_, ?_, ?_, ?_, ?_⟩
    · show lenOf h' s.head = s.level + 1
      rw [hsame.len]; exact habs.headLen
    · intro a ha
      show 1 ≤ lenOf h' a ∧ lenOf h' a ≤ s.level + 1
      rw [hsame.len]; exact habs.lens a (hsub a ha)
    · show Sorted (keyOf h') rest
      rw [hsame.key]; exact (List.pairwise_cons.mp habs.sorted).2
    · intro i hi
      show Chain h' i s.head (onLevel (lenOf h') i rest) none
      rw [hsame.len]
      have hci := habs.chains i hi
      have hnd := abs_nodup habs i
      by_cases hil : i < lenOf s.heap m
      · have hE : onLevel (lenOf s.heap) i (m :: rest) = [] ++ m :: onLevel (lenOf s.heap) i rest := by
          simp [onLevel, List.filter_cons, hil]
        rw [hE] at hci hnd
        have : Chain h' i s.head ([] ++ onLevel (lenOf s.heap) i rest) none := chain_delete hci hnd
          (by rw [hnx]; simp [lastOr, hil])
          (fun x hx => by
            rw [hnx]
            have hx' : x ≠ s.head := hx
            simp [hx'])
        simpa using this
      · have hE : onLevel (lenOf s.heap) i (m :: rest) = onLevel (lenOf s.heap) i rest := by
          simp [onLevel, List.filter_cons, hil]
        rw [hE] at hci
        refine chain_frame (fun x _ => ?_) hci
        rw [hnx]
        simp [hil]
    · show rest.length + 1 ≤ h'.length
      rw [hsame.size]
      have := habs.size
      simp only [List.length_cons] at this
      omega
    · show addInt32 s.length (-1) = wrap32 _
      rw [habs.len, addInt32, wrap32_add]
      congr 1
      simp only [List.length_cons]
      push_cast
      ring

/-! ## FindMax -/

theorem list_snoc_cases : ∀ l : List Nat, l = [] ∨ ∃ c0 m, l = c0 ++ [m]
  | [] => Or.inl rfl
  | a :: l => by
    rcases list_snoc_cases l with h | ⟨c0, m, h⟩
    · exact Or.inr ⟨[], a, by rw [h]; rfl⟩
    · exact Or.inr ⟨a :: c0, m, by rw [h]; rfl⟩

theorem lastOr_concat (l : List Nat) (a m : Nat) : lastOr a (l ++ [m]) = m := by
  rw [lastOr_append_cons]
  rfl

theorem prevOr_concat : ∀ (R0 : List Nat) (pre : Option Nat) (el m : Nat),
    prevOr pre el (R0 ++ [m]) = some (lastOr el R0)
  | [], pre, el, m => rfl
  | b :: R0, pre, el, m => by
    simp only [List.cons_append, prevOr, lastOr]
    exact prevOr_concat R0 (some el) b m

theorem beforeLast_concat : ∀ (c0 : List Nat) (hd m : Nat),
    beforeLast hd (c0 ++ [m]) = some (lastOr hd c0)
  | [], hd, m => rfl
  | [b], hd, m => rfl
  | b :: c :: l, hd, m => by
    have ih := beforeLast_concat (c :: l) b m
    simp only [List.cons_append] at ih ⊢
    simp only [beforeLast, lastOr] at ih ⊢
    exact ih

theorem chain_tail_from {h : Heap K V} {i hd el : Nat} {C : List Nat}
    (hc : Chain h i hd C none) (hel : el = hd ∨ el ∈ C) :
    ∃ R, Chain h i el R none ∧ lastOr el R = lastOr hd C ∧ R.length ≤ C.length ∧
      ((el = hd ∧ R = C) ∨ ∃ b, C = b ++ el :: R) := by
  rcases hel with rfl | hmem
  · exact ⟨C, hc, rfl, le_refl _, Or.inl ⟨rfl, rfl⟩⟩
  · obtain ⟨b, a, rfl⟩ := List.append_of_mem hmem
    refine ⟨a, (chain_append_cons.mp hc).2, (lastOr_append_cons b hd el a).symm, ?_,
      Or.inr ⟨b, rfl⟩⟩
    simp
    omega

theorem maxScan_spec {h : Heap K V} {i : Nat} :
    ∀ (R : List Nat) (el fuel : Nat), Chain h i el R none → R.length < fuel →
      maxScan h i fuel el = .ok (lastOr el R)
  | [], el, fuel, hc, hf => by
    obtain ⟨f, rfl⟩ : ∃ f, fuel = f + 1 := ⟨fuel - 1, by omega⟩
    simp only [Chain] at hc
    simp [maxScan, hc, lastOr]
  | b :: R, el, fuel, hc, hf => by
    obtain ⟨f, rfl⟩ : ∃ f, fuel = f + 1 := ⟨fuel - 1, by omega⟩
    have hf' : R.length < f := by simpa using hf
    simp only [Chain] at hc
    simp only [maxScan, hc.1, lastOr]
    exact maxScan_spec R b f hc.2 hf'

theorem onLevel_mono {len : Nat → Nat} {i : Nat} {L : List Nat} {x : Nat}
    (hx : x ∈ onLevel len (i + 1) L) : x ∈ onLevel len i L := by
  rw [mem_onLevel] at hx ⊢
  exact ⟨hx.1, by omega⟩

theorem maxAt_cases (len : Nat → Nat) (hd j : Nat) (L : List Nat) :
    maxAt len hd j L = hd ∨ maxAt len hd j L ∈ onLevel len j L :=
  List.mem_cons.mp (lastOr_mem _ _)

theorem abs_level_len {s : SkipList K V} {L : List Nat} (habs : Abs s L) (i : Nat) :
    (onLevel (lenOf s.heap) i L).length < s.heap.length := by
  have h1 : (onLevel (lenOf s.heap) i L).length ≤ L.length := List.length_filter_le _ _
  have h2 := habs.size
  omega

theorem abs_max_step {s : SkipList K V} {L : List Nat} (habs : Abs s L) {i : Nat}
    (hi : i ≤ s.level) :
    ∃ R, Chain s.heap i (maxAt (lenOf s.heap) s.head (i + 1) L) R none ∧
      lastOr (maxAt (lenOf s.heap) s.head (i + 1) L) R = maxAt (lenOf s.heap) s.head i L ∧
      R.length < s.heap.length ∧
      ((maxAt (lenOf s.heap) s.head (i + 1) L = s.head ∧ R = onLevel (lenOf s.heap) i L) ∨
        ∃ b, onLevel (lenOf s.heap) i L =
          b ++ maxAt (lenOf s.heap) s.head (i + 1) L :: R) := by
  have hel : maxAt (lenOf s.heap) s.head (i + 1) L = s.head ∨
      maxAt (lenOf s.heap) s.head (i + 1) L ∈ onLevel (lenOf s.heap) i L := by
    rcases maxAt_cases (lenOf s.heap) s.head (i + 1) L with h1 | h1
    · exact Or.inl h1
    · exact Or.inr (onLevel_mono h1)
  obtain ⟨R, h1, h2, h3, h4⟩ := chain_tail_from (habs.chains i hi) hel
  exact ⟨R, h1, h2, lt_of_le_of_lt h3 (abs_level_len habs i), h4⟩

theorem maxLevels_spec {s : SkipList K V} {L : List Nat} (habs : Abs s L) :
    ∀ n, n ≤ s.level + 1 →
      maxLevels s.heap s.heap.length n (maxAt (lenOf s.heap) s.head n L) =
        .ok (maxAt (lenOf s.heap) s.head 0 L)
  | 0, _ => rfl
  | n + 1, hn => by
    obtain ⟨R, hR, hlast, hlen, _⟩ := abs_max_step habs (show n ≤ s.level by omega)
    simp only [maxLevels, maxScan_spec R _ _ hR hlen, hlast]
    exact maxLevels_spec habs n (by omega)

theorem maxAt_top {s : SkipList K V} {L : List Nat} (habs : Abs s L) :
    maxAt (lenOf s.heap) s.head (s.level + 1) L = s.head := by
  have : onLevel (lenOf s.heap) (s.level + 1) L = [] := by
    unfold onLevel
    rw [List.filter_eq_nil_iff]
    intro a ha
    have := (habs.lens a ha).2
    simp
    omega
  simp [maxAt, this, lastOr]

theorem maxAt_zero {s : SkipList K V} {L : List Nat} (habs : Abs s L) :
    maxAt (lenOf s.heap) s.head 0 L = lastOr s.head L := by
  simp [maxAt, onLevel_zero (fun a ha => (habs.lens a ha).1)]

theorem findMax_nil {s : SkipList K V} (habs : Abs s []) : FindMax s = .ok none := by
  have h1 := maxLevels_spec habs (s.level + 1) (le_refl _)
  rw [maxAt_top habs, maxAt_zero habs] at h1
  simp [FindMax, h1, lastOr]

theorem findMax_concat {s : SkipList K V} {L0 : List Nat} {m : Nat} (habs : Abs s (L0 ++ [m])) :
    FindMax s = .ok (some (valOf s.heap m)) := by
  have h1 := maxLevels_spec habs (s.level + 1) (le_refl _)
  rw [maxAt_top habs, maxAt_zero habs, lastOr_concat] at h1
  have hne : m ≠ s.head := fun he => habs.headNot (by rw [← he]; simp)
  have hm : 0 < lenOf s.heap m := lt_of_lt_of_le Nat.zero_lt_one (habs.lens m (by simp)).1
  simp [FindMax, h1, hne, valAt_of_pos hm]

/-! ## PopMax -/

theorem popMaxScan_spec {h : Heap K V} {i : Nat} :
    ∀ (R : List Nat) (el fuel : Nat) (pre : Option Nat), Chain h i el R none → R.length < fuel →
      popMaxScan h i fuel el pre = .ok (lastOr el R, prevOr pre el R)
  | [], el, fuel, pre, hc, hf => by
    obtain ⟨f, rfl⟩ : ∃ f, fuel = f + 1 := ⟨fuel - 1, by omega⟩
    simp only [Chain] at hc
    simp [popMaxScan, hc, lastOr, prevOr]
  | b :: R, el, fuel, pre, hc, hf => by
    obtain ⟨f, rfl⟩ : ∃ f, fuel = f + 1 := ⟨fuel - 1, by omega⟩
    have hf' : R.length < f := by simpa using hf
    simp only [Chain] at hc
    simp only [popMaxScan, hc.1, lastOr, prevOr]
    exact popMaxScan_spec R b f (some el) hc.2 hf'

theorem popMaxPre_spec {h : Heap K V} {i m : Nat} (hm : 0 < lenOf h m) :
    ∀ (r : List Nat) (p fuel : Nat), Chain h i p (r ++ [m]) none →
      (∀ x ∈ r, keyOf h x < keyOf h m) → r.length < fuel →
      popMaxPre h i m fuel (some p) = .ok (some (lastOr p r))
  | [], p, fuel, hc, _, hf => by
    obtain ⟨f, rfl⟩ : ∃ f, fuel = f + 1 := ⟨fuel - 1, by omega⟩
    simp only [List.nil_append, Chain] at hc
    simp [popMaxPre, key_ge_eq, key_eq_eq, key_lt_eq, hc.1, keyAt_of_pos hm, lastOr]
  | b :: r, p, fuel, hc, hk, hf => by
    obtain ⟨f, rfl⟩ : ∃ f, fuel = f + 1 := ⟨fuel - 1, by omega⟩
    have hf' : r.length < f := by simpa using hf
    simp only [List.cons_append, Chain] at hc
    have hb : 0 < lenOf h b := lt_of_le_of_lt (Nat.zero_le _) (chain_lt hc.2 b (by simp))
    have hbk : keyOf h b < keyOf h m := hk b (by simp)
    simp only [popMaxPre, key_ge_eq, key_eq_eq, key_lt_eq, decide_eq_true_eq, hc.1, keyAt_of_pos hb, keyAt_of_pos hm, hbk, if_true, lastOr]
    exact popMaxPre_spec hm r b f hc.2 (fun x hx => hk x (List.mem_cons_of_mem _ hx)) hf'

theorem abs_popMax_step {s : SkipList K V} {L : List Nat} (habs : Abs s L) {i : Nat}
    (hi : i ≤ s.level) :
    ∃ pre', popMaxScan s.heap i s.heap.length (maxAt (lenOf s.heap) s.head (i + 1) L)
          (beforeLast s.head (onLevel (lenOf s.heap) (i + 1) L)) =
          .ok (maxAt (lenOf s.heap) s.head i L, pre') ∧
      popMaxPre s.heap i (maxAt (lenOf s.heap) s.head i L) s.heap.length pre' =
        .ok (beforeLast s.head (onLevel (lenOf s.heap) i L)) := by
  obtain ⟨R, hR, hlast, hlen, hstruct⟩ := abs_max_step habs hi
  have hscan := popMaxScan_spec R _ _
    (beforeLast s.head (onLevel (lenOf s.heap) (i + 1) L)) hR hlen
  rw [hlast] at hscan
  refine ⟨_, hscan, ?_⟩
  obtain ⟨f, hf⟩ : ∃ f, s.heap.length = f + 1 := ⟨s.heap.length - 1, by omega⟩
  have hcC := habs.chains i hi
  have hsC : Sorted (keyOf s.heap) (onLevel (lenOf s.heap) i L) := sorted_onLevel _ _ habs.sorted
  have hCl := abs_level_len habs i
  rcases list_snoc_cases (onLevel (lenOf s.heap) i L) with hC | ⟨c0, m, hC⟩
  · have hR0 : R = [] := by
      rcases hstruct with ⟨_, h2⟩ | ⟨b, h2⟩
      · rw [h2, hC]
      · rw [hC] at h2
        simp at h2
    have hC' : onLevel (lenOf s.heap) (i + 1) L = [] := by
      rw [List.eq_nil_iff_forall_not_mem]
      intro x hx
      have := onLevel_mono hx
      rw [hC] at this
      simp at this
    rw [hR0, hC', hC, hf]
    rfl
  · have hmax : maxAt (lenOf s.heap) s.head i L = m := by
      unfold maxAt
      rw [hC, lastOr_concat]
    have hmC : m ∈ onLevel (lenOf s.heap) i L := by rw [hC]; simp
    have hmL : m ∈ L := onLevel_sub _ _ _ _ hmC
    have hm : 0 < lenOf s.heap m := lt_of_lt_of_le Nat.zero_lt_one (habs.lens m hmL).1
    have hmh : m ≠ s.head := fun he => habs.headNot (by rw [← he]; exact hmL)
    rw [hC] at hcC hsC hCl
    have hkeys : ∀ x ∈ c0, keyOf s.heap x < keyOf s.heap m :=
      fun x hx => (List.pairwise_append.mp hsC).2.2 x hx m (by simp)
    have hc0len : c0.length < s.heap.length := by
      simp only [List.length_append, List.length_singleton] at hCl
      omega
    rw [hmax, hC, beforeLast_concat]
    rw [hmax] at hlast
    rcases list_snoc_cases R with hR0 | ⟨R0, m', hR0⟩
    · rw [hR0] at hlast ⊢
      simp only [lastOr] at hlast
      simp only [prevOr]
      have helh : maxAt (lenOf s.heap) s.head (i + 1) L ≠ s.head := by rw [hlast]; exact hmh
      have helC' : maxAt (lenOf s.heap) s.head (i + 1) L ∈ onLevel (lenOf s.heap) (i + 1) L := by
        rcases maxAt_cases (lenOf s.heap) s.head (i + 1) L with h1 | h1
        · exact absurd h1 helh
        · exact h1
      rcases list_snoc_cases (onLevel (lenOf s.heap) (i + 1) L) with hC' | ⟨c0', m'', hC'⟩
      · rw [hC'] at helC'
        simp at helC'
      · have hm'' : m'' = m := by
          have : maxAt (lenOf s.heap) s.head (i + 1) L = m'' := by
            unfold maxAt
            rw [hC', lastOr_concat]
          rw [← this, hlast]
        subst hm''
        rw [hC', beforeLast_concat]
        have hndC' : (c0' ++ [m'']).Nodup := by
          rw [← hC']
          exact sorted_nodup (sorted_onLevel _ _ habs.sorted)
        rcases List.mem_cons.mp (lastOr_mem c0' s.head) with hp | hp
        · rw [hp]
          exact popMaxPre_spec hm c0 s.head _ hcC hkeys hc0len
        · have hpC : lastOr s.head c0' ∈ onLevel (lenOf s.heap) i L := by
            apply onLevel_mono
            rw [hC']
            exact List.mem_append_left _ hp
          have hpne : lastOr s.head c0' ≠ m'' := by
            intro he
            have := (List.nodup_append.mp hndC').2.2
            exact this hp (by rw [he]; simp)
          have hpc0 : lastOr s.head c0' ∈ c0 := by
            rw [hC] at hpC
            rcases List.mem_append.mp hpC with h1 | h1
            · exact h1
            · simp at h1
              exact absurd h1 hpne
          obtain ⟨a, r, hc0⟩ := List.append_of_mem hpc0
          rw [hc0, List.append_assoc, List.cons_append] at hcC
          have hcp := (chain_append_cons.mp hcC).2
          have hr : ∀ x ∈ r, keyOf s.heap x < keyOf s.heap m'' := fun x hx =>
            hkeys x (by rw [hc0]; exact List.mem_append_right _ (List.mem_cons_of_mem _ hx))
          have hrlen : r.length < s.heap.length := by
            have := congrArg List.length hc0
            simp only [List.length_append, List.length_cons] at this
            omega
          rw [popMaxPre_spec hm r _ _ hcp hr hrlen]
          have : lastOr s.head c0 = lastOr (lastOr s.head c0') r := by
            rw [hc0, lastOr_append_cons]
          rw [this]
    · have hm' : m' = m := by
        rw [hR0, lastOr_concat] at hlast
        exact hlast
      subst hm'
      rw [hR0] at hR hstruct ⊢
      rw [prevOr_concat]
      have hcl : Chain s.heap i (lastOr (maxAt (lenOf s.heap) s.head (i + 1) L) R0)
          ([] ++ [m']) none := chain_lastOr hR
      have heq : lastOr (maxAt (lenOf s.heap) s.head (i + 1) L) R0 = lastOr s.head c0 := by
        rcases hstruct with ⟨h1, h2⟩ | ⟨b, h2⟩
        · rw [h1]
          rw [hC] at h2
          rw [List.append_cancel_right h2]
        · rw [hC] at h2
          have h3 : c0 ++ [m'] = (b ++ maxAt (lenOf s.heap) s.head (i + 1) L :: R0) ++ [m'] := by
            rw [h2]
            simp
          rw [List.append_cancel_right h3, lastOr_append_cons]
      rw [popMaxPre_spec hm [] _ _ hcl (fun x hx => by simp at hx) (by simp; omega)]
      simp only [lastOr]
      rw [heq]

theorem popMaxLevels_spec {s : SkipList K V} {L : List Nat} (habs : Abs s L) :
    ∀ (n : Nat) (pres : List (Option Nat)), n ≤ s.level + 1 → pres.length = s.level + 1 →
      ∃ pres', popMaxLevels s.heap s.heap.length n (maxAt (lenOf s.heap) s.head n L)
          (beforeLast s.head (onLevel (lenOf s.heap) n L)) pres =
          .ok (maxAt (lenOf s.heap) s.head 0 L, pres') ∧
        (∀ j, j < n → pres'[j]? = some (beforeLast s.head (onLevel (lenOf s.heap) j L))) ∧
        (∀ j, n ≤ j → pres'[j]? = pres[j]?)
  | 0, pres, _, _ => ⟨pres, rfl, by intro j hj; omega, fun _ _ => rfl⟩
  | n + 1, pres, hn, hp => by
    obtain ⟨pre', hscan, hpre⟩ := abs_popMax_step habs (show n ≤ s.level by omega)
    have hnl : n < pres.length := by omega
    obtain ⟨pres', h1, h2, h3⟩ := popMaxLevels_spec habs n
      (pres.set n (beforeLast s.head (onLevel (lenOf s.heap) n L))) (by omega)
      (by simpa using hp)
    refine ⟨pres', ?_, ?_, ?_⟩
    · simp only [popMaxLevels, hscan, hpre, hnl, if_true]
      exact h1
    · intro j hj
      by_cases hjn : j = n
      · subst hjn
        rw [h3 j (le_refl _), List.getElem?_set_self hnl]
      · exact h2 j (by omega)
    · intro j hj
      rw [h3 j (by omega), List.getElem?_set_ne (by omega)]

theorem popMaxUnlink_spec (pres : List (Option Nat)) (P : Nat → Nat) :
    ∀ (n : Nat) (h : Heap K V), (∀ j, j < n → pres[j]? = some (some (P j))) →
      (∀ j, j < n → j < lenOf h (P j)) →
      ∃ h', popMaxUnlink pres n h = .ok h' ∧ SameCells h h' ∧
        ∀ b j, nextAt h' b j = if j < n ∧ b = P j then .ok none else nextAt h b j
  | 0, h, _, _ => ⟨h, rfl, SameCells.refl h, fun b j => by simp⟩
  | n + 1, h, hp, hl => by
    have hp0 := hp n (by omega)
    have hlp : n < lenOf h (P n) := hl n (by omega)
    have hs1 := writeNext_same none hlp
    obtain ⟨h', hr, hsame, hnx⟩ := popMaxUnlink_spec pres P n (writeNext h (P n) n none)
      (fun j hj => hp j (by omega)) (fun j hj => by rw [hs1.len]; exact hl j (by omega))
    refine ⟨h', ?_, SameCells.trans hs1 hsame, ?_⟩
    · simp only [popMaxUnlink, hp0, setNext_eq_write _ hlp]
      exact hr
    · intro b j
      rw [hnx b j, writeNext_nextAt _ hlp]
      by_cases hjn : j < n
      · have h1 : j < n + 1 := by omega
        have h2 : j ≠ n := by omega
        simp [hjn, h1, h2]
      · by_cases hje : j = n
        · subst hje
          simp
        · have h1 : ¬ j < n + 1 := by omega
          simp [hjn, h1, hje]

theorem popMax_nil {s : SkipList K V} (habs : Abs s []) : PopMax s = .ok (none, s) := by
  obtain ⟨pres', h1, _, _⟩ := popMaxLevels_spec habs (s.level + 1)
    (List.replicate (s.level + 1) none) (le_refl _) (by simp)
  have htop : onLevel (lenOf s.heap) (s.level + 1) ([] : List Nat) = [] := rfl
  rw [maxAt_top habs, maxAt_zero habs, htop] at h1
  simp only [beforeLast, lastOr] at h1
  simp [PopMax, h1]

theorem popMax_concat {s : SkipList K V} {L0 : List Nat} {m : Nat}
    (habs : Abs s (L0 ++ [m])) :
    ∃ s', PopMax s = .ok (some (valOf s.heap m), s') ∧ Abs s' L0 ∧
      s'.length = addInt32 s.length (-1) ∧ s'.level = s.level ∧ s'.head = s.head ∧
      s'.stepSize = s.stepSize ∧ SameCells s.heap s'.heap := by
  obtain ⟨pres', h1, h2, _⟩ := popMaxLevels_spec habs (s.level + 1)
    (List.replicate (s.level + 1) none) (le_refl _) (by simp)
  have htop : onLevel (lenOf s.heap) (s.level + 1) (L0 ++ [m]) = [] := by
    unfold onLevel
    rw [List.filter_eq_nil_iff]
    intro a ha
    have := (habs.lens a ha).2
    simp
    omega
  rw [maxAt_top habs, maxAt_zero habs, htop, lastOr_concat] at h1
  simp only [beforeLast] at h1
  have hml := habs.lens m (by simp)
  have hm : 0 < lenOf s.heap m := lt_of_lt_of_le Nat.zero_lt_one hml.1
  have hmh : m ≠ s.head := fun he => habs.headNot (by rw [← he]; simp)
  have hsub : ∀ a ∈ L0, a ∈ L0 ++ [m] := fun a ha => List.mem_append_left _ ha
  have hlevel : ∀ j, j < lenOf s.heap m →
      onLevel (lenOf s.heap) j (L0 ++ [m]) = onLevel (lenOf s.heap) j L0 ++ [m] := by
    intro j hj
    simp [onLevel, List.filter_cons, hj]
  have hlevel' : ∀ j, ¬ j < lenOf s.heap m →
      onLevel (lenOf s.heap) j (L0 ++ [m]) = onLevel (lenOf s.heap) j L0 := by
    intro j hj
    simp [onLevel, List.filter_cons, hj]
  have hP : ∀ j, j < lenOf s.heap m →
      j < lenOf s.heap (lastOr s.head (onLevel (lenOf s.heap) j L0)) := by
    intro j hj
    rcases List.mem_cons.mp (lastOr_mem (onLevel (lenOf s.heap) j L0) s.head) with h3 | h3
    · rw [h3, habs.headLen]; omega
    · exact (mem_onLevel.mp h3).2
  obtain ⟨h', hr, hsame, hnx⟩ := popMaxUnlink_spec pres'
    (fun j => lastOr s.head (onLevel (lenOf s.heap) j L0)) (lenOf s.heap m) s.heap
    (fun j hj => by
      rw [h2 j (by omega), hlevel j hj, beforeLast_concat])
    hP
  have hm' : 0 < lenOf h' m := by rw [hsame.len]; exact hm
  refine ⟨{ s with heap := h', length := addInt32 s.length (-1) }, ?_, ?_, rfl, rfl, rfl, rfl,
    hsame⟩
  · simp only [PopMax, h1, hmh, if_false, lenAt_of_pos hm, hr, valAt_of_pos hm', hsame.val]
  · refine ⟨?_, fun hmem => habs.headNot (hsub _ hmem), ?_, ?_, ?_, ?_, ?_⟩
    · show lenOf h' s.head = s.level + 1
      rw [hsame.len]; exact habs.headLen
    · intro a ha
      show 1 ≤ lenOf h' a ∧ lenOf h' a ≤ s.level + 1
      rw [hsame.len]; exact habs.lens a (hsub a ha)
    · show Sorted (keyOf h') L0
      rw [hsame.key]; exact (List.pairwise_append.mp habs.sorted).1
    · intro i hi
      show Chain h' i s.head (onLevel (lenOf h') i L0) none
      rw [hsame.len]
      have hci := habs.chains i hi
      have hnd := abs_nodup habs i
      by_cases hil : i < lenOf s.heap m
      · rw [hlevel i hil] at hci hnd
        have hmnil : nextAt s.heap m i = .ok none := by
          have := (chain_append_cons.mp hci).2
          simpa [Chain] using this
        have : Chain h' i s.head (onLevel (lenOf s.heap) i L0 ++ []) none := chain_delete hci hnd
          (by rw [hnx, hmnil]; simp [hil])
          (fun x hx => by
            rw [hnx]
            have hx' : x ≠ lastOr s.head (onLevel (lenOf s.heap) i L0) := hx
            simp [hx'])
        simpa using this
      · rw [hlevel' i hil] at hci
        refine chain_frame (fun x _ => ?_) hci
        rw [hnx]
        simp [hil]
    · show L0.length + 1 ≤ h'.length
      rw [hsame.size]
      have := habs.size
      simp only [List.length_append, List.length_singleton] at this
      omega
    · show addInt32 s.length (-1) = wrap32 _
      rw [habs.len, addInt32, wrap32_add]
      congr 1
      simp only [List.length_append, List.length_singleton]
      push_cast
      ring

/-! ## The invariant holds in every reachable list -/

theorem reachable_abs {s : SkipList K V} (hr : Reachable s) : ∃ L, Abs s L := by
  induction hr with
  | new stepSize level => exact ⟨[], new_abs stepSize level⟩
  | put k v rnd _ hput ih =>
    obtain ⟨L, habs⟩ := ih
    cases ht : L.find? (fun b => decide (keyOf _ b = k)) with
    | none =>
      obtain ⟨s1, h1, h2, _⟩ := put_miss habs k v rnd ht
      rw [h1] at hput
      injection hput with hput
      injection hput with _ hs
      subst hs
      exact ⟨_, h2⟩
    | some d =>
      obtain ⟨h1, h2⟩ := put_hit habs k v rnd ht
      rw [h1] at hput
      injection hput with hput
      injection hput with _ hs
      subst hs
      exact ⟨_, h2⟩
  | pop k _ hpop ih =>
    obtain ⟨L, habs⟩ := ih
    cases ht : L.find? (fun b => decide (keyOf _ b = k)) with
    | none =>
      rw [pop_miss habs k ht] at hpop
      injection hpop with hpop
      injection hpop with _ hs
      subst hs
      exact ⟨_, habs⟩
    | some d =>
      obtain ⟨s1, h1, h2, _⟩ := pop_hit habs k ht
      rw [h1] at hpop
      injection hpop with hpop
      injection hpop with _ hs
      subst hs
      exact ⟨_, h2⟩
  | popMin _ hpop ih =>
    obtain ⟨L, habs⟩ := ih
    cases L with
    | nil =>
      rw [popMin_empty habs] at hpop
      injection hpop with hpop
      injection hpop with _ hs
      subst hs
      exact ⟨_, habs⟩
    | cons m rest =>
      obtain ⟨s1, h1, h2, _⟩ := popMin_cons habs
      rw [h1] at hpop
      injection hpop with hpop
      injection hpop with _ hs
      subst hs
      exact ⟨_, h2⟩
  | popMax _ hpop ih =>
    obtain ⟨L, habs⟩ := ih
    rcases list_snoc_cases L with hL | ⟨L0, m, hL⟩
    · subst hL
      rw [popMax_nil habs] at hpop
      injection hpop with hpop
      injection hpop with _ hs
      subst hs
      exact ⟨_, habs⟩
    · subst hL
      obtain ⟨s1, h1, h2, _⟩ := popMax_concat habs
      rw [h1] at hpop
      injection hpop with hpop
      injection hpop with _ hs
      subst hs
      exact ⟨_, h2⟩

theorem abs_chainOf {s : SkipList K V} {L : List Nat} (habs : Abs s L) {i : Nat}
    (hi : i ≤ s.level) : chainOf s i = onLevel (lenOf s.heap) i L :=
  walk_chain (habs.chains i hi) (le_of_lt (abs_level_len habs i))

theorem abs_chainOf_zero {s : SkipList K V} {L : List Nat} (habs : Abs s L) :
    chainOf s 0 = L := by
  rw [abs_chainOf habs (Nat.zero_le _), onLevel_zero (fun a ha => (habs.lens a ha).1)]

theorem find_of_mem {s : SkipList K V} {L : List Nat} (habs : Abs s L) {k : K} {d : Nat}
    (hd : d ∈ L) (hk : keyOf s.heap d = k) : Find s k = .ok (some (valOf s.heap d)) := by
  rw [find_spec habs k, sorted_find habs.sorted hd hk]
  rfl

theorem find_of_absent {s : SkipList K V} {L : List Nat} (habs : Abs s L) {k : K}
    (hk : ∀ d ∈ L, keyOf s.heap d ≠ k) : Find s k = .ok none := by
  rw [find_spec habs k, find_eq_none_of_ne hk]
  rfl

theorem put_total {s : SkipList K V} {L : List Nat} (habs : Abs s L) (k : K) (v : V)
    (rnd : Nat → Int) :
    ∃ s' L' d, Put s k v rnd = .ok (none, s') ∧ Abs s' L' ∧ d ∈ L' ∧
      keyOf s'.heap d = k ∧ valOf s'.heap d = v := by
  cases ht : L.find? (fun b => decide (keyOf s.heap b = k)) with
  | none =>
    obtain ⟨s1, h1, h2, _, _, _, _, h3, h4, _⟩ := put_miss habs k v rnd ht
    exact ⟨s1, _, s.heap.length, h1, h2, by simp, h3, h4⟩
  | some d =>
    obtain ⟨h1, h2⟩ := put_hit habs k v rnd ht
    have hdL : d ∈ L := List.mem_of_find?_eq_some ht
    have hdk : keyOf s.heap d = k := by simpa using List.find?_some ht
    have hdpos : 0 < lenOf s.heap d := lt_of_lt_of_le Nat.zero_lt_one (habs.lens d hdL).1
    obtain ⟨_, _, hkey, hval, _, _⟩ := writeVal_spec v hdpos
    refine ⟨_, L, d, h1, h2, hdL, ?_, ?_⟩
    · show keyOf (writeVal s.heap d v) d = k
      rw [hkey]; exact hdk
    · show valOf (writeVal s.heap d v) d = v
      rw [hval]; simp

theorem walk_congr {h h' : Heap K V} (i : Nat) (hn : ∀ b, nextAt h' b i = nextAt h b i) :
    ∀ (fuel a : Nat), walk h' i fuel a = walk h i fuel a
  | 0, _ => rfl
  | fuel + 1, a => by
    simp only [walk, hn a]
    cases nextAt h a i with
    | error f => rfl
    | ok p =>
      cases p with
      | none => rfl
      | some b => simp only [walk_congr i hn fuel b]

theorem sampleOne_reachable : Reachable sampleOne :=
  Reachable.put 7 "seven" sampleRnd (Reachable.new 4 3)
    (show Put sampleEmpty 7 "seven" sampleRnd = .ok (none, sampleOne) from rfl)

theorem sampleTwo_reachable : Reachable sampleTwo :=
  Reachable.put 3 "three" (fun _ => 1) sampleOne_reachable
    (show Put sampleOne 3 "three" (fun _ => 1) = .ok (none, sampleTwo) from rfl)

/-! ## The claims -/

/-- C1 (round trip): in every list reachable from `NewSkipList` through the mutating
operations, for every key `k`, value `v` and trial outcomes `rnd` (hence every height
drawn by `randomLevel`), `Put(k, v)` returns the `nil` error without fault, and `Find(k)`
on the resulting list returns `v` with no error. -/
theorem C1_put_then_find (s : SkipList K V) (hr : Reachable s) (k : K) (v : V)
    (rnd : Nat → Int) :
    ∃ s', Put s k v rnd = .ok (none, s') ∧ Find s' k = .ok (some v) := by
  obtain ⟨L, habs⟩ := reachable_abs hr
  obtain ⟨s', L', d, h1, h2, h3, h4, h5⟩ := put_total habs k v rnd
  exact ⟨s', h1, by rw [find_of_mem h2 h3 h4, h5]⟩

/-- Witness of C1 on the empty sample list. -/
theorem C1_put_then_find_witness :
    ∃ s', Put sampleEmpty 7 "seven" sampleRnd = .ok (none, s') ∧
      Find s' 7 = .ok (some "seven") :=
  C1_put_then_find sampleEmpty (Reachable.new 4 3) 7 "seven" sampleRnd

/-- C2, as amended to totally ordered keys (Find is the linear lookup in the level 0 chain): in every reachable list, for
every key `k`, `Find(k)` returns without fault the result of the linear lookup of `k`
among the cells of the level 0 chain; it returns the value of the level 0 cell with key
`k` when there is one, and `ErrNotFound` exactly when no level 0 cell has key `k`. The
head sentinel is not a cell of the chain, so its zero key is never matched.
The key type is one on which the Go comparisons are those of a linear order (the integer
types and strings). -/
theorem C2_find_linear_lookup (s : SkipList K V) (hr : Reachable s) (k : K) :
    Find s k = .ok (lookup0 s k) ∧
      (∀ a ∈ chainOf s 0, keyOf s.heap a = k → Find s k = .ok (some (valOf s.heap a))) ∧
      (Find s k = .ok none ↔ ∀ a ∈ chainOf s 0, keyOf s.heap a ≠ k) ∧
      s.head ∉ chainOf s 0 := by
  obtain ⟨L, habs⟩ := reachable_abs hr
  rw [lookup0, abs_chainOf_zero habs]
  refine ⟨find_spec habs k, fun a ha hk => find_of_mem habs ha hk, ?_, habs.headNot⟩
  constructor
  · intro hf a ha hk
    rw [find_of_mem habs ha hk] at hf
    simp at hf
  · exact fun h => find_of_absent habs h

/-- Witness of C2 on the sample list holding the keys 3 and 7, for the zero key that the
sentinel holds. -/
theorem C2_find_linear_lookup_witness :
    Find sampleTwo 0 = .ok (lookup0 sampleTwo 0) ∧
      (∀ a ∈ chainOf sampleTwo 0, keyOf sampleTwo.heap a = 0 →
        Find sampleTwo 0 = .ok (some (valOf sampleTwo.heap a))) ∧
      (Find sampleTwo 0 = .ok none ↔ ∀ a ∈ chainOf sampleTwo 0, keyOf sampleTwo.heap a ≠ 0) ∧
      sampleTwo.head ∉ chainOf sampleTwo 0 :=
  C2_find_linear_lookup sampleTwo sampleTwo_reachable 0

/-- C3, as amended to totally ordered keys (update, not duplicate): in every reachable list, for every key `k`, values `v1`,
`v2` and trial outcomes, `Put(k, v1)` followed by `Put(k, v2)` both return the `nil`
error; the second one leaves `Length()` at its value after the first, `Find(k)` then
returns `v2`, and the second `Put` changes no forward link of any cell (hence no chain at
any level), no key, and no value other than that of the cell holding `k`.
The key type is one on which the Go comparisons are those of a linear order (the integer
types and strings). -/
theorem C3_put_twice_updates (s : SkipList K V) (hr : Reachable s) (k : K) (v1 v2 : V)
    (rnd1 rnd2 : Nat → Int) :
    ∃ s1 s2, Put s k v1 rnd1 = .ok (none, s1) ∧ Put s1 k v2 rnd2 = .ok (none, s2) ∧
      Length s2 = Length s1 ∧ Find s2 k = .ok (some v2) ∧
      s2.heap.map Elem.next = s1.heap.map Elem.next ∧ s2.head = s1.head ∧
      (∀ i, chainOf s2 i = chainOf s1 i) ∧ keyOf s2.heap = keyOf s1.heap ∧
      (∀ a, keyOf s1.heap a ≠ k → valOf s2.heap a = valOf s1.heap a) := by
  obtain ⟨L, habs⟩ := reachable_abs hr
  obtain ⟨s1, L1, d, h1, habs1, hd, hdk, _⟩ := put_total habs k v1 rnd1
  have ht := sorted_find habs1.sorted hd hdk
  obtain ⟨h2, habs2⟩ := put_hit habs1 k v2 rnd2 ht
  have hdpos : 0 < lenOf s1.heap d := lt_of_lt_of_le Nat.zero_lt_one (habs1.lens d hd).1
  obtain ⟨hsz, _, hkey, hval, hnx, hmap⟩ := writeVal_spec v2 hdpos
  refine ⟨s1, _, h1, h2, rfl, ?_, hmap, rfl, ?_, hkey, ?_⟩
  · have hk2 : keyOf (writeVal s1.heap d v2) d = k := by rw [hkey]; exact hdk
    have := find_of_mem habs2 hd hk2
    rw [this]
    show Except.ok (some (valOf (writeVal s1.heap d v2) d)) = _
    rw [hval]
    simp
  · intro i
    show walk (writeVal s1.heap d v2) i (writeVal s1.heap d v2).length s1.head = _
    rw [hsz]
    exact walk_congr i (fun b => hnx b i) _ _
  · intro a ha
    show valOf (writeVal s1.heap d v2) a = _
    rw [hval]
    have : a ≠ d := by
      rintro rfl
      exact ha hdk
    simp [this]

/-- Witness of C3 on the empty sample list. -/
theorem C3_put_twice_updates_witness :
    ∃ s1 s2, Put sampleEmpty 7 "a" sampleRnd = .ok (none, s1) ∧
      Put s1 7 "b" (fun _ => 0) = .ok (none, s2) ∧
      Length s2 = Length s1 ∧ Find s2 7 = .ok (some "b") ∧
      s2.heap.map Elem.next = s1.heap.map Elem.next ∧ s2.head = s1.head ∧
      (∀ i, chainOf s2 i = chainOf s1 i) ∧ keyOf s2.heap = keyOf s1.heap ∧
      (∀ a, keyOf s1.heap a ≠ 7 → valOf s2.heap a = valOf s1.heap a) :=
  C3_put_twice_updates sampleEmpty (Reachable.new 4 3) 7 "a" "b" sampleRnd (fun _ => 0)

theorem abs_level_keys {s : SkipList K V} {L : List Nat} (habs : Abs s L) {i : Nat}
    (hi : i ≤ s.level) {k : K} (hk : ∀ a ∈ L, keyOf s.heap a ≠ k) :
    Chain s.heap i s.head (chainOf s i) none ∧ ∀ b ∈ chainOf s i, keyOf s.heap b ≠ k := by
  rw [abs_chainOf habs hi]
  exact ⟨habs.chains i hi, fun b hb => hk b (onLevel_sub _ _ _ b hb)⟩

theorem abs_length_small {s : SkipList K V} {L : List Nat} (habs : Abs s L)
    (hb : L.length < 2147483648) : s.length = L.length := by
  rw [habs.len]
  exact wrap32_small (by omega) (by omega)

/-- C4, as amended to totally ordered keys (deletion removes fully): in every reachable list whose level 0 chain has a cell
`a` with key `k`, `Pop(k)` returns the value of `a` with no error and applies one
`AddInt32(-1)` to the length, so that `Length()` drops by exactly 1 whenever the number of
entries fits `int32`; afterwards the level 0 chain is one cell shorter, `Find(k)` returns
`ErrNotFound`, and at every level `0..maxLevel` the chain from the head runs to `nil`
without meeting a cell with key `k`.
The key type is one on which the Go comparisons are those of a linear order (the integer
types and strings). -/
theorem C4_pop_removes_fully (s : SkipList K V) (hr : Reachable s) (k : K) (a : Nat)
    (ha : a ∈ chainOf s 0) (hk : keyOf s.heap a = k) :
    ∃ s', Pop s k = .ok (some (valOf s.heap a), s') ∧
      Length s' = addInt32 (Length s) (-1) ∧
      ((chainOf s 0).length < 2147483648 → Length s' = Length s - 1) ∧
      (chainOf s' 0).length + 1 = (chainOf s 0).length ∧
      Find s' k = .ok none ∧
      ∀ i, i ≤ s'.level →
        Chain s'.heap i s'.head (chainOf s' i) none ∧
          ∀ b ∈ chainOf s' i, keyOf s'.heap b ≠ k := by
  obtain ⟨L, habs⟩ := reachable_abs hr
  rw [abs_chainOf_zero habs] at ha ⊢
  have ht := sorted_find habs.sorted ha hk
  obtain ⟨s', h1, habs', hlen, hl, _, _, _, hsame⟩ := pop_hit habs k ht
  have hkeys : ∀ b ∈ L.filter (fun b => decide (keyOf s.heap b ≠ k)), keyOf s'.heap b ≠ k := by
    intro b hb
    rw [hsame.key]
    simpa using (List.mem_filter.mp hb).2
  refine ⟨s', h1, hl, ?_, ?_, find_of_absent habs' hkeys, fun i hi => abs_level_keys habs' hi hkeys⟩
  · intro hsmall
    have h2 := abs_length_small habs hsmall
    have h3 := abs_length_small habs' (by omega)
    show s'.length = s.length - 1
    rw [h2, h3]
    omega
  · rw [abs_chainOf_zero habs']
    exact hlen

/-- Witness of C4: `Pop(3)` on the sample list holding the keys 3 and 7. -/
theorem C4_pop_removes_fully_witness :
    ∃ s', Pop sampleTwo 3 = .ok (some (valOf sampleTwo.heap 2), s') ∧
      Length s' = addInt32 (Length sampleTwo) (-1) ∧
      ((chainOf sampleTwo 0).length < 2147483648 → Length s' = Length sampleTwo - 1) ∧
      (chainOf s' 0).length + 1 = (chainOf sampleTwo 0).length ∧
      Find s' 3 = .ok none ∧
      ∀ i, i ≤ s'.level →
        Chain s'.heap i s'.head (chainOf s' i) none ∧
          ∀ b ∈ chainOf s' i, keyOf s'.heap b ≠ 3 :=
  C4_pop_removes_fully sampleTwo sampleTwo_reachable 3 2 (by decide) rfl

/-- C5, as amended to totally ordered keys (Pop fails exactly on absent keys, and is then a no-op): in every reachable list
and for every key `k`, `Pop(k)` returns without fault; it returns `ErrNotFound` if and
only if no cell of the level 0 chain has key `k`, and in that case the list is left
exactly as it was: same heap, hence the same chain at every level, and the same
`Length()`.
The key type is one on which the Go comparisons are those of a linear order (the integer
types and strings). -/
theorem C5_pop_absent_noop (s : SkipList K V) (hr : Reachable s) (k : K) :
    ∃ r s', Pop s k = .ok (r, s') ∧
      (r = none ↔ ∀ a ∈ chainOf s 0, keyOf s.heap a ≠ k) ∧
      (r = none → s' = s ∧ (∀ i, chainOf s' i = chainOf s i) ∧ Length s' = Length s) := by
  obtain ⟨L, habs⟩ := reachable_abs hr
  rw [abs_chainOf_zero habs]
  cases ht : L.find? (fun b => decide (keyOf s.heap b = k)) with
  | none =>
    refine ⟨none, s, pop_miss habs k ht, ?_, fun _ => ⟨rfl, fun _ => rfl, rfl⟩⟩
    exact ⟨fun _ => find_none_ne ht, fun _ => rfl⟩
  | some d =>
    obtain ⟨s', h1, _⟩ := pop_hit habs k ht
    refine ⟨_, s', h1, ?_, fun h => by simp at h⟩
    constructor
    · intro h
      simp at h
    · intro h
      have hdL : d ∈ L := List.mem_of_find?_eq_some ht
      have hdk : keyOf s.heap d = k := by simpa using List.find?_some ht
      exact absurd hdk (h d hdL)

/-- Witness of C5: `Pop(5)` on the sample list holding the keys 3 and 7. -/
theorem C5_pop_absent_noop_witness :
    ∃ r s', Pop sampleTwo 5 = .ok (r, s') ∧
      (r = none ↔ ∀ a ∈ chainOf sampleTwo 0, keyOf sampleTwo.heap a ≠ 5) ∧
      (r = none → s' = sampleTwo ∧ (∀ i, chainOf s' i = chainOf sampleTwo i) ∧
        Length s' = Length sampleTwo) :=
  C5_pop_absent_noop sampleTwo sampleTwo_reachable 5

/-- C6, as amended to totally ordered keys (ordering invariant): in every list obtained from `NewSkipList` by any finite
sequence of `Put`, `Pop`, `PopMin` and `PopMax` calls with any drawn heights, the level 0
links lead from the head through the cells of the level 0 chain to `nil` (no cycle), the
keys along that chain increase strictly, and neither a key nor a cell occurs twice.
The key type is one on which the Go comparisons are those of a linear order (the integer
types and strings). -/
theorem C6_level0_strictly_increasing (s : SkipList K V) (hr : Reachable s) :
    Chain s.heap 0 s.head (chainOf s 0) none ∧
      ((chainOf s 0).map (keyOf s.heap)).Pairwise (fun x y => x < y) ∧
      ((chainOf s 0).map (keyOf s.heap)).Nodup ∧
      (s.head :: chainOf s 0).Nodup := by
  obtain ⟨L, habs⟩ := reachable_abs hr
  rw [abs_chainOf_zero habs]
  have hp : (L.map (keyOf s.heap)).Pairwise (fun x y => x < y) :=
    List.pairwise_map.mpr habs.sorted
  refine ⟨abs_chain0 habs, hp, ?_, ?_⟩
  · exact List.Pairwise.imp (fun {x y} (hxy : x < y) => ne_of_lt hxy) hp
  · exact List.nodup_cons.mpr ⟨habs.headNot, sorted_nodup habs.sorted⟩

/-- Witness of C6 on the sample list holding the keys 3 and 7. -/
theorem C6_level0_strictly_increasing_witness :
    Chain sampleTwo.heap 0 sampleTwo.head (chainOf sampleTwo 0) none ∧
      ((chainOf sampleTwo 0).map (keyOf sampleTwo.heap)).Pairwise (fun x y => x < y) ∧
      ((chainOf sampleTwo 0).map (keyOf sampleTwo.heap)).Nodup ∧
      (sampleTwo.head :: chainOf sampleTwo 0).Nodup :=
  C6_level0_strictly_increasing sampleTwo sampleTwo_reachable

/-- C7, as amended to totally ordered keys (length invariant): in every list obtained from `NewSkipList` by any finite
sequence of `Put`, `Pop`, `PopMin` and `PopMax` calls, `Length()` is the `int32` image of
the number of cells reached from the head along level 0, none of which is the sentinel;
with fewer than 2^31 entries, `Length()` equals that number.
The key type is one on which the Go comparisons are those of a linear order (the integer
types and strings). -/
theorem C7_length_counts_level0 (s : SkipList K V) (hr : Reachable s)
    (hb : (chainOf s 0).length < 2147483648) :
    Length s = (chainOf s 0).length ∧ Length s = wrap32 (chainOf s 0).length ∧
      Chain s.heap 0 s.head (chainOf s 0) none ∧ s.head ∉ chainOf s 0 := by
  obtain ⟨L, habs⟩ := reachable_abs hr
  rw [abs_chainOf_zero habs] at hb ⊢
  exact ⟨abs_length_small habs hb, habs.len, abs_chain0 habs, habs.headNot⟩

/-- Witness of C7 on the sample list holding the keys 3 and 7. -/
theorem C7_length_counts_level0_witness :
    Length sampleTwo = (chainOf sampleTwo 0).length ∧
      Length sampleTwo = wrap32 (chainOf sampleTwo 0).length ∧
      Chain sampleTwo.heap 0 sampleTwo.head (chainOf sampleTwo 0) none ∧
      sampleTwo.head ∉ chainOf sampleTwo 0 :=
  C7_length_counts_level0 sampleTwo sampleTwo_reachable (by decide)

theorem getLast_concat (l : List Nat) (m : Nat) : (l ++ [m]).getLast? = some m := by
  simp

theorem filter_ne_concat {l : List Nat} {m : Nat} (hm : m ∉ l) :
    (l ++ [m]).filter (fun b => decide (b ≠ m)) = l := by
  rw [List.filter_append]
  have h1 : l.filter (fun b => decide (b ≠ m)) = l := by
    rw [List.filter_eq_self]
    intro b hb
    have : b ≠ m := fun he => hm (he ▸ hb)
    simpa using this
  rw [h1]
  simp

/-- C8, as amended to totally ordered keys (FindMax): in every reachable list whose level 0 chain is not empty, `FindMax`
returns with no error the value of the last cell `m` of the level 0 chain, and the key of
`m` is the largest key of the chain, whatever the heights of the cells are.
The key type is one on which the Go comparisons are those of a linear order (the integer
types and strings). -/
theorem C8_findMax_largest (s : SkipList K V) (hr : Reachable s) (hne : chainOf s 0 ≠ []) :
    ∃ m, (chainOf s 0).getLast? = some m ∧ FindMax s = .ok (some (valOf s.heap m)) ∧
      ∀ a ∈ chainOf s 0, keyOf s.heap a ≤ keyOf s.heap m := by
  obtain ⟨L, habs⟩ := reachable_abs hr
  rw [abs_chainOf_zero habs] at hne ⊢
  rcases list_snoc_cases L with hL | ⟨L0, m, hL⟩
  · exact absurd hL hne
  · subst hL
    refine ⟨m, getLast_concat L0 m, findMax_concat habs, fun a ha => ?_⟩
    rcases List.mem_append.mp ha with h1 | h1
    · exact le_of_lt ((List.pairwise_append.mp habs.sorted).2.2 a h1 m (by simp))
    · simp at h1
      rw [h1]

/-- Witness of C8 on the sample list holding the keys 3 and 7. -/
theorem C8_findMax_largest_witness :
    ∃ m, (chainOf sampleTwo 0).getLast? = some m ∧
      FindMax sampleTwo = .ok (some (valOf sampleTwo.heap m)) ∧
      ∀ a ∈ chainOf sampleTwo 0, keyOf sampleTwo.heap a ≤ keyOf sampleTwo.heap m :=
  C8_findMax_largest sampleTwo sampleTwo_reachable (by decide)

/-- C9, as amended to totally ordered keys (FindMin): in every reachable list whose level 0 chain is not empty, `FindMin`
returns with no error the value of the first cell `m` of the level 0 chain, which is
`head.next[0]`, and the key of `m` is the smallest key of the chain.
The key type is one on which the Go comparisons are those of a linear order (the integer
types and strings). -/
theorem C9_findMin_smallest (s : SkipList K V) (hr : Reachable s) (hne : chainOf s 0 ≠ []) :
    ∃ m, (chainOf s 0).head? = some m ∧ nextAt s.heap s.head 0 = .ok (some m) ∧
      FindMin s = .ok (some (valOf s.heap m)) ∧
      ∀ a ∈ chainOf s 0, keyOf s.heap m ≤ keyOf s.heap a := by
  obtain ⟨L, habs⟩ := reachable_abs hr
  rw [abs_chainOf_zero habs] at hne ⊢
  cases L with
  | nil => exact absurd rfl hne
  | cons m rest =>
    have hc := abs_chain0 habs
    simp only [Chain] at hc
    refine ⟨m, rfl, hc.1, by rw [findMin_spec habs]; rfl, fun a ha => ?_⟩
    rcases List.mem_cons.mp ha with h1 | h1
    · rw [h1]
    · exact le_of_lt ((List.pairwise_cons.mp habs.sorted).1 a h1)

/-- Witness of C9 on the sample list holding the keys 3 and 7. -/
theorem C9_findMin_smallest_witness :
    ∃ m, (chainOf sampleTwo 0).head? = some m ∧
      nextAt sampleTwo.heap sampleTwo.head 0 = .ok (some m) ∧
      FindMin sampleTwo = .ok (some (valOf sampleTwo.heap m)) ∧
      ∀ a ∈ chainOf sampleTwo 0, keyOf sampleTwo.heap m ≤ keyOf sampleTwo.heap a :=
  C9_findMin_smallest sampleTwo sampleTwo_reachable (by decide)

/-- C10, as amended to totally ordered keys (PopMax removes exactly the maximum): in every reachable list whose level 0 chain
is not empty, with last cell `m`, the key of `m` is the largest one, `PopMax` returns the
value of `m` with no error and applies one `AddInt32(-1)` to the length, so that
`Length()` drops by exactly 1 whenever the number of entries fits `int32`; afterwards, at
every level `0..maxLevel`, the chain runs from the head to `nil` and is the previous
chain of that level with `m` deleted, no cell on it has the key of `m`, no key or value of
any cell has changed, `Find` of the key of `m` returns `ErrNotFound` and `Find` of the key
of any other entry returns its value.
The key type is one on which the Go comparisons are those of a linear order (the integer
types and strings). -/
theorem C10_popMax_removes_max (s : SkipList K V) (hr : Reachable s)
    (hne : chainOf s 0 ≠ []) :
    ∃ m s', (chainOf s 0).getLast? = some m ∧
      (∀ a ∈ chainOf s 0, keyOf s.heap a ≤ keyOf s.heap m) ∧
      PopMax s = .ok (some (valOf s.heap m), s') ∧
      Length s' = addInt32 (Length s) (-1) ∧
      ((chainOf s 0).length < 2147483648 → Length s' = Length s - 1) ∧
      (∀ i, i ≤ s.level →
        Chain s'.heap i s'.head (chainOf s' i) none ∧
          chainOf s' i = (chainOf s i).filter (fun b => decide (b ≠ m)) ∧
          ∀ b ∈ chainOf s' i, keyOf s'.heap b ≠ keyOf s.heap m) ∧
      keyOf s'.heap = keyOf s.heap ∧ valOf s'.heap = valOf s.heap ∧
      Find s' (keyOf s.heap m) = .ok none ∧
      ∀ b ∈ chainOf s 0, b ≠ m → Find s' (keyOf s.heap b) = .ok (some (valOf s.heap b)) := by
  obtain ⟨L, habs⟩ := reachable_abs hr
  rw [abs_chainOf_zero habs] at hne ⊢
  rcases list_snoc_cases L with hL | ⟨L0, m, hL⟩
  · exact absurd hL hne
  · subst hL
    obtain ⟨s', h1, habs', hl, hlev, _, _, hsame⟩ := popMax_concat habs
    have hnd : (L0 ++ [m]).Nodup := sorted_nodup habs.sorted
    have hmL0 : m ∉ L0 := fun hm => (List.nodup_append.mp hnd).2.2 hm (by simp) 
    have hlt : ∀ a ∈ L0, keyOf s.heap a < keyOf s.heap m :=
      fun a ha => (List.pairwise_append.mp habs.sorted).2.2 a ha m (by simp)
    have hkeys : ∀ b ∈ L0, keyOf s'.heap b ≠ keyOf s.heap m := by
      intro b hb
      rw [hsame.key]
      exact ne_of_lt (hlt b hb)
    refine ⟨m, s', getLast_concat L0 m, ?_, h1, hl, ?_, ?_, hsame.key, hsame.val,
      find_of_absent habs' hkeys, ?_⟩
    · intro a ha
      rcases List.mem_append.mp ha with h2 | h2
      · exact le_of_lt (hlt a h2)
      · simp at h2
        rw [h2]
    · intro hsmall
      have h2 := abs_length_small habs hsmall
      have h3 := abs_length_small habs' (by
        simp only [List.length_append, List.length_singleton] at hsmall
        omega)
      show s'.length = s.length - 1
      rw [h2, h3]
      simp only [List.length_append, List.length_singleton]
      push_cast
      ring
    · intro i hi
      have hi' : i ≤ s'.level := by rw [hlev]; exact hi
      refine ⟨(abs_level_keys habs' hi' hkeys).1, ?_, (abs_level_keys habs' hi' hkeys).2⟩
      rw [abs_chainOf habs' hi', abs_chainOf habs hi, hsame.len, onLevel_filter,
        filter_ne_concat hmL0]
    · intro b hb hbm
      have hbL0 : b ∈ L0 := by
        rcases List.mem_append.mp hb with h2 | h2
        · exact h2
        · simp at h2
          exact absurd h2 hbm
      have := find_of_mem habs' hbL0 (congrFun hsame.key b)
      rw [this, hsame.val]

/-- Witness of C10 on the sample list holding the keys 3 and 7. -/
theorem C10_popMax_removes_max_witness :
    ∃ m s', (chainOf sampleTwo 0).getLast? = some m ∧
      (∀ a ∈ chainOf sampleTwo 0, keyOf sampleTwo.heap a ≤ keyOf sampleTwo.heap m) ∧
      PopMax sampleTwo = .ok (some (valOf sampleTwo.heap m), s') ∧
      Length s' = addInt32 (Length sampleTwo) (-1) ∧
      ((chainOf sampleTwo 0).length < 2147483648 → Length s' = Length sampleTwo - 1) ∧
      (∀ i, i ≤ sampleTwo.level →
        Chain s'.heap i s'.head (chainOf s' i) none ∧
          chainOf s' i = (chainOf sampleTwo i).filter (fun b => decide (b ≠ m)) ∧
          ∀ b ∈ chainOf s' i, keyOf s'.heap b ≠ keyOf sampleTwo.heap m) ∧
      keyOf s'.heap = keyOf sampleTwo.heap ∧ valOf s'.heap = valOf sampleTwo.heap ∧
      Find s' (keyOf sampleTwo.heap m) = .ok none ∧
      ∀ b ∈ chainOf sampleTwo 0, b ≠ m →
        Find s' (keyOf sampleTwo.heap b) = .ok (some (valOf sampleTwo.heap b)) :=
  C10_popMax_removes_max sampleTwo sampleTwo_reachable (by decide)

/-- C11, as amended to totally ordered keys (PopMin removes exactly the minimum): in every reachable list whose level 0 chain
is not empty, with first cell `m` (the smallest key), `PopMin` returns the value of `m`
with no error and applies one `AddInt32(-1)` to the length, so that `Length()` drops by
exactly 1 whenever the number of entries fits `int32`; afterwards `head.next[i]` is the
former `m.next[i]` at every level `i` of `m` (`i < len(m.next)`), `head.next[i]` is
untouched at the levels above, no link of any other cell and no key or value has
changed, the level 0 chain is the former one without `m`, and every other key is still
found with its value.
The key type is one on which the Go comparisons are those of a linear order (the integer
types and strings). -/
theorem C11_popMin_removes_min (s : SkipList K V) (hr : Reachable s)
    (hne : chainOf s 0 ≠ []) :
    ∃ m s', (chainOf s 0).head? = some m ∧
      (∀ a ∈ chainOf s 0, keyOf s.heap m ≤ keyOf s.heap a) ∧
      PopMin s = .ok (some (valOf s.heap m), s') ∧
      Length s' = addInt32 (Length s) (-1) ∧
      ((chainOf s 0).length < 2147483648 → Length s' = Length s - 1) ∧
      s'.head = s.head ∧ 1 ≤ lenOf s.heap m ∧ lenOf s.heap m ≤ s.level + 1 ∧
      (∀ i, i < lenOf s.heap m → nextAt s'.heap s.head i = nextAt s.heap m i) ∧
      (∀ i, lenOf s.heap m ≤ i → nextAt s'.heap s.head i = nextAt s.heap s.head i) ∧
      (∀ b i, b ≠ s.head → nextAt s'.heap b i = nextAt s.heap b i) ∧
      keyOf s'.heap = keyOf s.heap ∧ valOf s'.heap = valOf s.heap ∧
      chainOf s' 0 = (chainOf s 0).tail ∧
      Find s' (keyOf s.heap m) = .ok none ∧
      ∀ b ∈ chainOf s 0, b ≠ m → Find s' (keyOf s.heap b) = .ok (some (valOf s.heap b)) := by
  obtain ⟨L, habs⟩ := reachable_abs hr
  rw [abs_chainOf_zero habs] at hne ⊢
  cases L with
  | nil => exact absurd rfl hne
  | cons m rest =>
    obtain ⟨s', h1, habs', hl, _, hhead, _, hsame, hnx⟩ := popMin_cons habs
    have hgt : ∀ a ∈ rest, keyOf s.heap m < keyOf s.heap a :=
      (List.pairwise_cons.mp habs.sorted).1
    have hkeys : ∀ b ∈ rest, keyOf s'.heap b ≠ keyOf s.heap m := by
      intro b hb
      rw [hsame.key]
      exact ne_of_gt (hgt b hb)
    have hml := habs.lens m (by simp)
    refine ⟨m, s', rfl, ?_, h1, hl, ?_, hhead, hml.1, hml.2, ?_, ?_, ?_, hsame.key, hsame.val,
      abs_chainOf_zero habs', find_of_absent habs' hkeys, ?_⟩
    · intro a ha
      rcases List.mem_cons.mp ha with h2 | h2
      · rw [h2]
      · exact le_of_lt (hgt a h2)
    · intro hsmall
      have h2 := abs_length_small habs hsmall
      have h3 := abs_length_small habs' (by
        simp only [List.length_cons] at hsmall
        omega)
      show s'.length = s.length - 1
      rw [h2, h3]
      simp only [List.length_cons]
      push_cast
      ring
    · intro i hi
      rw [hnx]
      simp [hi]
    · intro i hi
      rw [hnx]
      have : ¬ i < lenOf s.heap m := by omega
      simp [this]
    · intro b i hb
      rw [hnx]
      simp [hb]
    · intro b hb hbm
      have hbr : b ∈ rest := by
        rcases List.mem_cons.mp hb with h2 | h2
        · exact absurd h2 hbm
        · exact h2
      have := find_of_mem habs' hbr (congrFun hsame.key b)
      rw [this, hsame.val]

/-- Witness of C11 on the sample list holding the keys 3 and 7. -/
theorem C11_popMin_removes_min_witness :
    ∃ m s', (chainOf sampleTwo 0).head? = some m ∧
      (∀ a ∈ chainOf sampleTwo 0, keyOf sampleTwo.heap m ≤ keyOf sampleTwo.heap a) ∧
      PopMin sampleTwo = .ok (some (valOf sampleTwo.heap m), s') ∧
      Length s' = addInt32 (Length sampleTwo) (-1) ∧
      ((chainOf sampleTwo 0).length < 2147483648 → Length s' = Length sampleTwo - 1) ∧
      s'.head = sampleTwo.head ∧ 1 ≤ lenOf sampleTwo.heap m ∧
      lenOf sampleTwo.heap m ≤ sampleTwo.level + 1 ∧
      (∀ i, i < lenOf sampleTwo.heap m →
        nextAt s'.heap sampleTwo.head i = nextAt sampleTwo.heap m i) ∧
      (∀ i, lenOf sampleTwo.heap m ≤ i →
        nextAt s'.heap sampleTwo.head i = nextAt sampleTwo.heap sampleTwo.head i) ∧
      (∀ b i, b ≠ sampleTwo.head → nextAt s'.heap b i = nextAt sampleTwo.heap b i) ∧
      keyOf s'.heap = keyOf sampleTwo.heap ∧ valOf s'.heap = valOf sampleTwo.heap ∧
      chainOf s' 0 = (chainOf sampleTwo 0).tail ∧
      Find s' (keyOf sampleTwo.heap m) = .ok none ∧
      ∀ b ∈ chainOf sampleTwo 0, b ≠ m →
        Find s' (keyOf sampleTwo.heap b) = .ok (some (valOf sampleTwo.heap b)) :=
  C11_popMin_removes_min sampleTwo sampleTwo_reachable (by decide)

theorem new_chain_empty (stepSize level : Int) :
    chainOf (NewSkipList stepSize level : SkipList K V) 0 = [] :=
  abs_chainOf_zero (new_abs stepSize level)

/-- C12, as amended to totally ordered keys (empty structure): a freshly created list has an empty level 0 chain whatever the
arguments of `NewSkipList` are, and in every reachable list whose level 0 chain is empty
(fresh, or emptied by removals) `Find(k)` and `Pop(k)` for every key `k`, `FindMin`,
`PopMin`, `FindMax` and `PopMax` all return `ErrNotFound` without fault; the removals
return the list unchanged, every level is empty and `Length()` is 0.
The key type is one on which the Go comparisons are those of a linear order (the integer
types and strings). -/
theorem C12_empty_not_found (s : SkipList K V) (hr : Reachable s) (he : chainOf s 0 = []) :
    (∀ stepSize level : Int, chainOf (NewSkipList stepSize level : SkipList K V) 0 = []) ∧
      (∀ k, Find s k = .ok none) ∧ (∀ k, Pop s k = .ok (none, s)) ∧
      FindMin s = .ok none ∧ PopMin s = .ok (none, s) ∧
      FindMax s = .ok none ∧ PopMax s = .ok (none, s) ∧
      Length s = 0 ∧ ∀ i, i ≤ s.level → chainOf s i = [] := by
  obtain ⟨L, habs⟩ := reachable_abs hr
  rw [abs_chainOf_zero habs] at he
  subst he
  refine ⟨new_chain_empty, fun k => find_of_absent habs (by simp),
    fun k => pop_miss habs k rfl, ?_, popMin_empty habs, findMax_nil habs, popMax_nil habs,
    ?_, fun i hi => ?_⟩
  · rw [findMin_spec habs]
    rfl
  · show s.length = 0
    rw [habs.len]
    rfl
  · rw [abs_chainOf habs hi]
    rfl

/-- Witness of C12 on the freshly created sample list. -/
theorem C12_empty_not_found_witness :
    (∀ stepSize level : Int, chainOf (NewSkipList stepSize level : SkipList Int String) 0 = []) ∧
      (∀ k, Find sampleEmpty k = .ok none) ∧ (∀ k, Pop sampleEmpty k = .ok (none, sampleEmpty)) ∧
      FindMin sampleEmpty = .ok none ∧ PopMin sampleEmpty = .ok (none, sampleEmpty) ∧
      FindMax sampleEmpty = .ok none ∧ PopMax sampleEmpty = .ok (none, sampleEmpty) ∧
      Length sampleEmpty = 0 ∧ ∀ i, i ≤ sampleEmpty.level → chainOf sampleEmpty i = [] :=
  C12_empty_not_found sampleEmpty (Reachable.new 4 3) rfl

/-- C13 (construction and silent coercion): for all integers `stepSize` and `level`,
`NewSkipList(stepSize, level)` has `StepSize()` equal to `stepSize` if it is at least 2
and to 4 otherwise, `Level()` equal to `level` if it lies in `0..64` and to 16 otherwise,
`Length()` equal to 0, and a head whose `next` has exactly `Level() + 1` entries, all of
them `nil`. -/
theorem C13_new_coerces (stepSize level : Int) :
    StepSize (NewSkipList stepSize level : SkipList K V) =
        (if 2 ≤ stepSize then stepSize else 4) ∧
      Level (NewSkipList stepSize level : SkipList K V) =
        (if 0 ≤ level ∧ level ≤ 64 then level else 16) ∧
      Length (NewSkipList stepSize level : SkipList K V) = 0 ∧
      (lenOf (NewSkipList stepSize level : SkipList K V).heap
          (NewSkipList stepSize level : SkipList K V).head : Int) =
        Level (NewSkipList stepSize level : SkipList K V) + 1 ∧
      ∀ i, i < lenOf (NewSkipList stepSize level : SkipList K V).heap
            (NewSkipList stepSize level : SkipList K V).head →
        nextAt (NewSkipList stepSize level : SkipList K V).heap
          (NewSkipList stepSize level : SkipList K V).head i = .ok none := by
  have habs := new_abs (K := K) (V := V) stepSize level
  refine ⟨?_, ?_, rfl, ?_, ?_⟩
  · simp only [StepSize, NewSkipList, DefaultSkipStepSize]
    split <;> split <;> omega
  · simp only [Level, NewSkipList, DefaultSkipLevel, MaxSkipLevel]
    split <;> split <;> omega
  · rw [habs.headLen]
    simp [Level]
  · intro i hi
    rw [habs.headLen] at hi
    have := habs.chains i (by omega)
    simpa [onLevel, Chain] using this

theorem onLevel_succ (len : Nat → Nat) (i : Nat) (L : List Nat) :
    onLevel len (i + 1) L = (onLevel len i L).filter (fun a => decide (i + 1 < len a)) := by
  unfold onLevel
  rw [List.filter_filter]
  apply List.filter_congr
  intro a _
  by_cases h : i + 1 < len a
  · have : i < len a := by omega
    simp [h, this]
  · simp [h]

/-- C16, as amended to totally ordered keys (sub-level monotonicity): in every reachable list and at every level `i` with
`0 < i <= maxLevel`, the level `i` links run from the head to `nil` through the level `i`
chain, the keys along it increase strictly, the chain is a subsequence of the level
`i - 1` chain (and so are its keys), and a cell is on the level `i` chain exactly when it
is on the level 0 chain and has a level `i` link, that is, height at least `i`.
The key type is one on which the Go comparisons are those of a linear order (the integer
types and strings). -/
theorem C16_sublevel_monotone (s : SkipList K V) (hr : Reachable s) (i : Nat) (h0 : 0 < i)
    (hi : i ≤ s.level) :
    Chain s.heap i s.head (chainOf s i) none ∧
      ((chainOf s i).map (keyOf s.heap)).Pairwise (fun x y => x < y) ∧
      List.Sublist (chainOf s i) (chainOf s (i - 1)) ∧
      List.Sublist ((chainOf s i).map (keyOf s.heap)) ((chainOf s (i - 1)).map (keyOf s.heap)) ∧
      (∀ a, a ∈ chainOf s i ↔ a ∈ chainOf s 0 ∧ i < lenOf s.heap a) ∧
      chainOf s i = (chainOf s 0).filter (fun a => decide (i < lenOf s.heap a)) := by
  obtain ⟨L, habs⟩ := reachable_abs hr
  obtain ⟨j, rfl⟩ : ∃ j, i = j + 1 := ⟨i - 1, by omega⟩
  have hsub : List.Sublist (onLevel (lenOf s.heap) (j + 1) L) (onLevel (lenOf s.heap) j L) := by
    rw [onLevel_succ]
    exact List.filter_sublist _
  rw [abs_chainOf habs hi, abs_chainOf_zero habs, Nat.add_sub_cancel,
    abs_chainOf habs (show j ≤ s.level by omega)]
  refine ⟨habs.chains _ hi, List.pairwise_map.mpr (sorted_onLevel _ _ habs.sorted), hsub,
    hsub.map _, fun a => mem_onLevel, rfl⟩

/-- Witness of C16: level 1 of the sample list holding the keys 3 and 7. -/
theorem C16_sublevel_monotone_witness :
    Chain sampleTwo.heap 1 sampleTwo.head (chainOf sampleTwo 1) none ∧
      ((chainOf sampleTwo 1).map (keyOf sampleTwo.heap)).Pairwise (fun x y => x < y) ∧
      List.Sublist (chainOf sampleTwo 1) (chainOf sampleTwo (1 - 1)) ∧
      List.Sublist ((chainOf sampleTwo 1).map (keyOf sampleTwo.heap))
        ((chainOf sampleTwo (1 - 1)).map (keyOf sampleTwo.heap)) ∧
      (∀ a, a ∈ chainOf sampleTwo 1 ↔ a ∈ chainOf sampleTwo 0 ∧ 1 < lenOf sampleTwo.heap a) ∧
      chainOf sampleTwo 1 =
        (chainOf sampleTwo 0).filter (fun a => decide (1 < lenOf sampleTwo.heap a)) :=
  C16_sublevel_monotone sampleTwo sampleTwo_reachable 1 (by decide) (by decide)

theorem randomLevelLoop_eq (level : Nat) (rnd : Nat → Int) :
    ∀ (fuel l m : Nat), l ≤ level → level - l ≤ fuel → level - l ≤ m →
      randomLevelLoop level rnd fuel l =
        l + min (level - l) (leadingZeros ((List.range' l m).map rnd))
  | 0, l, m, hl, hf, _ => by
    have : level - l = 0 := by omega
    simp [randomLevelLoop, this]
  | fuel + 1, l, m, hl, hf, hm => by
    unfold randomLevelLoop
    by_cases hc : l < level ∧ rnd l = 0
    · rw [if_pos hc]
      obtain ⟨m', rfl⟩ : ∃ m', m = m' + 1 := ⟨m - 1, by omega⟩
      rw [randomLevelLoop_eq level rnd fuel (l + 1) m' (by omega) (by omega) (by omega)]
      simp only [List.range'_succ, List.map_cons, leadingZeros, hc.2, if_true]
      omega
    · rw [if_neg hc]
      by_cases hlt : l < level
      · have hr : rnd l ≠ 0 := fun h => hc ⟨hlt, h⟩
        obtain ⟨m', rfl⟩ : ∃ m', m = m' + 1 := ⟨m - 1, by omega⟩
        simp [List.range'_succ, leadingZeros, hr]
      · have : level - l = 0 := by omega
        simp [this]

/-- C18 (level generator): for every list `s` and every sequence `rnd` of trial outcomes,
`randomLevel` returns the minimum of `maxLevel` and the number of leading zeros among the
first `n` trials, for every `n` that covers `maxLevel`; the result is at most `maxLevel`,
all trials before it came out 0 and, when it is below `maxLevel`, the next trial did not;
it is the same for any other list with the same `maxLevel`, whatever its cells and
length are. -/
theorem C18_randomLevel_leading_zeros (s : SkipList K V) (rnd : Nat → Int) (n : Nat)
    (hn : s.level ≤ n) :
    randomLevel s rnd = min s.level (leadingZeros ((List.range n).map rnd)) ∧
      randomLevel s rnd ≤ s.level ∧
      (∀ l, l < randomLevel s rnd → rnd l = 0) ∧
      (randomLevel s rnd < s.level → rnd (randomLevel s rnd) ≠ 0) ∧
      ∀ s' : SkipList K V, s'.level = s.level → randomLevel s' rnd = randomLevel s rnd := by
  have hmain : ∀ m, s.level ≤ m →
      randomLevel s rnd = min s.level (leadingZeros ((List.range m).map rnd)) := by
    intro m hm
    have := randomLevelLoop_eq s.level rnd s.level 0 m (Nat.zero_le _) (by omega) (by omega)
    rw [List.range_eq_range']
    simpa [randomLevel] using this
  have hzero : ∀ (t : List Int) (l : Nat), l < leadingZeros t → t[l]? = some 0 := by
    intro t
    induction t with
    | nil => intro l hl; simp [leadingZeros] at hl
    | cons x t ih =>
      intro l hl
      by_cases hx : x = 0
      · cases l with
        | zero => simp [hx]
        | succ l =>
          simp only [leadingZeros, hx, if_true] at hl
          simpa using ih l (by omega)
      · simp [leadingZeros, hx] at hl
  have hstop : ∀ (t : List Int), leadingZeros t < t.length → t[leadingZeros t]? ≠ some 0 := by
    intro t
    induction t with
    | nil => intro hl; simp at hl
    | cons x t ih =>
      intro hl
      by_cases hx : x = 0
      · simp only [leadingZeros, hx, if_true, List.length_cons] at hl ⊢
        simpa using ih (by omega)
      · simp [leadingZeros, hx]
  refine ⟨hmain n hn, randomLevel_le s rnd, ?_, ?_, ?_⟩
  · intro l hl
    have h1 := hmain s.level (le_refl _)
    have h2 := hzero ((List.range s.level).map rnd) l (by omega)
    have h3 : l < s.level := by
      have := randomLevel_le s rnd
      omega
    simpa [List.getElem?_range h3] using h2
  · intro hlt
    have h1 := hmain s.level (le_refl _)
    have h4 : leadingZeros ((List.range s.level).map rnd) = randomLevel s rnd := by omega
    have h2 := hstop ((List.range s.level).map rnd) (by rw [h4]; simpa using hlt)
    rw [h4] at h2
    simpa [List.getElem?_range hlt] using h2
  · intro s' hs'
    simp only [randomLevel, hs']

/-- Witness of C18: the sample trials on the empty sample list, with 5 trials shown. -/
theorem C18_randomLevel_leading_zeros_witness :
    randomLevel sampleEmpty sampleRnd =
        min sampleEmpty.level (leadingZeros ((List.range 5).map sampleRnd)) ∧
      randomLevel sampleEmpty sampleRnd ≤ sampleEmpty.level ∧
      (∀ l, l < randomLevel sampleEmpty sampleRnd → sampleRnd l = 0) ∧
      (randomLevel sampleEmpty sampleRnd < sampleEmpty.level →
        sampleRnd (randomLevel sampleEmpty sampleRnd) ≠ 0) ∧
      ∀ s' : SkipList Int String, s'.level = sampleEmpty.level →
        randomLevel s' sampleRnd = randomLevel sampleEmpty sampleRnd :=
  C18_randomLevel_leading_zeros sampleEmpty sampleRnd 5 (by decide)

theorem find_congr_mem {p q : Nat → Bool} : ∀ {l : List Nat}, (∀ x ∈ l, p x = q x) →
    l.find? p = l.find? q
  | [], _ => rfl
  | x :: l, h => by
    simp only [List.find?_cons, h x (by simp)]
    rw [find_congr_mem (fun y hy => h y (List.mem_cons_of_mem _ hy))]

theorem find_filter_imp {p q : Nat → Bool} (hpq : ∀ x, q x = true → p x = true) :
    ∀ (l : List Nat), (l.filter p).find? q = l.find? q
  | [] => rfl
  | x :: l => by
    cases hp : p x
    · have hq : q x = false := by
        cases hqx : q x
        · rfl
        · rw [hpq x hqx] at hp
          exact absurd hp (by simp)
      simp only [List.filter_cons, hp, List.find?_cons, hq]
      simpa using find_filter_imp hpq l
    · simp only [List.filter_cons, hp, if_true, List.find?_cons]
      rw [find_filter_imp hpq l]

theorem find_insert_skip {p : Nat → Bool} (l1 l2 : List Nat) {e : Nat} (he : p e = false) :
    (l1 ++ e :: l2).find? p = (l1 ++ l2).find? p := by
  rw [List.find?_append, List.find?_append, List.find?_cons, he]

theorem put_frame {s : SkipList K V} {L : List Nat} (habs : Abs s L) (k k' : K)
    (hk : k' ≠ k) (v : V) (rnd : Nat → Int) :
    ∃ s1, Put s k v rnd = .ok (none, s1) ∧ Find s1 k' = Find s k' := by
  cases ht : L.find? (fun b => decide (keyOf s.heap b = k)) with
  | none =>
    obtain ⟨s1, h1, habs1, _, _, _, _, hek, _, _, hold⟩ := put_miss habs k v rnd ht
    refine ⟨s1, h1, ?_⟩
    rw [find_spec habs1 k', find_spec habs k']
    have hLe : ∀ a ∈ L, a ≠ s.heap.length := fun a ha => by
      have := (abs_valid habs).2 a ha
      omega
    have hsplit := sorted_split k L habs.sorted
    have he : (fun b => decide (keyOf s1.heap b = k')) s.heap.length = false := by
      simp only [hek]
      exact decide_eq_false (Ne.symm hk)
    rw [find_insert_skip _ _ he, ← hsplit,
      find_congr_mem (q := fun b => decide (keyOf s.heap b = k'))
        (fun x hx => by simp only [(hold x (hLe x hx)).1])]
    cases hf : L.find? (fun b => decide (keyOf s.heap b = k')) with
    | none => rfl
    | some x =>
      have hx : x ∈ L := List.mem_of_find?_eq_some hf
      simp only [Option.map, (hold x (hLe x hx)).2.1]
  | some d =>
    obtain ⟨h1, habs1⟩ := put_hit habs k v rnd ht
    refine ⟨_, h1, ?_⟩
    have hdL : d ∈ L := List.mem_of_find?_eq_some ht
    have hdk : keyOf s.heap d = k := by simpa using List.find?_some ht
    have hdpos : 0 < lenOf s.heap d := lt_of_lt_of_le Nat.zero_lt_one (habs.lens d hdL).1
    obtain ⟨_, _, hkey, hval, _, _⟩ := writeVal_spec v hdpos
    rw [find_spec habs1 k', find_spec habs k']
    show Except.ok (Option.map (valOf (writeVal s.heap d v))
      (L.find? (fun b => decide (keyOf (writeVal s.heap d v) b = k')))) = _
    rw [hkey]
    cases hf : L.find? (fun b => decide (keyOf s.heap b = k')) with
    | none => rfl
    | some x =>
      have hxk : keyOf s.heap x = k' := by simpa using List.find?_some hf
      have hxd : x ≠ d := by
        rintro rfl
        exact hk (hxk.symm.trans hdk)
      simp only [Option.map, hval, hxd, if_false]

theorem pop_frame {s : SkipList K V} {L : List Nat} (habs : Abs s L) (k k' : K)
    (hk : k' ≠ k) :
    ∃ r s2, Pop s k = .ok (r, s2) ∧ Find s2 k' = Find s k' := by
  cases ht : L.find? (fun b => decide (keyOf s.heap b = k)) with
  | none => exact ⟨none, s, pop_miss habs k ht, rfl⟩
  | some d =>
    obtain ⟨s2, h1, habs2, _, _, _, _, _, hsame⟩ := pop_hit habs k ht
    refine ⟨_, s2, h1, ?_⟩
    rw [find_spec habs2 k', find_spec habs k', hsame.key, hsame.val]
    rw [find_filter_imp (p := fun b => decide (keyOf s.heap b ≠ k))
      (q := fun b => decide (keyOf s.heap b = k')) (fun x hx => by
        have hx' : keyOf s.heap x = k' := by simpa using hx
        have : keyOf s.heap x ≠ k := by rw [hx']; exact hk
        simpa using this)]

/-- C20, as amended to totally ordered keys (mutations by key are local to that key): in every reachable list, for all keys
`k` and `k'` with `k'` different from `k`, every value `v` and every trial outcomes, the
result of `Find(k')` is the same before and after `Put(k, v)`, and the same before and
after `Pop(k)`, whether `Pop` finds `k` or not.
The key type is one on which the Go comparisons are those of a linear order (the integer
types and strings). -/
theorem C20_mutation_local (s : SkipList K V) (hr : Reachable s) (k k' : K) (hk : k' ≠ k)
    (v : V) (rnd : Nat → Int) :
    (∃ s1, Put s k v rnd = .ok (none, s1) ∧ Find s1 k' = Find s k') ∧
      (∃ r s2, Pop s k = .ok (r, s2) ∧ Find s2 k' = Find s k') := by
  obtain ⟨L, habs⟩ := reachable_abs hr
  exact ⟨put_frame habs k k' hk v rnd, pop_frame habs k k' hk⟩

/-- Witness of C20: `Put(3, ..)` and `Pop(3)` seen from key 7 on the sample list holding
the keys 3 and 7. -/
theorem C20_mutation_local_witness :
    (∃ s1, Put sampleTwo 3 "x" sampleRnd = .ok (none, s1) ∧ Find s1 7 = Find sampleTwo 7) ∧
      (∃ r s2, Pop sampleTwo 3 = .ok (r, s2) ∧ Find s2 7 = Find sampleTwo 7) :=
  C20_mutation_local sampleTwo sampleTwo_reachable 3 7 (by decide) "x" sampleRnd

theorem reachable_config {s : SkipList K V} (hr : Reachable s) :
    2 ≤ s.stepSize ∧ s.level ≤ 64 := by
  induction hr with
  | new stepSize level =>
    constructor
    · simp only [NewSkipList, DefaultSkipStepSize]
      split <;> omega
    · simp only [NewSkipList, DefaultSkipLevel, MaxSkipLevel]
      split <;> omega
  | put k v rnd hs hput ih =>
    obtain ⟨L, habs⟩ := reachable_abs hs
    cases ht : L.find? (fun b => decide (keyOf _ b = k)) with
    | none =>
      obtain ⟨s1, h1, _, _, h2, _, h3, _⟩ := put_miss habs k v rnd ht
      rw [h1] at hput
      injection hput with hput
      injection hput with _ hs'
      subst hs'
      rw [h2, h3]
      exact ih
    | some d =>
      obtain ⟨h1, _⟩ := put_hit habs k v rnd ht
      rw [h1] at hput
      injection hput with hput
      injection hput with _ hs'
      subst hs'
      exact ih
  | pop k hs hpop ih =>
    obtain ⟨L, habs⟩ := reachable_abs hs
    cases ht : L.find? (fun b => decide (keyOf _ b = k)) with
    | none =>
      rw [pop_miss habs k ht] at hpop
      injection hpop with hpop
      injection hpop with _ hs'
      subst hs'
      exact ih
    | some d =>
      obtain ⟨s1, h1, _, _, _, h2, _, h3, _⟩ := pop_hit habs k ht
      rw [h1] at hpop
      injection hpop with hpop
      injection hpop with _ hs'
      subst hs'
      rw [h2, h3]
      exact ih
  | popMin hs hpop ih =>
    obtain ⟨L, habs⟩ := reachable_abs hs
    cases L with
    | nil =>
      rw [popMin_empty habs] at hpop
      injection hpop with hpop
      injection hpop with _ hs'
      subst hs'
      exact ih
    | cons m rest =>
      obtain ⟨s1, h1, _, _, h2, _, h3, _⟩ := popMin_cons habs
      rw [h1] at hpop
      injection hpop with hpop
      injection hpop with _ hs'
      subst hs'
      rw [h2, h3]
      exact ih
  | popMax hs hpop ih =>
    obtain ⟨L, habs⟩ := reachable_abs hs
    rcases list_snoc_cases L with hL | ⟨L0, m, hL⟩
    · subst hL
      rw [popMax_nil habs] at hpop
      injection hpop with hpop
      injection hpop with _ hs'
      subst hs'
      exact ih
    · subst hL
      obtain ⟨s1, h1, _, _, h2, _, h3, _⟩ := popMax_concat habs
      rw [h1] at hpop
      injection hpop with hpop
      injection hpop with _ hs'
      subst hs'
      rw [h2, h3]
      exact ih

theorem onLevel_concat_of_lt {len : Nat → Nat} {j m : Nat} (L0 : List Nat) (hj : j < len m) :
    onLevel len j (L0 ++ [m]) = onLevel len j L0 ++ [m] := by
  simp [onLevel, List.filter_cons, hj]

theorem onLevel_concat_of_not_lt {len : Nat → Nat} {j m : Nat} (L0 : List Nat)
    (hj : ¬ j < len m) : onLevel len j (L0 ++ [m]) = onLevel len j L0 := by
  simp [onLevel, List.filter_cons, hj]

theorem abs_before_max {s : SkipList K V} {L0 : List Nat} {m : Nat}
    (habs : Abs s (L0 ++ [m])) {j : Nat} (hj : j < lenOf s.heap m) :
    j < lenOf s.heap (lastOr s.head (onLevel (lenOf s.heap) j L0)) ∧
      nextAt s.heap (lastOr s.head (onLevel (lenOf s.heap) j L0)) j = .ok (some m) ∧
      nextAt s.heap m j = .ok none := by
  have hml := habs.lens m (by simp)
  have hc := habs.chains j (by omega)
  rw [onLevel_concat_of_lt L0 hj] at hc
  have h1 := chain_lastOr hc
  simp only [Chain] at h1
  exact ⟨nextAt_lt h1.1, h1.1, h1.2⟩

theorem popMax_pres {s : SkipList K V} {L0 : List Nat} {m : Nat}
    (habs : Abs s (L0 ++ [m])) :
    ∃ pres, popMaxLevels s.heap s.heap.length (s.level + 1) s.head none
        (List.replicate (s.level + 1) none) = .ok (m, pres) ∧
      ∀ j, j < lenOf s.heap m →
        pres[j]? = some (some (lastOr s.head (onLevel (lenOf s.heap) j L0))) := by
  obtain ⟨pres', h1, h2, _⟩ := popMaxLevels_spec habs (s.level + 1)
    (List.replicate (s.level + 1) none) (le_refl _) (by simp)
  have htop : onLevel (lenOf s.heap) (s.level + 1) (L0 ++ [m]) = [] := by
    unfold onLevel
    rw [List.filter_eq_nil_iff]
    intro a ha
    have := (habs.lens a ha).2
    simp
    omega
  rw [maxAt_top habs, maxAt_zero habs, htop, lastOr_concat] at h1
  simp only [beforeLast] at h1
  refine ⟨pres', h1, fun j hj => ?_⟩
  have hml := habs.lens m (by simp)
  rw [h2 j (by omega), onLevel_concat_of_lt L0 hj, beforeLast_concat]

theorem put_pres {s : SkipList K V} {L : List Nat} (habs : Abs s L) (k : K) (v : V)
    (rnd : Nat → Int) :
    (∃ h', putLevels s.heap k v (randomLevel s rnd) s.heap.length (s.level + 1) s.head
        (List.replicate (randomLevel s rnd + 1) none) = .ok (.replaced h')) ∨
      ∃ pres, putLevels s.heap k v (randomLevel s rnd) s.heap.length (s.level + 1) s.head
          (List.replicate (randomLevel s rnd + 1) none) = .ok (.pres pres) ∧
        ∀ i, i ≤ randomLevel s rnd → ∃ p, pres[i]? = some (some p) ∧ i < lenOf s.heap p := by
  have hlv := randomLevel_le s rnd
  cases ht : L.find? (fun b => decide (keyOf s.heap b = k)) with
  | some d =>
    left
    have := putLevels_hit habs k v (randomLevel s rnd) ht (s.level + 1)
      (List.replicate (randomLevel s rnd + 1) none) (by omega) (le_refl _) (by simp)
    rw [abs_predAt_top habs k] at this
    exact ⟨_, this⟩
  | none =>
    right
    obtain ⟨pres', hpl, _, hpres, _⟩ := putLevels_miss habs k v (randomLevel s rnd) ht
      (s.level + 1) (List.replicate (randomLevel s rnd + 1) none) (le_refl _) (by simp)
    rw [abs_predAt_top habs k] at hpl
    refine ⟨pres', hpl, fun i hi => ⟨_, hpres i (by omega) hi, ?_⟩⟩
    rcases predAt_cases (keyOf s.heap) (lenOf s.heap) s.head k i L with h1 | ⟨_, h2, _⟩
    · rw [h1, habs.headLen]
      omega
    · exact h2

/-- C19, as amended to totally ordered keys (no panic on a reachable state): in every reachable list the configuration is
valid (`stepSize >= 2`, `level <= 64`) and `Find`, `FindMin`, `FindMax`, `Put`, `Pop`,
`PopMin` and `PopMax` all return a result: no slice index is out of range, no `nil`
reference is dereferenced (in particular `pre.next[i].k` in `PopMax` is never evaluated
with `pre.next[i]` empty) and every loop ends. Moreover the search of `PopMax` ends on a
cell `el` and a slice `pres` such that, when `el` is not the head, `pres[i]` is a non-nil
cell with a level `i` link for every level `i` of `el`; and the search of `Put` either
replaces the value or ends with a slice `pres` such that `pres[i]` is a non-nil cell with
a level `i` link (height at least `i`) for every `i` in `0..lv`.
The key type is one on which the Go comparisons are those of a linear order (the integer
types and strings). -/
theorem C19_no_panic (s : SkipList K V) (hr : Reachable s) :
    2 ≤ s.stepSize ∧ s.level ≤ 64 ∧
      (∀ k, ∃ r, Find s k = .ok r) ∧ (∃ r, FindMin s = .ok r) ∧ (∃ r, FindMax s = .ok r) ∧
      (∀ k v rnd, ∃ r, Put s k v rnd = .ok r) ∧ (∀ k, ∃ r, Pop s k = .ok r) ∧
      (∃ r, PopMin s = .ok r) ∧ (∃ r, PopMax s = .ok r) ∧
      (∃ el pres, popMaxLevels s.heap s.heap.length (s.level + 1) s.head none
          (List.replicate (s.level + 1) none) = .ok (el, pres) ∧
        (el ≠ s.head → ∀ i, i < lenOf s.heap el →
          ∃ p, pres[i]? = some (some p) ∧ i < lenOf s.heap p)) ∧
      ∀ k v rnd,
        (∃ h', putLevels s.heap k v (randomLevel s rnd) s.heap.length (s.level + 1) s.head
          (List.replicate (randomLevel s rnd + 1) none) = .ok (.replaced h')) ∨
        ∃ pres, putLevels s.heap k v (randomLevel s rnd) s.heap.length (s.level + 1) s.head
            (List.replicate (randomLevel s rnd + 1) none) = .ok (.pres pres) ∧
          ∀ i, i ≤ randomLevel s rnd → ∃ p, pres[i]? = some (some p) ∧ i < lenOf s.heap p := by
  obtain ⟨L, habs⟩ := reachable_abs hr
  obtain ⟨hstep, hlev⟩ := reachable_config hr
  refine ⟨hstep, hlev, fun k => ⟨_, find_spec habs k⟩, ⟨_, findMin_spec habs⟩, ?_, ?_, ?_, ?_,
    ?_, ?_, fun k v rnd => put_pres habs k v rnd⟩
  · rcases list_snoc_cases L with hL | ⟨L0, m, hL⟩
    · subst hL
      exact ⟨_, findMax_nil habs⟩
    · subst hL
      exact ⟨_, findMax_concat habs⟩
  · intro k v rnd
    obtain ⟨s', _, _, h1, _⟩ := put_total habs k v rnd
    exact ⟨_, h1⟩
  · intro k
    cases ht : L.find? (fun b => decide (keyOf s.heap b = k)) with
    | none => exact ⟨_, pop_miss habs k ht⟩
    | some d =>
      obtain ⟨s', h1, _⟩ := pop_hit habs k ht
      exact ⟨_, h1⟩
  · cases L with
    | nil => exact ⟨_, popMin_empty habs⟩
    | cons m rest =>
      obtain ⟨s', h1, _⟩ := popMin_cons habs
      exact ⟨_, h1⟩
  · rcases list_snoc_cases L with hL | ⟨L0, m, hL⟩
    · subst hL
      exact ⟨_, popMax_nil habs⟩
    · subst hL
      obtain ⟨s', h1, _⟩ := popMax_concat habs
      exact ⟨_, h1⟩
  · rcases list_snoc_cases L with hL | ⟨L0, m, hL⟩
    · subst hL
      obtain ⟨pres', h1, _, _⟩ := popMaxLevels_spec habs (s.level + 1)
        (List.replicate (s.level + 1) none) (le_refl _) (by simp)
      have htop : onLevel (lenOf s.heap) (s.level + 1) ([] : List Nat) = [] := rfl
      rw [maxAt_top habs, maxAt_zero habs, htop] at h1
      simp only [beforeLast, lastOr] at h1
      exact ⟨s.head, pres', h1, fun hne => absurd rfl hne⟩
    · subst hL
      obtain ⟨pres, h1, h2⟩ := popMax_pres habs
      exact ⟨m, pres, h1, fun _ i hi => ⟨_, h2 i hi, (abs_before_max habs hi).1⟩⟩

/-- Witness of C19 on the sample list holding the keys 3 and 7. -/
theorem C19_no_panic_witness :
    2 ≤ sampleTwo.stepSize ∧ sampleTwo.level ≤ 64 ∧
      (∀ k, ∃ r, Find sampleTwo k = .ok r) ∧ (∃ r, FindMin sampleTwo = .ok r) ∧
      (∃ r, FindMax sampleTwo = .ok r) ∧
      (∀ k v rnd, ∃ r, Put sampleTwo k v rnd = .ok r) ∧ (∀ k, ∃ r, Pop sampleTwo k = .ok r) ∧
      (∃ r, PopMin sampleTwo = .ok r) ∧ (∃ r, PopMax sampleTwo = .ok r) ∧
      (∃ el pres, popMaxLevels sampleTwo.heap sampleTwo.heap.length (sampleTwo.level + 1)
          sampleTwo.head none (List.replicate (sampleTwo.level + 1) none) = .ok (el, pres) ∧
        (el ≠ sampleTwo.head → ∀ i, i < lenOf sampleTwo.heap el →
          ∃ p, pres[i]? = some (some p) ∧ i < lenOf sampleTwo.heap p)) ∧
      ∀ k v rnd,
        (∃ h', putLevels sampleTwo.heap k v (randomLevel sampleTwo rnd) sampleTwo.heap.length
          (sampleTwo.level + 1) sampleTwo.head
          (List.replicate (randomLevel sampleTwo rnd + 1) none) = .ok (.replaced h')) ∨
        ∃ pres, putLevels sampleTwo.heap k v (randomLevel sampleTwo rnd)
            sampleTwo.heap.length (sampleTwo.level + 1) sampleTwo.head
            (List.replicate (randomLevel sampleTwo rnd + 1) none) = .ok (.pres pres) ∧
          ∀ i, i ≤ randomLevel sampleTwo rnd →
            ∃ p, pres[i]? = some (some p) ∧ i < lenOf sampleTwo.heap p :=
  C19_no_panic sampleTwo sampleTwo_reachable

/-! ## Length along a sequence of calls -/

theorem specPred_spec {h : Heap K V} {kmax : K} {i : Nat} :
    ∀ (R : List Nat) (el fuel : Nat), Chain h i el R none → R.length < fuel →
      specPred h i kmax fuel el = .ok (scanPos (keyOf h) kmax el R)
  | [], el, fuel, hc, hf => by
    obtain ⟨f, rfl⟩ : ∃ f, fuel = f + 1 := ⟨fuel - 1, by omega⟩
    simp only [Chain] at hc
    simp [specPred, hc, scanPos]
  | b :: R, el, fuel, hc, hf => by
    obtain ⟨f, rfl⟩ : ∃ f, fuel = f + 1 := ⟨fuel - 1, by omega⟩
    have hf' : R.length < f := by simpa using hf
    simp only [Chain] at hc
    have hb : 0 < lenOf h b := lt_of_le_of_lt (Nat.zero_le _) (chain_lt hc.2 b (by simp))
    by_cases hlt : keyOf h b < kmax
    · simp only [specPred, key_ge_eq, key_eq_eq, key_lt_eq, decide_eq_true_eq, hc.1, keyAt_of_pos hb, hlt, if_true, scanPos]
      exact specPred_spec R b f hc.2 hf'
    · simp [specPred, key_ge_eq, key_eq_eq, key_lt_eq, hc.1, keyAt_of_pos hb, hlt, scanPos]

theorem filter_lt_self {key : Nat → K} {k : K} {l : List Nat} (hl : ∀ x ∈ l, key x < k) :
    l.filter (fun b => decide (key b < k)) = l := by
  rw [List.filter_eq_self]
  intro b hb
  simpa using hl b hb

theorem abs_max_keys {s : SkipList K V} {L0 : List Nat} {m : Nat}
    (habs : Abs s (L0 ++ [m])) (j : Nat) :
    ∀ x ∈ onLevel (lenOf s.heap) j L0, keyOf s.heap x < keyOf s.heap m :=
  fun x hx => (List.pairwise_append.mp habs.sorted).2.2 x (onLevel_sub _ _ _ x hx) m (by simp)

theorem spec_pred_low {s : SkipList K V} {L0 : List Nat} {m : Nat}
    (habs : Abs s (L0 ++ [m])) {h : Heap K V} (hsame : SameCells s.heap h) {j : Nat}
    (hj : j < lenOf s.heap m) (hnx : ∀ b, nextAt h b j = nextAt s.heap b j) :
    specPred h j (keyOf s.heap m) s.heap.length s.head =
      .ok (lastOr s.head (onLevel (lenOf s.heap) j L0)) := by
  have hml := habs.lens m (by simp)
  have hc : Chain h j s.head (onLevel (lenOf s.heap) j (L0 ++ [m])) none :=
    chain_frame (fun x _ => hnx x) (habs.chains j (by omega))
  rw [specPred_spec _ _ _ hc (abs_level_len habs j), hsame.key,
    scanPos_eq _ _ (sorted_onLevel _ _ habs.sorted), onLevel_concat_of_lt L0 hj,
    List.filter_append, filter_lt_self (abs_max_keys habs j)]
  simp

theorem spec_pred_high {s : SkipList K V} {L0 : List Nat} {m : Nat}
    (habs : Abs s (L0 ++ [m])) {j : Nat} (hj : ¬ j < lenOf s.heap m) (hjl : j ≤ s.level) :
    specPred s.heap j (keyOf s.heap m) s.heap.length s.head =
        .ok (lastOr s.head (onLevel (lenOf s.heap) j L0)) ∧
      nextAt s.heap (lastOr s.head (onLevel (lenOf s.heap) j L0)) j = .ok none := by
  have hc := habs.chains j hjl
  have hlen := abs_level_len habs j
  constructor
  · rw [specPred_spec _ _ _ hc hlen, scanPos_eq _ _ (sorted_onLevel _ _ habs.sorted),
      onLevel_concat_of_not_lt L0 hj, filter_lt_self (abs_max_keys habs j)]
  · rw [onLevel_concat_of_not_lt L0 hj] at hc
    have h1 : Chain s.heap j (lastOr s.head (onLevel (lenOf s.heap) j L0)) [] none :=
      chain_lastOr (by simpa using hc)
    simpa [Chain] using h1

theorem specUnlink_high {s : SkipList K V} {L0 : List Nat} {m : Nat}
    (habs : Abs s (L0 ++ [m])) :
    ∀ n, lenOf s.heap m ≤ n → n ≤ s.level + 1 →
      specUnlink s.head m (keyOf s.heap m) s.heap.length n s.heap =
        specUnlink s.head m (keyOf s.heap m) s.heap.length (lenOf s.heap m) s.heap
  | 0, h1, _ => by
    have : lenOf s.heap m = 0 := by omega
    rw [this]
  | n + 1, h1, h2 => by
    by_cases he : lenOf s.heap m = n + 1
    · rw [he]
    · obtain ⟨hp, hq⟩ := spec_pred_high habs (show ¬ n < lenOf s.heap m by omega)
        (show n ≤ s.level by omega)
      simp only [specUnlink, hp, hq]
      have : ¬ ((none : Option Nat) = some m) := by simp
      rw [if_neg this]
      exact specUnlink_high habs n (by omega) (by omega)

theorem specUnlink_low {s : SkipList K V} {L0 : List Nat} {m : Nat}
    (habs : Abs s (L0 ++ [m])) {pres : List (Option Nat)}
    (hpres : ∀ j, j < lenOf s.heap m →
      pres[j]? = some (some (lastOr s.head (onLevel (lenOf s.heap) j L0)))) :
    ∀ (n : Nat) (h : Heap K V), n ≤ lenOf s.heap m → SameCells s.heap h →
      (∀ j, j < n → ∀ b, nextAt h b j = nextAt s.heap b j) →
      specUnlink s.head m (keyOf s.heap m) s.heap.length n h = popMaxUnlink pres n h
  | 0, h, _, _, _ => rfl
  | n + 1, h, hn, hsame, hlow => by
    have hj : n < lenOf s.heap m := by omega
    obtain ⟨hpl, hpm, _⟩ := abs_before_max habs hj
    have hpl' : n < lenOf h (lastOr s.head (onLevel (lenOf s.heap) n L0)) := by
      rw [hsame.len]; exact hpl
    simp only [specUnlink, popMaxUnlink, spec_pred_low habs hsame hj (hlow n (by omega)),
      hlow n (by omega), hpm, if_true, hpres n hj, setNext_eq_write _ hpl']
    refine specUnlink_low habs hpres n _ (by omega)
      (SameCells.trans hsame (writeNext_same _ hpl')) (fun j hjn b => ?_)
    rw [writeNext_nextAt _ hpl']
    have : j ≠ n := by omega
    simp only [this, and_false, if_false]
    exact hlow j (by omega) b

theorem specPopMax_eq {s : SkipList K V} {L0 : List Nat} {m : Nat}
    (habs : Abs s (L0 ++ [m])) : specPopMax s = PopMax s := by
  obtain ⟨pres, h1, h2⟩ := popMax_pres habs
  have hml := habs.lens m (by simp)
  have hm : 0 < lenOf s.heap m := lt_of_lt_of_le Nat.zero_lt_one hml.1
  have hmh : m ≠ s.head := fun he => habs.headNot (by rw [← he]; simp)
  have hmax := maxLevels_spec habs (s.level + 1) (le_refl _)
  rw [maxAt_top habs, maxAt_zero habs, lastOr_concat] at hmax
  have hu := specUnlink_high habs (s.level + 1) hml.2 (le_refl _)
  rw [specUnlink_low habs h2 (lenOf s.heap m) s.heap (le_refl _) (SameCells.refl _)
    (fun _ _ _ => rfl)] at hu
  simp only [specPopMax, PopMax, hmax, h1, hmh, if_false, keyAt_of_pos hm, lenAt_of_pos hm, hu]

/-- C17, as amended to totally ordered keys (the shared cursor of PopMax agrees with the per-level search): in every reachable
list whose level 0 chain is not empty, with last cell `m` (the maximum), the search of
`PopMax` ends on `m` with a slice `pres` such that, at every level `i` of `m`, `pres[i]`
is the cell `p` reached from the head by advancing on level `i` while the key of the next
cell is below the key of `m`, and the level `i` link of `p` is `m`; and the removal of
the maximum as the specification describes it (per-level independent searches) returns
the same value and the same list as `PopMax`, which succeeds.
The key type is one on which the Go comparisons are those of a linear order (the integer
types and strings). -/
theorem C17_popMax_shared_cursor (s : SkipList K V) (hr : Reachable s)
    (hne : chainOf s 0 ≠ []) :
    ∃ m pres, (chainOf s 0).getLast? = some m ∧
      popMaxLevels s.heap s.heap.length (s.level + 1) s.head none
        (List.replicate (s.level + 1) none) = .ok (m, pres) ∧
      (∀ i, i < lenOf s.heap m →
        ∃ p, pres[i]? = some (some p) ∧
          specPred s.heap i (keyOf s.heap m) s.heap.length s.head = .ok p ∧
          nextAt s.heap p i = .ok (some m)) ∧
      specPopMax s = PopMax s ∧
      ∃ s', PopMax s = .ok (some (valOf s.heap m), s') := by
  obtain ⟨L, habs⟩ := reachable_abs hr
  rw [abs_chainOf_zero habs] at hne ⊢
  rcases list_snoc_cases L with hL | ⟨L0, m, hL⟩
  · exact absurd hL hne
  · subst hL
    obtain ⟨pres, h1, h2⟩ := popMax_pres habs
    obtain ⟨s', h3, _⟩ := popMax_concat habs
    refine ⟨m, pres, getLast_concat L0 m, h1, fun i hi => ?_, specPopMax_eq habs, s', h3⟩
    exact ⟨_, h2 i hi, spec_pred_low habs (SameCells.refl _) hi (fun _ => rfl),
      (abs_before_max habs hi).2.1⟩

/-- Witness of C17 on the sample list holding the keys 3 and 7. -/
theorem C17_popMax_shared_cursor_witness :
    ∃ m pres, (chainOf sampleTwo 0).getLast? = some m ∧
      popMaxLevels sampleTwo.heap sampleTwo.heap.length (sampleTwo.level + 1) sampleTwo.head
        none (List.replicate (sampleTwo.level + 1) none) = .ok (m, pres) ∧
      (∀ i, i < lenOf sampleTwo.heap m →
        ∃ p, pres[i]? = some (some p) ∧
          specPred sampleTwo.heap i (keyOf sampleTwo.heap m) sampleTwo.heap.length
            sampleTwo.head = .ok p ∧
          nextAt sampleTwo.heap p i = .ok (some m)) ∧
      specPopMax sampleTwo = PopMax sampleTwo ∧
      ∃ s', PopMax sampleTwo = .ok (some (valOf sampleTwo.heap m), s') :=
  C17_popMax_shared_cursor sampleTwo sampleTwo_reachable (by decide)

/-! ## Keys that are not totally ordered: `float64` with `NaN` -/

theorem stepOp_reachable {F W : Type} [Key F] [DecidableEq F] [Inhabited F] [Inhabited W]
    {s s' : SkipList F W} {t t' : Tally F} (hr : Reachable s) (op : Op F W)
    (h : stepOp (s, t) op = .ok (s', t')) : Reachable s' := by
  cases op with
  | put k v rnd =>
    simp only [stepOp] at h
    cases hf : Find s k with
    | error f => simp [hf] at h
    | ok present =>
      cases hp : Put s k v rnd with
      | error f => simp [hf, hp] at h
      | ok r =>
        obtain ⟨e, s1⟩ := r
        simp only [hf, hp, Except.ok.injEq, Prod.mk.injEq] at h
        rw [← h.1]
        exact Reachable.put k v rnd hr hp
  | find k =>
    simp only [stepOp] at h
    cases hf : Find s k with
    | error f => simp [hf] at h
    | ok r =>
      simp only [hf, Except.ok.injEq, Prod.mk.injEq] at h
      rw [← h.1]
      exact hr
  | findMin =>
    simp only [stepOp] at h
    cases hf : FindMin s with
    | error f => simp [hf] at h
    | ok r =>
      simp only [hf, Except.ok.injEq, Prod.mk.injEq] at h
      rw [← h.1]
      exact hr
  | findMax =>
    simp only [stepOp] at h
    cases hf : FindMax s with
    | error f => simp [hf] at h
    | ok r =>
      simp only [hf, Except.ok.injEq, Prod.mk.injEq] at h
      rw [← h.1]
      exact hr
  | pop k =>
    simp only [stepOp] at h
    cases hp : Pop s k with
    | error f => simp [hp] at h
    | ok r =>
      obtain ⟨e, s1⟩ := r
      simp only [hp, Except.ok.injEq, Prod.mk.injEq] at h
      rw [← h.1]
      exact Reachable.pop k hr hp
  | popMin =>
    simp only [stepOp] at h
    cases hp : PopMin s with
    | error f => simp [hp] at h
    | ok r =>
      obtain ⟨e, s1⟩ := r
      simp only [hp, Except.ok.injEq, Prod.mk.injEq] at h
      rw [← h.1]
      exact Reachable.popMin hr hp
  | popMax =>
    simp only [stepOp] at h
    cases hp : PopMax s with
    | error f => simp [hp] at h
    | ok r =>
      obtain ⟨e, s1⟩ := r
      simp only [hp, Except.ok.injEq, Prod.mk.injEq] at h
      rw [← h.1]
      exact Reachable.popMax hr hp

theorem runOps_reachable {F W : Type} [Key F] [DecidableEq F] [Inhabited F] [Inhabited W] :
    ∀ (ops : List (Op F W)) {s s' : SkipList F W} {t t' : Tally F}, Reachable s →
      runOps ops (s, t) = .ok (s', t') → Reachable s'
  | [], s, s', t, t', hr, h => by
    simp only [runOps, Except.ok.injEq, Prod.mk.injEq] at h
    rw [← h.1]
    exact hr
  | op :: ops, s, s', t, t', hr, h => by
    simp only [runOps] at h
    cases hs : stepOp (s, t) op with
    | error f => simp [hs] at h
    | ok st =>
      obtain ⟨s1, t1⟩ := st
      simp only [hs] at h
      exact runOps_reachable ops (stepOp_reachable hr op hs) h

theorem floatFresh_reachable : Reachable floatFresh.1 := Reachable.new 4 3

/-- C2 as stated for every key fails on `float64` keys: after `Put(1.0)`, `Put(NaN)` the
level 0 chain is `[NaN, 1.0]`, the cell at address 1 has key `1.0` and the linear lookup
finds its value, but `Find(1.0)` returns `ErrNotFound` because `1.0 >= NaN` is false. -/
theorem C2_float_nan_counterexample :
    ∃ s t, runOps floatOneNan floatFresh = .ok (s, t) ∧ Reachable s ∧
      (chainOf s 0).map (keyOf s.heap) = [.nan, .num 1] ∧
      (1 ∈ chainOf s 0 ∧ keyOf s.heap 1 = .num 1) ∧
      lookup0 s (.num 1) = some "one" ∧ Find s (.num 1) = .ok none :=
  ⟨_, _, rfl, runOps_reachable floatOneNan floatFresh_reachable rfl, rfl, ⟨by decide, rfl⟩,
    rfl, rfl⟩

/-- C3 as stated for every key fails on `float64` keys: `Put(NaN, a)` followed by
`Put(NaN, b)` on a fresh list inserts twice, because `NaN == NaN` is false: `Length()`
goes from 1 to 2 and `Find(NaN)` returns `ErrNotFound` instead of `b`. -/
theorem C3_float_nan_counterexample :
    ∃ s1 s2, Put floatFresh.1 .nan "a" heightZero = .ok (none, s1) ∧
      Put s1 .nan "b" heightZero = .ok (none, s2) ∧
      Length s1 = 1 ∧ Length s2 = 2 ∧ Length s2 ≠ Length s1 ∧ Find s2 .nan = .ok none ∧
      (chainOf s2 0).length = 2 :=
  ⟨_, _, rfl, rfl, rfl, rfl, by decide, rfl, rfl⟩

/-- C4 as stated for every key fails on `float64` keys: after `Put(1.0)` of height 1 and
`Put(NaN)` of height 0, the key `1.0` is on level 0 with value `one`; `Pop(1.0)` returns
that value, but unlinks the cell on level 1 only, because `1.0 >= NaN` is false on level
0: the cell with key `1.0` is still on the level 0 chain afterwards. -/
theorem C4_float_nan_counterexample :
    ∃ s t s', runOps floatTallNan floatFresh = .ok (s, t) ∧ Reachable s ∧
      (1 ∈ chainOf s 0 ∧ keyOf s.heap 1 = .num 1 ∧ valOf s.heap 1 = "one") ∧
      Pop s (.num 1) = .ok (some "one", s') ∧
      (1 ∈ chainOf s' 0 ∧ keyOf s'.heap 1 = .num 1) ∧
      (chainOf s' 0).length = (chainOf s 0).length :=
  ⟨_, _, _, rfl, runOps_reachable floatTallNan floatFresh_reachable rfl,
    ⟨by decide, rfl, rfl⟩, rfl, ⟨by decide, rfl⟩, rfl⟩

/-- C5 as stated for every key fails on `float64` keys: after `Put(1.0)`, `Put(NaN)` the
key `1.0` is on the level 0 chain, yet `Pop(1.0)` returns `ErrNotFound`. -/
theorem C5_float_nan_counterexample :
    ∃ s t s', runOps floatOneNan floatFresh = .ok (s, t) ∧ Reachable s ∧
      (1 ∈ chainOf s 0 ∧ keyOf s.heap 1 = .num 1) ∧
      Pop s (.num 1) = .ok (none, s') :=
  ⟨_, _, _, rfl, runOps_reachable floatOneNan floatFresh_reachable rfl, ⟨by decide, rfl⟩, rfl⟩

/-- C6 as stated for every key fails on `float64` keys: after `Put(NaN)`, `Put(NaN)` the
level 0 chain holds two cells with key `NaN`: the keys do not increase strictly (no
comparison with `NaN` is true) and a key occurs twice. -/
theorem C6_float_nan_counterexample :
    ∃ s t, runOps floatNanNan floatFresh = .ok (s, t) ∧ Reachable s ∧
      (chainOf s 0).map (keyOf s.heap) = [.nan, .nan] ∧
      ¬ ((chainOf s 0).map (keyOf s.heap)).Pairwise (fun x y => Key.lt x y = true) ∧
      ¬ ((chainOf s 0).map (keyOf s.heap)).Nodup :=
  ⟨_, _, rfl, runOps_reachable floatNanNan floatFresh_reachable rfl, rfl, by decide,
    by decide⟩

/-- C7 as stated for every key fails on `float64` keys: after `Put(1.0)` of height 1,
`Put(NaN)` of height 0 and `Pop(1.0)`, `Length()` is 1 while two cells are reached from
the head along level 0. -/
theorem C7_float_nan_counterexample :
    ∃ s t, runOps floatTallNanPop floatFresh = .ok (s, t) ∧ Reachable s ∧
      Length s = 1 ∧ (chainOf s 0).length = 2 ∧ Chain s.heap 0 s.head (chainOf s 0) none :=
  ⟨_, _, rfl, runOps_reachable floatTallNanPop floatFresh_reachable rfl, rfl, rfl,
    ⟨rfl, rfl, rfl⟩⟩

/-- C8 as stated for every key fails on `float64` keys: after `Put(1.0)`, `Put(NaN)`,
`Put(2.0)` level 0 is `[2.0, NaN, 1.0]`; `FindMax` returns the value of the last cell,
whose key is `1.0`, while the larger key `2.0` is stored. -/
theorem C8_float_nan_counterexample :
    ∃ s t, runOps floatThree floatFresh = .ok (s, t) ∧ Reachable s ∧
      (chainOf s 0).map (keyOf s.heap) = [.num 2, .nan, .num 1] ∧
      (chainOf s 0).map (valOf s.heap) = ["two", "nan", "one"] ∧
      Key.lt (Float64Key.num 1) (Float64Key.num 2) = true ∧
      FindMax s = .ok (some "one") :=
  ⟨_, _, rfl, runOps_reachable floatThree floatFresh_reachable rfl, rfl, rfl, rfl, rfl⟩

/-- C9 as stated for every key fails on `float64` keys: after `Put(1.0)`, `Put(NaN)`,
`Put(2.0)` level 0 is `[2.0, NaN, 1.0]`; `FindMin` returns the value of `head.next[0]`,
whose key is `2.0`, while the smaller key `1.0` is stored. -/
theorem C9_float_nan_counterexample :
    ∃ s t, runOps floatThree floatFresh = .ok (s, t) ∧ Reachable s ∧
      (chainOf s 0).map (keyOf s.heap) = [.num 2, .nan, .num 1] ∧
      (chainOf s 0).map (valOf s.heap) = ["two", "nan", "one"] ∧
      Key.lt (Float64Key.num 1) (Float64Key.num 2) = true ∧
      FindMin s = .ok (some "two") :=
  ⟨_, _, rfl, runOps_reachable floatThree floatFresh_reachable rfl, rfl, rfl, rfl, rfl⟩

/-- C10 as stated for every key fails on `float64` keys: after `Put(5.0)` of height 1 and
`Put(NaN)` of height 0, level 0 is `[NaN, 5.0]`; `PopMax` returns the value of `5.0` and
decrements the length once, but it clears `head.next[0]`, so the entry with key `NaN` is
unlinked as well: the level 0 chain is empty afterwards. -/
theorem C10_float_nan_counterexample :
    ∃ s t s', runOps floatFiveNan floatFresh = .ok (s, t) ∧ Reachable s ∧
      (chainOf s 0).map (keyOf s.heap) = [.nan, .num 5] ∧
      PopMax s = .ok (some "five", s') ∧ Length s' = 1 ∧ chainOf s' 0 = [] ∧
      chainOf s' 0 ≠ (chainOf s 0).filter (fun b => decide (b ≠ 1)) :=
  ⟨_, _, _, rfl, runOps_reachable floatFiveNan floatFresh_reachable rfl, rfl, rfl, rfl, rfl,
    by decide⟩

/-- C11 as stated for every key fails on `float64` keys: after `Put(1.0)`, `Put(NaN)`,
`Put(2.0)` level 0 is `[2.0, NaN, 1.0]`; `PopMin` removes the first cell, whose key `2.0`
is not the minimum since `1.0` is stored, and afterwards `Find(1.0)` returns
`ErrNotFound` although the cell with key `1.0` is still on the level 0 chain. -/
theorem C11_float_nan_counterexample :
    ∃ s t s', runOps floatThree floatFresh = .ok (s, t) ∧ Reachable s ∧
      (chainOf s 0).map (keyOf s.heap) = [.num 2, .nan, .num 1] ∧
      Key.lt (Float64Key.num 1) (Float64Key.num 2) = true ∧
      PopMin s = .ok (some "two", s') ∧
      (chainOf s' 0).map (keyOf s'.heap) = [.nan, .num 1] ∧
      Find s' (.num 1) = .ok none :=
  ⟨_, _, _, rfl, runOps_reachable floatThree floatFresh_reachable rfl, rfl, rfl, rfl, rfl,
    rfl⟩

/-- C12 as stated for every key fails on `float64` keys: after `Put(5.0)` of height 1,
`Put(NaN)` of height 0 and `PopMax()`, every level of the list is empty, emptied by a
removal, but `Length()` is 1. -/
theorem C12_float_nan_counterexample :
    ∃ s t, runOps floatFiveNanPopMax floatFresh = .ok (s, t) ∧ Reachable s ∧
      chainOf s 0 = [] ∧ chainOf s 1 = [] ∧ chainOf s 2 = [] ∧ chainOf s 3 = [] ∧
      Length s = 1 ∧ FindMin s = .ok none :=
  ⟨_, _, rfl, runOps_reachable floatFiveNanPopMax floatFresh_reachable rfl, rfl, rfl, rfl,
    rfl, rfl, rfl⟩

/-- C16 as stated for every key fails on `float64` keys: after `Put(1.0)` of height 1,
`Put(NaN)` of height 0 and `Pop(1.0)`, the cell at address 1 is on the level 0 chain and
has a level 1 link (height 1), but it is not on the level 1 chain, which is empty. -/
theorem C16_float_nan_counterexample :
    ∃ s t, runOps floatTallNanPop floatFresh = .ok (s, t) ∧ Reachable s ∧
      1 ≤ s.level ∧ 1 ∈ chainOf s 0 ∧ 1 < lenOf s.heap 1 ∧ 1 ∉ chainOf s 1 ∧
      chainOf s 1 = [] :=
  ⟨_, _, rfl, runOps_reachable floatTallNanPop floatFresh_reachable rfl, by decide,
    by decide, by decide, by decide, rfl⟩

/-- C17 as stated for every key fails on `float64` keys: after `Put(5.0)` of height 1 and
`Put(NaN)` of height 0, `PopMax` and the per-level removal of the specification return
the same value but not the same list: `PopMax` clears `head.next[0]` and leaves level 0
empty, while the per-level search stops at the head on level 0, whose link is not the
maximum, and clears nothing there. -/
theorem C17_float_nan_counterexample :
    ∃ s t s1 s2, runOps floatFiveNan floatFresh = .ok (s, t) ∧ Reachable s ∧
      PopMax s = .ok (some "five", s1) ∧ specPopMax s = .ok (some "five", s2) ∧
      chainOf s1 0 = [] ∧ chainOf s2 0 = [2, 1] ∧ specPopMax s ≠ PopMax s :=
  ⟨_, _, _, _, rfl, runOps_reachable floatFiveNan floatFresh_reachable rfl, rfl, rfl, rfl,
    rfl, fun h => by
      have h2 := congrArg (fun r => (stateOr floatFresh.1 r).heap.length + (chainOf (stateOr floatFresh.1 r) 0).length) h
      revert h2
      decide⟩

/-- C19 as stated for every key fails on `float64` keys: after `Put(1.0)` of height 1,
`Put(NaN)` of height 0 and `Pop(1.0)`, the search of `PopMax` ends on the cell with key
`1.0`, which has two links, with `pres[1]` equal to `nil`, and `pres[1].next[1] = nil`
dereferences it: `PopMax` panics. -/
theorem C19_float_nan_counterexample :
    ∃ s t pres, runOps floatTallNanPop floatFresh = .ok (s, t) ∧ Reachable s ∧
      popMaxLevels s.heap s.heap.length (s.level + 1) s.head none
        (List.replicate (s.level + 1) none) = .ok (1, pres) ∧
      lenOf s.heap 1 = 2 ∧ pres[1]? = some none ∧
      PopMax s = .error .nilDeref :=
  ⟨_, _, _, rfl, runOps_reachable floatTallNanPop floatFresh_reachable rfl, rfl, rfl, rfl,
    rfl⟩

/-- C20 as stated for every key fails on `float64` keys: on the list holding the key
`1.0`, `Find(1.0)` returns its value; after `Put(NaN, _)`, a mutation by the different
key `NaN`, `Find(1.0)` returns `ErrNotFound`. -/
theorem C20_float_nan_counterexample :
    ∃ s t s1, runOps floatOne floatFresh = .ok (s, t) ∧ Reachable s ∧
      Float64Key.num 1 ≠ Float64Key.nan ∧ Find s (.num 1) = .ok (some "one") ∧
      Put s .nan "nan" heightZero = .ok (none, s1) ∧ Find s1 (.num 1) = .ok none ∧
      Find s1 (.num 1) ≠ Find s (.num 1) :=
  ⟨_, _, _, rfl, runOps_reachable floatOne floatFresh_reachable rfl, by decide, rfl, rfl, rfl,
    fun h => by
      have h2 := congrArg (fun r => match r with
        | Except.ok (some _) => true
        | _ => false) h
      revert h2
      decide⟩

end Theory

end GoSkipList
